import Mathlib

set_option linter.unusedSectionVars false

/-!
Verification development for the transactional B-Tree core of the
tinychain repository: the B-Tree engine (`src/host/btree/src/file.rs`),
the transactional lock (`src/src/transaction/lock.rs`), schema
validation and persisted-state load.

Keys are tuples of typed values compared by a value collator.  The
collator is external to the repository, so per its contract in the
specification ("Implementations must be total orders consistent with
equality") it is modelled by the `compare` of an arbitrary linear order
on the value type `V`; a key is a `List V`.
-/

namespace TC

variable {V : Type} [LinearOrder V]

/-- Modelled from the spec: the collator contract.  `cmpK` compares two
keys lexicographically component by component, as the collator's
`compare_slice` does on key slices (`collate::Collate`, external to the
repository). -/
def cmpK : List V → List V → Ordering
  | [], [] => .eq
  | [], _ :: _ => .lt
  | _ :: _, [] => .gt
  | a :: as, b :: bs =>
    match compare a b with
    | .lt => .lt
    | .gt => .gt
    | .eq => cmpK as bs

/-- Modelled from the spec: a `Range` is "a triple `(prefix, start, end)`
where `prefix` is a (possibly empty) fixed equality prefix of column
values, and `start`/`end` are optional half-open bounds on the next
column after the prefix" (the `Range` type lives in the btree crate's
`mod.rs`, which is not among the provided sources).  `pre` is the
equality prefix, `start` the inclusive lower bound and `stop` the
exclusive upper bound on the next column. -/
structure KeyRange (V : Type) where
  pre : List V
  start : Option V
  stop : Option V

/-- Modelled from the spec: the unbounded default range, which matches
every key. -/
def defaultRange : KeyRange V := ⟨[], none, none⟩

/-- Modelled from the spec: the exact range of a key `k` (prefix `k`
itself, no bounds), as used by `delete_range(τ, exact(k))`. -/
def exactRange (k : List V) : KeyRange V := ⟨k, none, none⟩

/-- Modelled from the spec: classify a key against a range.  A key is
`.lt` (strictly below the range), `.eq` (in the range: it begins with
the prefix and its next component satisfies the bounds), or `.gt`
(strictly above). -/
def rangeCmp (R : KeyRange V) (k : List V) : Ordering :=
  match cmpK (k.take R.pre.length) R.pre with
  | .lt => .lt
  | .gt => .gt
  | .eq =>
    match k.drop R.pre.length with
    | [] => .eq
    | x :: _ =>
      match R.start with
      | some s =>
        if x < s then .lt
        else
          match R.stop with
          | some e => if e ≤ x then .gt else .eq
          | none => .eq
      | none =>
        match R.stop with
        | some e => if e ≤ x then .gt else .eq
        | none => .eq

/-- The `NodeKey` struct of `src/host/btree/src/file.rs` (lines 35-48):
a key plus a tombstone bit. -/
structure NodeKey (V : Type) where
  deleted : Bool
  value : List V
deriving DecidableEq

instance : Inhabited (NodeKey V) := ⟨⟨false, []⟩⟩

/-- `NodeKey::new` (file.rs lines 42-47): a fresh, live node key. -/
def NodeKey.new (value : List V) : NodeKey V := ⟨false, value⟩

/-- The `Node` struct of `src/host/btree/src/file.rs` (lines 93-100).
In the source a node's `children` are block ids resolved through the
transactional block file; here each child id is replaced by the subtree
it resolves to, which is how every traversal in the source dereferences
it.  The `parent` back reference is dropped: it is used only by
load-time root identification, which is modelled separately. -/
inductive Node (V : Type) : Type where
  | mk (leaf : Bool) (keys : List (NodeKey V)) (children : List (Node V)) (rebalance : Bool) :
      Node V

@[simp] def Node.leaf : Node V → Bool
  | .mk l _ _ _ => l

@[simp] def Node.keys : Node V → List (NodeKey V)
  | .mk _ k _ _ => k

@[simp] def Node.children : Node V → List (Node V)
  | .mk _ _ c _ => c

@[simp] def Node.rebalance : Node V → Bool
  | .mk _ _ _ r => r

instance : Inhabited (Node V) := ⟨.mk true [] [] false⟩

/-- Height of a node, used as the fuel bound for the fueled recursions
below (the source recurses through block reads; the recursion depth is
bounded by the tree height). -/
def Node.height : Node V → Nat
  | .mk _ _ children _ =>
    1 + children.attach.foldr (fun c m => max (Node.height c.val) m) 0
decreasing_by
  have := List.sizeOf_lt_of_mem c.property
  simp only [Node.mk.sizeOf_spec]
  omega

/-- Modelled from the spec: `bisect_left(keys, key)` "returns the
leftmost insertion index for an exact key" (the implementation lives in
the external `collate` crate).  On a sorted key list this is the length
of the maximal prefix of keys collating strictly below `key`;
tombstoned keys count for ordering. -/
def bisectLeft (keys : List (NodeKey V)) (k : List V) : Nat :=
  (keys.takeWhile (fun nk => cmpK nk.value k == .lt)).length

/-- Modelled from the spec: `bisect(node.keys, range)` "returns `(l, r)`
such that `keys[0..l]` are strictly below the range, `keys[l..r]`
overlap it, and `keys[r..]` are strictly above" (implementation in the
external `collate` crate). -/
def bisectRange (R : KeyRange V) (keys : List (NodeKey V)) : Nat × Nat :=
  let l := (keys.takeWhile (fun nk => rangeCmp R nk.value == .lt)).length
  let r := l + ((keys.drop l).takeWhile (fun nk => rangeCmp R nk.value != .gt)).length
  (l, r)

/-- Clearing the tombstone of the key at index `i`, as the source does
with `node.keys[i].deleted = false` (file.rs lines 318-321, 349-352). -/
def reviveKeys (keys : List (NodeKey V)) (i : Nat) : List (NodeKey V) :=
  keys.set i ⟨false, (keys.getD i default).value⟩

/-- `BTreeFile::split_child` (file.rs lines 531-569) at the tree level.
The source takes the parent node (write-locked) and the index `i` of a
full child; it removes the child's median key `child.keys[order-1]`,
inserts it into the parent's keys at `i`, moves the child's upper keys
(and, for an internal child, its upper `children`) into a freshly
created node, and inserts the new node into the parent's children at
`i+1`. -/
def splitChild (m : Nat) (parent : Node V) (i : Nat) : Node V :=
  let child := parent.children.getD i default
  let median := child.keys.getD (m - 1) default
  let restKeys := child.keys.eraseIdx (m - 1)
  let newNode : Node V :=
    .mk child.leaf (restKeys.drop (m - 1))
      (if child.leaf then [] else child.children.drop m) false
  let child' : Node V :=
    .mk child.leaf (restKeys.take (m - 1))
      (if child.leaf then child.children else child.children.take m) child.rebalance
  .mk parent.leaf (parent.keys.insertIdx i median)
    (List.insertIdx (i + 1) newNode (parent.children.set i child')) parent.rebalance

/-- `BTreeFile::_insert` (file.rs lines 304-367), written with explicit
fuel: every recursive call of the source consumes one unit, and the
drivers below supply fuel `2·height + 2`, which is shown sufficient.
Steps: `i := bisect_left(keys, key)`; a collator-equal key at `i` has
its tombstone cleared (or nothing happens); a leaf inserts the new key
at `i`; otherwise the child at `i` is split first if full, after which
the key is compared to the median now at `keys[i]` to decide where to
recurse (on `Less` the source re-runs `_insert` on the same node). -/
def insertAux (m : Nat) : Nat → Node V → List V → Node V
  | 0, node, _ => node
  | fuel + 1, node, k =>
    let i := bisectLeft node.keys k
    if i < node.keys.length ∧ cmpK (node.keys.getD i default).value k = .eq then
      if (node.keys.getD i default).deleted then
        .mk node.leaf (reviveKeys node.keys i) node.children node.rebalance
      else node
    else if node.leaf then
      .mk node.leaf (node.keys.insertIdx i (NodeKey.new k)) node.children node.rebalance
    else
      let child := node.children.getD i default
      if child.keys.length = 2 * m - 1 then
        let node' := splitChild m node i
        match cmpK k (node'.keys.getD i default).value with
        | .lt => insertAux m fuel node' k
        | .eq =>
          if (node'.keys.getD i default).deleted then
            .mk node'.leaf (reviveKeys node'.keys i) node'.children node'.rebalance
          else node'
        | .gt =>
          .mk node'.leaf node'.keys
            (node'.children.set (i + 1)
              (insertAux m fuel (node'.children.getD (i + 1) default) k))
            node'.rebalance
      else
        .mk node.leaf node.keys
          (node.children.set i (insertAux m fuel child k)) node.rebalance

/-- `BTreeInstance::insert` for `BTreeFile` (file.rs lines 635-692): if
the root is full, push the old root under a fresh non-leaf root, split
it, and insert into the result; otherwise insert into the root. -/
def insertBTree (m : Nat) (root : Node V) (k : List V) : Node V :=
  if root.keys.length = 2 * m - 1 then
    let newRoot : Node V := .mk false [] [root] false
    let split := splitChild m newRoot 0
    insertAux m (2 * split.height + 2) split k
  else
    insertAux m (2 * root.height + 2) root k

/-- Tombstoning the keys with indices in `[l, r)`, as the loop
`for i in l..r { node.keys[i].deleted = true; }` does
(file.rs lines 271-273 and 281-284). -/
def tombstoneSpan (keys : List (NodeKey V)) (l r : Nat) : List (NodeKey V) :=
  keys.take l ++ ((keys.drop l).take (r - l)).map (fun nk => ⟨true, nk.value⟩) ++ keys.drop r

/-- `BTreeFile::_delete_range` (file.rs lines 249-297), fueled.  At each
node `(l, r) := bisect(keys, range)`.  A leaf with `l = r` is left
alone; otherwise the keys in `[l, r)` are tombstoned and `rebalance`
set.  An internal node with `r > l` additionally recurses into the
children `l ..= r`; with `l = r` it recurses into child `r` only. -/
def deleteAux (R : KeyRange V) : Nat → Node V → Node V
  | 0, node => node
  | fuel + 1, node =>
    let lr := bisectRange R node.keys
    let l := lr.1
    let r := lr.2
    if node.leaf then
      if l = r then node
      else .mk node.leaf (tombstoneSpan node.keys l r) node.children true
    else if l < r then
      .mk node.leaf (tombstoneSpan node.keys l r)
        (node.children.take l ++
          ((node.children.drop l).take (r - l + 1)).map (fun c => deleteAux R fuel c) ++
          node.children.drop (r + 1))
        true
    else
      .mk node.leaf node.keys
        (node.children.set r (deleteAux R fuel (node.children.getD r default)))
        node.rebalance

/-- `BTreeFile::delete_range` (file.rs lines 299-302): delegate to
`_delete_range` from the root. -/
def deleteRangeB (node : Node V) (R : KeyRange V) : Node V :=
  deleteAux R node.height node

/-- `BTreeFile::_slice` (file.rs lines 369-434), fueled.  A leaf yields
`keys[l..r]` skipping tombstones; an internal node yields, for each
`i ∈ [l, r)`, the slice of child `i` followed by `keys[i]` (when not
tombstoned), and finally the slice of child `r`.  The stream of streams
(`FuturesOrdered` + `try_flatten`) is modelled as a flattened list. -/
def sliceAux (R : KeyRange V) : Nat → Node V → List (List V)
  | 0, _ => []
  | fuel + 1, node =>
    let lr := bisectRange R node.keys
    let l := lr.1
    let r := lr.2
    if node.leaf then
      (((node.keys.drop l).take (r - l)).filter (fun nk => !nk.deleted)).map (fun nk => nk.value)
    else
      ((((node.children.drop l).take (r - l)).zip ((node.keys.drop l).take (r - l))).map
          (fun p => sliceAux R fuel p.1 ++ if p.2.deleted then [] else [p.2.value])).flatten ++
        sliceAux R fuel (node.children.getD r default)

/-- `BTreeFile::_slice_reverse` (file.rs lines 436-505), fueled.  The
reverse slice of child `r` comes first; then for each `i` from `r-1`
down to `l`, `keys[i]` (when not tombstoned) followed by the reverse
slice of child `i`.  Leaves are filtered then reversed. -/
def sliceRevAux (R : KeyRange V) : Nat → Node V → List (List V)
  | 0, _ => []
  | fuel + 1, node =>
    let lr := bisectRange R node.keys
    let l := lr.1
    let r := lr.2
    if node.leaf then
      ((((node.keys.drop l).take (r - l)).filter (fun nk => !nk.deleted)).reverse).map
        (fun nk => nk.value)
    else
      sliceRevAux R fuel (node.children.getD r default) ++
        ((((node.children.drop l).take (r - l)).zip
            ((node.keys.drop l).take (r - l))).reverse.map
          (fun p => (if p.2.deleted then [] else [p.2.value]) ++ sliceRevAux R fuel p.1)).flatten

/-- `BTreeFile::rows_in_range` (file.rs lines 507-529): read the root
and dispatch to `_slice` or `_slice_reverse`. -/
def rowsInRange (node : Node V) (R : KeyRange V) (reverse : Bool) : List (List V) :=
  if reverse then sliceRevAux R node.height node else sliceAux R node.height node

/-- `BTreeInstance::keys` (file.rs lines 694-696):
`rows_in_range(txn_id, Range::default(), false)`. -/
def keysStream (node : Node V) : List (List V) :=
  rowsInRange node defaultRange false

/-- `BTreeInstance::is_empty` for `BTreeFile` (file.rs lines 604-612):
whether the root node's (physical) key list is empty. -/
def isEmptyB (node : Node V) : Bool :=
  node.keys.isEmpty

/-- `BTreeFile::create` (file.rs lines 232-247) stores a single empty
leaf root `Node::new(true, None)`. -/
def emptyRoot : Node V := .mk true [] [] false

/-! ## The transactional lock (`src/src/transaction/lock.rs`)

The `TxnLock` state is modelled as a record: `lastCommit`, the readers
refcount map (an association list, mirroring the `BTreeMap<TxnId,
usize>`), the reserved writer, the `writer` flag, the waker queue (a
list over an opaque waker type `W`), the canonical `value`, and the
per-transaction `value_at` map (as a function to `Option`).  Transaction
ids are `Nat`. -/

/-- Lookup in a readers association list (`BTreeMap::get`). -/
def alookup (l : List (Nat × Nat)) (k : Nat) : Option Nat :=
  (l.find? (fun p => p.1 == k)).map Prod.snd

/-- Update the count stored under `k` (`BTreeMap::get_mut` then write). -/
def aUpdate (l : List (Nat × Nat)) (k v : Nat) : List (Nat × Nat) :=
  l.map (fun p => if p.1 = k then (k, v) else p)

/-- Remove the entry under `k` (`BTreeMap::remove`). -/
def aRemove (l : List (Nat × Nat)) (k : Nat) : List (Nat × Nat) :=
  l.filter (fun p => p.1 != k)

/-- Largest key of the readers map (`readers.keys().max()`). -/
def maxKey (l : List (Nat × Nat)) : Option Nat :=
  l.foldr (fun p acc => match acc with | none => some p.1 | some m => some (max p.1 m)) none

/-- The state of a `TxnLock` (lock.rs lines 115-127): `LockState` plus
the canonical value and the `value_at` map of `Inner`. -/
structure LockState (T : Type) (W : Type) where
  lastCommit : Nat
  readers : List (Nat × Nat)
  reserved : Option Nat
  writer : Bool
  wakers : List W
  value : T
  valueAt : Nat → Option T

/-- Outcome of `try_read`/`try_write`: `Err(Conflict)`, `Ok(None)`
(suspend), or `Ok(Some(guard))` with the mutated lock state. -/
inductive TryOutcome (S : Type) where
  | conflict
  | wait
  | success (s : S)
deriving DecidableEq

def TryOutcome.isSuccess {S : Type} : TryOutcome S → Bool
  | .success _ => true
  | _ => false

/-- Ensure `value_at[τ]` exists, cloning the canonical value if absent
(lock.rs lines 167-170 and 206-209). -/
def ensureAt {T W : Type} (s : LockState T W) (τ : Nat) : LockState T W :=
  { s with valueAt := fun σ => if σ = τ then some ((s.valueAt τ).getD s.value) else s.valueAt σ }

/-- `TxnLock::try_read` (lock.rs lines 155-177).  Conflict if `τ` is
before the last commit with no pending entry; wait while a writer is
reserved at `σ ≤ τ`; otherwise ensure `value_at[τ]` and hand out a
guard.  (This source version does not increment the readers map.) -/
def tryRead {T W : Type} (s : LockState T W) (τ : Nat) : TryOutcome (LockState T W) :=
  if τ < s.lastCommit ∧ (s.valueAt τ).isNone then .conflict
  else
    match s.reserved with
    | some ρ => if ρ ≤ τ then .wait else .success (ensureAt s τ)
    | none => .success (ensureAt s τ)

/-- Reading through a guard dereferences `value_at[τ]`
(lock.rs lines 26-42 and 68-84). -/
def guardDeref {T W : Type} (s : LockState T W) (τ : Nat) : Option T :=
  s.valueAt τ

/-- The write-acquisition effect of `try_write` on success
(lock.rs lines 202-215): set the `writer` flag, reserve `τ`, ensure
`value_at[τ]`. -/
def writeAcquire {T W : Type} (s : LockState T W) (τ : Nat) : LockState T W :=
  { ensureAt s τ with writer := true, reserved := some τ }

/-- `TxnLock::try_write` (lock.rs lines 186-217).  Conflict if a reader
or reserved writer exists strictly in the future; wait for a past
writer, or for an active writer at the same id; otherwise acquire. -/
def tryWrite {T W : Type} (s : LockState T W) (τ : Nat) : TryOutcome (LockState T W) :=
  let afterReaders : TryOutcome (LockState T W) :=
    match s.reserved with
    | some ρ =>
      if τ < ρ then .conflict
      else if ρ < τ then .wait
      else if s.writer then .wait
      else .success (writeAcquire s τ)
    | none => .success (writeAcquire s τ)
  match maxKey s.readers with
  | some mr => if τ < mr then .conflict else afterReaders
  | none => afterReaders

/-- `TxnLockReadGuard::drop` (lock.rs lines 44-61).  Returns the new
state and the list of wakers woken, or `none` for the `panic!` arm.
With refcount above one it just decrements; at exactly one it removes
the entry and drains the whole waker queue, waking every waiter. -/
def dropReadGuard {T W : Type} (s : LockState T W) (τ : Nat) :
    Option (LockState T W × List W) :=
  match alookup s.readers τ with
  | some c =>
    if 1 < c then some ({ s with readers := aUpdate s.readers τ (c - 1) }, [])
    else if c = 1 then some ({ s with readers := aRemove s.readers τ, wakers := [] }, s.wakers)
    else none
  | none => none

/-- `TxnLockWriteGuard::drop` (lock.rs lines 102-113): clear the
`writer` flag and drain the waker queue, waking every waiter. -/
def dropWriteGuard {T W : Type} (s : LockState T W) : LockState T W × List W :=
  ({ s with writer := false, wakers := [] }, s.wakers)

/-- The body of `Transact::commit` for `TxnLock` after the write
acquisition (lock.rs lines 232-242): set `last_commit := τ`, clear
`reserved`, and remove `value_at[τ]`.  The arm
`if let Some(new_value) = lock.value_at.remove(txn_id)` then calls
`value.commit(txn_id, new_value.into_inner())`, but under `async_trait`
that call only constructs a boxed future; the future is the surrounding
`async` block's output value and the single `.await` on the block drops
it unpolled (lock.rs lines 236-243), so the `Mutable::commit`
convergence hook never runs and the canonical value is left
unchanged. -/
def commitBody {T W : Type} (s : LockState T W) (τ : Nat) : LockState T W :=
  { s with lastCommit := τ, reserved := none,
           valueAt := fun σ => if σ = τ then none else s.valueAt σ }

/-- `Transact::commit` for `TxnLock` (lock.rs lines 228-244): acquire
and immediately drop a write guard (`let _ = self.write(txn_id).await`),
then run the commit body.  A `Conflict` from the write future is
discarded by the `let _ =` binding, so the body still runs; in the
`wait` case the source suspends, which this sequential model leaves as
the unchanged state. -/
def commitLock {T W : Type} (s : LockState T W) (τ : Nat) : LockState T W :=
  match tryWrite s τ with
  | .success s1 => commitBody (dropWriteGuard s1).1 τ
  | .conflict => commitBody s τ
  | .wait => s

/-- Modelled from the spec: the spec's description of the commit body,
for comparison with `commitBody` from the source.  Here the pending
value, when present, is promoted to the canonical value through the
value type's convergence hook. -/
def commitBodySpec {T W : Type} (hook : Nat → T → T → T) (s : LockState T W) (τ : Nat) :
    LockState T W :=
  let removed : Nat → Option T := fun σ => if σ = τ then none else s.valueAt σ
  match s.valueAt τ with
  | some v =>
    { s with lastCommit := τ, reserved := none, valueAt := removed, value := hook τ s.value v }
  | none => { s with lastCommit := τ, reserved := none, valueAt := removed }

/-- Modelled from the spec: `commitLockSpec` drives `commitBodySpec`
exactly as `commitLock` drives `commitBody`. -/
def commitLockSpec {T W : Type} (hook : Nat → T → T → T) (s : LockState T W) (τ : Nat) :
    LockState T W :=
  match tryWrite s τ with
  | .success s1 => commitBodySpec hook (dropWriteGuard s1).1 τ
  | .conflict => commitBodySpec hook s τ
  | .wait => s

/-- Actions a writer at transaction `τ` can take through the `TxnLock`
write interface: acquire a write guard (`try_write`), mutate the pending
copy through the guard's `DerefMut` (lock.rs lines 86-100, which writes
`value_at[τ]`), and drop the guard. -/
inductive WriteOp (T : Type) where
  | acquire
  | setPending (x : T)
  | release

/-- Semantics of a single write-side action at `τ`.  `acquire` applies
`try_write`'s success effect when it succeeds (otherwise the state is
unchanged); `setPending` stores into `value_at[τ]` when the entry exists
(a guard dereference requires it); `release` is the write-guard drop. -/
def applyWriteOp {T W : Type} (τ : Nat) (s : LockState T W) : WriteOp T → LockState T W
  | .acquire =>
    match tryWrite s τ with
    | .success s1 => s1
    | _ => s
  | .setPending x =>
    if (s.valueAt τ).isSome then
      { s with valueAt := fun σ => if σ = τ then some x else s.valueAt σ }
    else s
  | .release => (dropWriteGuard s).1

/-! ## Loading a persisted B-Tree and schema validation -/

/-- `Persist::load` for `BTreeFile` (file.rs lines 725-740).  The scan
iterates `block_ids(τ)` in order, reads each block, and takes the first
one whose `parent` is `None` (the loop `break`s); if none is found it
fails with `TCError::internal("BTree corrupted (missing root block)")`.
Only each block's id and `parent` field are consulted, so a block is
modelled as an `(id, parent)` pair. -/
def loadRoot (blocks : List (Nat × Option Nat)) : Except String Nat :=
  match blocks.find? (fun b => b.2.isNone) with
  | some b => .ok b.1
  | none => .error "BTree corrupted (missing root block)"

/-- A column of a `RowSchema` as consulted by `validate_schema`
(file.rs lines 749-786): the fixed byte size of its data type
(`col.dtype().size()`, `none` for variable-width types) and its declared
maximum length (`col.max_len()`). -/
structure Column where
  size : Option Nat
  maxLen : Option Nat

/-- The per-column branch of `validate_schema`'s loop (file.rs lines
751-768): a fixed-width column contributes its size and must not
declare a maximum length; a variable-width column contributes its
declared maximum length and must declare one. -/
def colSize (c : Column) : Except String Nat :=
  match c.size with
  | some s =>
    match c.maxLen with
    | some _ => .error "Maximum length is not applicable to"
    | none => .ok s
  | none =>
    match c.maxLen with
    | some s => .ok s
    | none => .error "Type requires a maximum length"

/-- The accumulated raw key size of `validate_schema`'s loop. -/
def keySizeAcc : List Column → Except String Nat
  | [] => .ok 0
  | c :: rest =>
    match colSize c with
    | .error e => .error e
    | .ok s =>
      match keySizeAcc rest with
      | .error e => .error e
      | .ok t => .ok (s + t)

/-- `DEFAULT_BLOCK_SIZE` (file.rs line 30). -/
def DEFAULT_BLOCK_SIZE : Nat := 4000

/-- `BLOCK_ID_SIZE` (file.rs line 31). -/
def BLOCK_ID_SIZE : Nat := 128

/-- `validate_schema` (file.rs lines 749-786): sum the column sizes, add
2 bytes per column of type tag and 4 bytes for the `leaf`/`deleted`
booleans, then derive the order
`m = (DEFAULT_BLOCK_SIZE - BLOCK_ID_SIZE) / (key_size + BLOCK_ID_SIZE)`
when `DEFAULT_BLOCK_SIZE > 2·key_size + 3·BLOCK_ID_SIZE`, else `m = 2`. -/
def validateSchema (schema : List Column) : Except String Nat :=
  match keySizeAcc schema with
  | .error e => .error e
  | .ok s =>
    let keySize := s + schema.length * 2 + 4
    .ok
      (if DEFAULT_BLOCK_SIZE > keySize * 2 + BLOCK_ID_SIZE * 3 then
        (DEFAULT_BLOCK_SIZE - BLOCK_ID_SIZE) / (keySize + BLOCK_ID_SIZE)
      else 2)

/-! ## Specification-side functions for the B-Tree correctness proofs -/

/-- Interleave the flattened children of an internal node with its
keys: `glue [f0, f1, ..., fn] [k0, ..., k(n-1)]` is
`f0 ++ k0 :: f1 ++ k1 :: ... ++ fn`, the in-order traversal. -/
def glue {α : Type} : List (List α) → List α → List α
  | [], _ => []
  | c :: _, [] => c
  | c :: cs, k :: ks => c ++ k :: glue cs ks

/-- The in-order sequence of physical node keys of a subtree,
tombstones included. -/
def Node.flattenP : Node V → List (NodeKey V)
  | .mk leaf keys children _ =>
    if leaf then keys
    else glue (children.attach.map (fun c => Node.flattenP c.val)) keys
decreasing_by
  have := List.sizeOf_lt_of_mem c.property
  simp only [Node.mk.sizeOf_spec]
  omega

/-- The live (non-tombstoned) keys of a physical key sequence. -/
def liveList (ls : List (NodeKey V)) : List (List V) :=
  (ls.filter (fun nk => !nk.deleted)).map (fun nk => nk.value)

/-- The live keys of a physical key sequence that fall in a range. -/
def sliceSpec (R : KeyRange V) (ls : List (NodeKey V)) : List (List V) :=
  (ls.filter (fun nk => !nk.deleted && (rangeCmp R nk.value == .eq))).map (fun nk => nk.value)

/-- List-level effect of `_insert` on the in-order physical key
sequence: walk past keys collating below `k`; revive the first
collator-equal entry if one exists; otherwise insert a fresh live
entry at the sorted position. -/
def insertL (k : List V) : List (NodeKey V) → List (NodeKey V)
  | [] => [⟨false, k⟩]
  | nk :: rest =>
    match cmpK nk.value k with
    | .lt => nk :: insertL k rest
    | .eq => ⟨false, nk.value⟩ :: rest
    | .gt => ⟨false, k⟩ :: nk :: rest

/-- List-level effect of `_delete_range` on the in-order physical key
sequence: tombstone exactly the keys inside the range. -/
def tombL (R : KeyRange V) (ls : List (NodeKey V)) : List (NodeKey V) :=
  ls.map (fun nk => if rangeCmp R nk.value = .eq then ⟨true, nk.value⟩ else nk)

/-- Strict collation order of a physical key sequence (spec invariant
1 plus uniqueness under collation, tombstones counted). -/
def sortedNK (ls : List (NodeKey V)) : Prop :=
  ls.Pairwise (fun a b => cmpK a.value b.value = .lt)

/-- All keys of the sequence have the schema's arity `L` (enforced by
`validate_key` on every insert). -/
def keyLens (L : Nat) (ls : List (NodeKey V)) : Prop :=
  ∀ nk ∈ ls, nk.value.length = L

/-- Structural well-formedness of a node (spec invariants: a leaf has
no children, an internal node has one more child than keys). -/
inductive Node.WF : Node V → Prop where
  | mk (leaf : Bool) (keys : List (NodeKey V)) (children : List (Node V)) (reb : Bool) :
      (leaf = true → children = []) →
      (leaf = false → children.length = keys.length + 1) →
      (∀ c ∈ children, Node.WF c) →
      Node.WF (.mk leaf keys children reb)

/-- A root reachable through the public API is either a leaf or an
internal node with at least one key (a fresh root is an empty leaf; a
root split always leaves one key in the new root; keys are never
physically removed). -/
def rootOk (s : Node V) : Prop :=
  s.leaf = true ∨ s.keys ≠ []

/-- The mutating B-Tree operations whose composites the observational
claims quantify over. -/
inductive TreeOp (V : Type) where
  | insert (k : List V)
  | deleteRange (R : KeyRange V)

def applyTreeOp (m : Nat) (s : Node V) : TreeOp V → Node V
  | .insert k => insertBTree m s k
  | .deleteRange R => deleteRangeB s R

def applyTreeOps (m : Nat) (s : Node V) (ops : List (TreeOp V)) : Node V :=
  ops.foldl (applyTreeOp m) s

/-- An operation is valid for arity `L` when any inserted key has
length `L` (the `validate_key` precondition). -/
def opValid (L : Nat) : TreeOp V → Prop
  | .insert k => k.length = L
  | .deleteRange _ => True

/-- Observational equivalence of two tree states: after any sequence
of valid operations, both report the same `rows_in_range` stream for
every range and direction (hence the same `keys` stream) and the same
`is_empty`. -/
def obsEquiv (m L : Nat) (s t : Node V) : Prop :=
  ∀ ops : List (TreeOp V), (∀ op ∈ ops, opValid L op) →
    (∀ R rev, rowsInRange (applyTreeOps m s ops) R rev =
      rowsInRange (applyTreeOps m t ops) R rev) ∧
      isEmptyB (applyTreeOps m s ops) = isEmptyB (applyTreeOps m t ops)

/-! ## Theorems -/

@[simp] theorem Node.leaf_mk (l : Bool) (k : List (NodeKey V)) (c : List (Node V)) (r : Bool) :
    (Node.mk l k c r).leaf = l := rfl

@[simp] theorem Node.keys_mk (l : Bool) (k : List (NodeKey V)) (c : List (Node V)) (r : Bool) :
    (Node.mk l k c r).keys = k := rfl

@[simp] theorem Node.children_mk (l : Bool) (k : List (NodeKey V)) (c : List (Node V))
    (r : Bool) : (Node.mk l k c r).children = c := rfl

@[simp] theorem Node.rebalance_mk (l : Bool) (k : List (NodeKey V)) (c : List (Node V))
    (r : Bool) : (Node.mk l k c r).rebalance = r := rfl

theorem cmpK_nil_nil : cmpK ([] : List V) [] = .eq := rfl

theorem cmpK_eq_iff (a b : List V) : cmpK a b = .eq ↔ a = b := by
  induction a generalizing b with
  | nil => cases b <;> simp [cmpK]
  | cons x xs ih =>
    cases b with
    | nil => simp [cmpK]
    | cons y ys =>
      simp only [cmpK]
      cases h : compare x y
      · constructor
        · intro hc; cases hc
        · intro he
          injection he with h1 h2
          subst h1
          exact absurd (compare_lt_iff_lt.mp h) (lt_irrefl x)
      · have hxy : x = y := compare_eq_iff_eq.mp h
        subst hxy
        simp [ih]
      · constructor
        · intro hc; cases hc
        · intro he
          injection he with h1 h2
          subst h1
          exact absurd (compare_gt_iff_gt.mp h) (lt_irrefl x)

theorem cmpK_self (a : List V) : cmpK a a = .eq := (cmpK_eq_iff a a).mpr rfl

theorem cmpK_gt_iff_lt (a b : List V) : cmpK a b = .gt ↔ cmpK b a = .lt := by
  induction a generalizing b with
  | nil => cases b <;> simp [cmpK]
  | cons x xs ih =>
    cases b with
    | nil => simp [cmpK]
    | cons y ys =>
      simp only [cmpK]
      cases h : compare x y
      · have : compare y x = .gt := compare_gt_iff_gt.mpr (compare_lt_iff_lt.mp h)
        rw [this]
        constructor <;> (intro hc; cases hc)
      · have hxy : x = y := compare_eq_iff_eq.mp h
        subst hxy
        rw [compare_eq_iff_eq.mpr rfl]
        exact ih ys
      · have : compare y x = .lt := compare_lt_iff_lt.mpr (compare_gt_iff_gt.mp h)
        rw [this]
        constructor <;> (intro _; rfl)

theorem cmpK_lt_trans {a b c : List V} (h1 : cmpK a b = .lt) (h2 : cmpK b c = .lt) :
    cmpK a c = .lt := by
  induction a generalizing b c with
  | nil =>
    cases b with
    | nil => cases h1
    | cons y ys =>
      cases c with
      | nil => cases h2
      | cons z zs => rfl
  | cons x xs ih =>
    cases b with
    | nil => cases h1
    | cons y ys =>
      cases c with
      | nil => cases h2
      | cons z zs =>
        simp only [cmpK] at h1 h2 ⊢
        cases hxy : compare x y
        case lt =>
          cases hyz : compare y z
          case lt =>
            have hxz : compare x z = .lt :=
              compare_lt_iff_lt.mpr
                (lt_trans (compare_lt_iff_lt.mp hxy) (compare_lt_iff_lt.mp hyz))
            simp only [hxz]
          case eq =>
            have hy : y = z := compare_eq_iff_eq.mp hyz
            subst hy
            simp only [hxy]
          case gt =>
            simp only [hyz] at h2
            exact Ordering.noConfusion h2
        case eq =>
          have hy : x = y := compare_eq_iff_eq.mp hxy
          subst hy
          simp only [hxy] at h1
          cases hyz : compare x z
          case lt => simp only [hyz]
          case eq =>
            simp only [hyz] at h2 ⊢
            exact ih h1 h2
          case gt =>
            simp only [hyz] at h2
            exact Ordering.noConfusion h2
        case gt =>
          simp only [hxy] at h1
          exact Ordering.noConfusion h1

theorem cmpK_ne_lt_of_eq {a b : List V} (h : cmpK a b = .eq) : cmpK a b ≠ .lt := by
  rw [h]; intro hc; cases hc

/-- Every `Ordering` is one of the three constructors. -/
theorem ordering_cases (o : Ordering) : o = .lt ∨ o = .eq ∨ o = .gt := by
  cases o
  · exact Or.inl rfl
  · exact Or.inr (Or.inl rfl)
  · exact Or.inr (Or.inr rfl)

theorem cmpK_lt_of_lt_of_eq {a b c : List V} (h1 : cmpK a b = .lt) (h2 : cmpK b c = .eq) :
    cmpK a c = .lt := by
  rw [(cmpK_eq_iff b c).mp h2] at h1
  exact h1

theorem cmpK_lt_of_eq_of_lt {a b c : List V} (h1 : cmpK a b = .eq) (h2 : cmpK b c = .lt) :
    cmpK a c = .lt := by
  rw [(cmpK_eq_iff a b).mp h1]
  exact h2

theorem cmpK_head_le {x y : V} {xs ys : List V} (h : cmpK (x :: xs) (y :: ys) = .lt) :
    x ≤ y := by
  simp only [cmpK] at h
  cases hxy : compare x y <;> rw [hxy] at h
  · exact le_of_lt (compare_lt_iff_lt.mp hxy)
  · exact le_of_eq (compare_eq_iff_eq.mp hxy)
  · cases h

/-- Lexicographic comparison splits at a common length: comparing
`a ++ b` with `a' ++ b'` where `a` and `a'` have equal length first
compares `a` with `a'` and, on a tie, compares `b` with `b'`. -/
theorem cmpK_append {a a' : List V} (b b' : List V) (h : a.length = a'.length) :
    cmpK (a ++ b) (a' ++ b') = ((cmpK a a').then (cmpK b b')) := by
  induction a generalizing a' with
  | nil =>
    cases a' with
    | nil => simp [cmpK, Ordering.then]
    | cons y ys => simp at h
  | cons x xs ih =>
    cases a' with
    | nil => simp at h
    | cons y ys =>
      simp only [List.length_cons, Nat.succ.injEq] at h
      simp only [List.cons_append, cmpK]
      cases hxy : compare x y
      · simp [Ordering.then]
      · exact ih h
      · simp [Ordering.then]

theorem rangeCmp_default (k : List V) : rangeCmp defaultRange k = .eq := by
  cases k <;> rfl

/-- On a key of the same length as `k`, classifying against `exact k`
agrees with comparing against `k`. -/
theorem rangeCmp_exact (k v : List V) (h : v.length = k.length) :
    rangeCmp (exactRange k) v = cmpK v k := by
  unfold rangeCmp exactRange
  simp only
  rw [List.take_of_length_le (le_of_eq h), List.drop_eq_nil_of_le (le_of_eq h)]
  cases hc : cmpK v k <;> simp

theorem Node.height_mk (leaf : Bool) (keys : List (NodeKey V)) (children : List (Node V))
    (reb : Bool) :
    Node.height (.mk leaf keys children reb) =
      1 + children.attach.foldr (fun c m => max (Node.height c.val) m) 0 := by
  simp only [Node.height]

theorem Node.height_pos (n : Node V) : 0 < n.height := by
  cases n
  unfold Node.height
  omega

theorem Node.height_lt_of_mem {n : Node V} {c : Node V} (h : c ∈ n.children) :
    c.height < n.height := by
  cases n with
  | mk leaf keys children reb =>
    simp only [Node.children] at h
    show c.height < Node.height (.mk leaf keys children reb)
    rw [Node.height_mk]
    have : c.height ≤ children.attach.foldr (fun c m => max (Node.height c.val) m) 0 := by
      induction children with
      | nil => cases h
      | cons hd tl ih =>
        simp only [List.attach_cons, List.foldr_cons, List.foldr_map]
        rcases List.mem_cons.mp h with rfl | hm
        · exact le_max_of_le_left (le_refl _)
        · refine le_max_of_le_right ?_
          have := ih hm
          simpa [List.foldr_map] using this
    omega

theorem bisectLeft_le_length (keys : List (NodeKey V)) (k : List V) :
    bisectLeft keys k ≤ keys.length := by
  unfold bisectLeft
  exact List.Sublist.length_le (List.takeWhile_sublist _)

theorem bisectRange_le (R : KeyRange V) (keys : List (NodeKey V)) :
    (bisectRange R keys).1 ≤ (bisectRange R keys).2 ∧
      (bisectRange R keys).2 ≤ keys.length := by
  unfold bisectRange
  simp only
  constructor
  · omega
  · have h1 : (keys.takeWhile (fun nk => rangeCmp R nk.value == .lt)).length ≤ keys.length :=
      List.Sublist.length_le (List.takeWhile_sublist _)
    have h2 : ((keys.drop ((keys.takeWhile (fun nk => rangeCmp R nk.value == .lt)).length)).takeWhile
        (fun nk => rangeCmp R nk.value != .gt)).length ≤
        keys.length - (keys.takeWhile (fun nk => rangeCmp R nk.value == .lt)).length := by
      have h3 : ((keys.drop ((keys.takeWhile
          (fun nk => rangeCmp R nk.value == .lt)).length)).takeWhile
          (fun nk => rangeCmp R nk.value != .gt)).length ≤
          (keys.drop ((keys.takeWhile (fun nk => rangeCmp R nk.value == .lt)).length)).length :=
        List.Sublist.length_le (List.takeWhile_sublist _)
      rw [List.length_drop] at h3
      exact h3
    omega

theorem flatten_reverse {α : Type} (L : List (List α)) :
    L.flatten.reverse = (L.reverse.map List.reverse).flatten := by
  induction L with
  | nil => rfl
  | cons x xs ih =>
    simp only [List.flatten_cons, List.reverse_append, List.reverse_cons, List.map_append,
      List.map_cons, List.map_nil, List.flatten_append, List.flatten_cons, List.flatten_nil,
      List.append_nil, ih]

theorem sliceRevAux_eq_reverse (R : KeyRange V) (fuel : Nat) (node : Node V) :
    sliceRevAux R fuel node = (sliceAux R fuel node).reverse := by
  induction fuel generalizing node with
  | zero => rfl
  | succ f ih =>
    cases node with
    | mk leaf keys children reb =>
      simp only [sliceAux, sliceRevAux, Node.leaf, Node.keys, Node.children]
      by_cases hleaf : leaf = true
      · simp [hleaf, List.map_reverse]
      · have hl : leaf = false := by
          cases leaf
          · rfl
          · exact absurd rfl hleaf
        simp only [hl, Bool.false_eq_true, if_false, List.reverse_append, flatten_reverse,
          List.map_map, List.map_reverse, ih]
        congr 1
        congr 1
        congr 1
        apply List.map_congr_left
        intro p _
        simp only [Function.comp]
        rw [List.reverse_append]
        congr 1
        by_cases hd : p.2.deleted <;> simp [hd]

/-- C2: for every range `R` and every tree state, the reverse slice
(`rows_in_range(τ, R, true)`) yields exactly the reverse of the forward
slice (`rows_in_range(τ, R, false)`). -/
theorem claim_C2_reversal (node : Node V) (R : KeyRange V) :
    rowsInRange node R true = (rowsInRange node R false).reverse := by
  unfold rowsInRange
  simp only [if_true, if_false]
  exact sliceRevAux_eq_reverse R node.height node

theorem tryWrite_success {T W : Type} {s : LockState T W} {τ : Nat} {s1 : LockState T W}
    (h : tryWrite s τ = .success s1) : s1 = writeAcquire s τ := by
  unfold tryWrite at h
  dsimp only at h
  split at h
  · split at h
    · exact TryOutcome.noConfusion h
    · split at h
      · split at h
        · exact TryOutcome.noConfusion h
        · split at h
          · exact TryOutcome.noConfusion h
          · split at h
            · exact TryOutcome.noConfusion h
            · injection h with h1
              exact h1.symm
      · injection h with h1
        exact h1.symm
  · split at h
    · split at h
      · exact TryOutcome.noConfusion h
      · split at h
        · exact TryOutcome.noConfusion h
        · split at h
          · exact TryOutcome.noConfusion h
          · injection h with h1
            exact h1.symm
    · injection h with h1
      exact h1.symm

theorem applyWriteOp_valueAt {T W : Type} (τ1 τ2 : Nat) (hne : τ1 ≠ τ2)
    (s : LockState T W) (op : WriteOp T) :
    (applyWriteOp τ2 s op).valueAt τ1 = s.valueAt τ1 := by
  cases op with
  | acquire =>
    simp only [applyWriteOp]
    cases h : tryWrite s τ2 with
    | success s1 =>
      rw [tryWrite_success h]
      simp [writeAcquire, ensureAt, hne]
    | conflict => rfl
    | wait => rfl
  | setPending x =>
    simp only [applyWriteOp]
    split
    · simp [hne]
    · rfl
  | release => rfl

/-- C5: snapshot isolation of the `TxnLock`.  For transaction ids
`τ1 < τ2`, the value observed by a successful `read(τ1)` begun before
`commit(τ2)` is independent of any writes performed through
`write(τ2)`: running any sequence of `τ2` write-side actions (acquire,
mutate the pending copy, release) leaves the value dereferenced at `τ1`
exactly as it was without them. -/
theorem claim_C5_snapshot_isolation {T W : Type} (s : LockState T W) (τ1 τ2 : Nat)
    (h12 : τ1 < τ2) (hbegun : (s.valueAt τ1).isSome = true) (ops : List (WriteOp T)) :
    guardDeref (ops.foldl (applyWriteOp τ2) s) τ1 = guardDeref s τ1 := by
  have hne : τ1 ≠ τ2 := Nat.ne_of_lt h12
  induction ops generalizing s with
  | nil => rfl
  | cons op rest ih =>
    simp only [List.foldl_cons]
    have hstep := applyWriteOp_valueAt τ1 τ2 hne s op
    have hbegun2 : ((applyWriteOp τ2 s op).valueAt τ1).isSome = true := by
      rw [hstep]; exact hbegun
    calc guardDeref (rest.foldl (applyWriteOp τ2) (applyWriteOp τ2 s op)) τ1
        = guardDeref (applyWriteOp τ2 s op) τ1 := ih _ hbegun2
      _ = guardDeref s τ1 := hstep

/-- Witness for C5 at a concrete lock state: a reader snapshot at
transaction 1 is unaffected by an acquire/mutate/release cycle at
transaction 2. -/
theorem claim_C5_witness :
    (1 < 2 ∧
        (((⟨0, [], none, false, [], 7, fun σ => if σ = 1 then some 7 else none⟩ :
          LockState Nat Nat).valueAt 1).isSome = true)) ∧
      guardDeref
        (List.foldl (applyWriteOp 2)
          (⟨0, [], none, false, [], 7, fun σ => if σ = 1 then some 7 else none⟩ :
            LockState Nat Nat)
          [WriteOp.acquire, WriteOp.setPending 99, WriteOp.release]) 1 =
        guardDeref
          (⟨0, [], none, false, [], 7, fun σ => if σ = 1 then some 7 else none⟩ :
            LockState Nat Nat) 1 :=
  ⟨⟨by decide, by decide⟩,
    claim_C5_snapshot_isolation _ 1 2 (by decide) (by decide) _⟩

theorem tryRead_success_of {T W : Type} (c : LockState T W) (σ : Nat)
    (hres : c.reserved = none) (hnc : c.lastCommit ≤ σ) :
    tryRead c σ = .success (ensureAt c σ) := by
  unfold tryRead
  have hcond : ¬(σ < c.lastCommit ∧ (c.valueAt σ).isNone = true) := by
    intro hcontra
    omega
  rw [if_neg hcond, hres]

/-- C6 (code bug): at a concrete lock state with canonical value 10 and
a pending entry 42 at transaction 3, the source's commit sets
`last_commit := 3`, clears `reserved` and removes the pending entry, but
leaves the canonical value at 10 — the `Mutable::commit`
convergence-hook future is built and dropped unawaited — so a
subsequent read at σ = 3 succeeds and observes the stale 10, whereas
the spec's description of commit (promote the pending value through
the hook) yields the committed value 42. -/
theorem claim_C6_commit :
    ((⟨1, [], none, false, [], 10, fun σ => if σ = 3 then some 42 else none⟩ :
        LockState Nat Nat).valueAt 3 = some 42) ∧
      (commitLock (⟨1, [], none, false, [], 10,
          fun σ => if σ = 3 then some 42 else none⟩ : LockState Nat Nat) 3).lastCommit =
        3 ∧
      (commitLock (⟨1, [], none, false, [], 10,
          fun σ => if σ = 3 then some 42 else none⟩ : LockState Nat Nat) 3).reserved =
        none ∧
      (commitLock (⟨1, [], none, false, [], 10,
          fun σ => if σ = 3 then some 42 else none⟩ : LockState Nat Nat) 3).valueAt 3 =
        none ∧
      (commitLock (⟨1, [], none, false, [], 10,
          fun σ => if σ = 3 then some 42 else none⟩ : LockState Nat Nat) 3).value = 10 ∧
      (commitLockSpec (fun _ _ v => v) (⟨1, [], none, false, [], 10,
          fun σ => if σ = 3 then some 42 else none⟩ : LockState Nat Nat) 3).value = 42 ∧
      (∃ s2, tryRead (commitLock (⟨1, [], none, false, [], 10,
          fun σ => if σ = 3 then some 42 else none⟩ : LockState Nat Nat) 3) 3 =
            .success s2 ∧
        guardDeref s2 3 = some 10) :=
  ⟨rfl, rfl, rfl, rfl, rfl, rfl, _, rfl, rfl⟩

theorem alookup_aUpdate (l : List (Nat × Nat)) (k v c : Nat)
    (h : alookup l k = some c) : alookup (aUpdate l k v) k = some v := by
  induction l with
  | nil => simp [alookup] at h
  | cons p rest ih =>
    simp only [alookup, aUpdate, List.map_cons, List.find?] at h ⊢
    by_cases hk : p.1 = k
    · simp [hk]
    · have hbeq : (p.1 == k) = false := by
        simp [hk]
      rw [hbeq] at h
      simp only [if_neg hk, hbeq]
      exact ih h

theorem alookup_aRemove (l : List (Nat × Nat)) (k : Nat) :
    alookup (aRemove l k) k = none := by
  induction l with
  | nil => rfl
  | cons p rest ih =>
    simp only [alookup, aRemove, List.filter] at ih ⊢
    by_cases hk : p.1 = k
    · simp only [hk, bne_self_eq_false]
      exact ih
    · have : (p.1 != k) = true := by
        simp [hk]
      rw [this]
      simp only [List.find?]
      have hbeq : (p.1 == k) = false := by
        simp [hk]
      rw [hbeq]
      exact ih

/-- C8 counterexample: at a lock state whose reader entry for
transaction 5 has refcount 1 and whose waker queue holds two waiters,
dropping the read guard wakes both waiters and leaves the queue empty —
not "exactly one" as the claim states (the queue loses two elements). -/
theorem claim_C8_counterexample :
    (dropReadGuard
        (⟨0, [(5, 1)], none, false, [10, 20], 0, fun _ => none⟩ : LockState Nat Nat) 5).map
      (fun p => (p.2.length, p.1.wakers.length)) = some (2, 0) := by
  rfl

/-- C8 (amended): dropping a `TxnLock` read guard for transaction `τ`
decrements `readers[τ]` when the refcount exceeds one (waking nobody);
when the count reaches zero the reader entry is removed and every
suspended waiter is woken, draining the whole wakers queue. -/
theorem claim_C8_drop_read_guard {T W : Type} (s : LockState T W) (τ c : Nat)
    (h : alookup s.readers τ = some c) :
    (1 < c → ∃ s2, dropReadGuard s τ = some (s2, ([] : List W)) ∧
        alookup s2.readers τ = some (c - 1) ∧ s2.wakers = s.wakers) ∧
      (c = 1 → ∃ s2, dropReadGuard s τ = some (s2, s.wakers) ∧
        alookup s2.readers τ = none ∧ s2.wakers = []) := by
  constructor
  · intro hc
    refine ⟨{ s with readers := aUpdate s.readers τ (c - 1) }, ?_, ?_, rfl⟩
    · unfold dropReadGuard
      rw [h]
      simp only [if_pos hc]
    · exact alookup_aUpdate s.readers τ (c - 1) c h
  · intro hc
    subst hc
    refine ⟨{ s with readers := aRemove s.readers τ, wakers := [] }, ?_, ?_, rfl⟩
    · unfold dropReadGuard
      rw [h]
      simp
    · exact alookup_aRemove s.readers τ

/-- Witness for C8 at concrete lock states: refcount 2 is decremented
to 1 with no waiter woken, and refcount 1 removes the entry and wakes
the queued waiter. -/
theorem claim_C8_witness :
    (alookup ([(3, 2)] : List (Nat × Nat)) 3 = some 2) ∧
      ((1 < 2 → ∃ s2, dropReadGuard
            (⟨0, [(3, 2)], none, false, [7], 0, fun _ => none⟩ : LockState Nat Nat) 3 =
            some (s2, ([] : List Nat)) ∧
          alookup s2.readers 3 = some (2 - 1) ∧ s2.wakers = [7]) ∧
        (2 = 1 → ∃ s2, dropReadGuard
            (⟨0, [(3, 2)], none, false, [7], 0, fun _ => none⟩ : LockState Nat Nat) 3 =
            some (s2, [7]) ∧
          alookup s2.readers 3 = none ∧ s2.wakers = [])) :=
  ⟨by decide, claim_C8_drop_read_guard _ 3 2 (by decide)⟩

/-- C7 counterexample: on a block file holding two blocks whose
`parent` is `None`, load returns the first id rather than failing with
`Internal("missing root block")` as the claim states for that case. -/
theorem claim_C7_counterexample :
    loadRoot [(1, none), (2, none)] = .ok 1 := by
  rfl

/-- C7 (amended): over a populated block file, load selects as root the
first block in `block_ids` iteration order whose `parent` field is
`None`, and fails with `Internal("BTree corrupted (missing root
block)")` exactly when no block has `parent = None`; when more than one
parentless block exists the first is chosen and no error is raised. -/
theorem claim_C7_load (blocks : List (Nat × Option Nat)) :
    ((∀ b ∈ blocks, b.2 ≠ none) →
        loadRoot blocks = .error "BTree corrupted (missing root block)") ∧
      (∀ b ∈ blocks, b.2 = none → ∃ id, loadRoot blocks = .ok id ∧ (id, none) ∈ blocks) := by
  constructor
  · intro hall
    unfold loadRoot
    have hnone : blocks.find? (fun b => b.2.isNone) = none := by
      rw [List.find?_eq_none]
      intro b hb
      have := hall b hb
      cases hb2 : b.2 with
      | none => exact absurd hb2 this
      | some v => simp [hb2]
    rw [hnone]
  · intro b hb hb2
    have hsome : (blocks.find? (fun b => b.2.isNone)).isSome := by
      rw [List.find?_isSome]
      exact ⟨b, hb, by simp [hb2]⟩
    cases hf : blocks.find? (fun b => b.2.isNone) with
    | none => rw [hf] at hsome; exact Bool.noConfusion hsome
    | some b1 =>
      refine ⟨b1.1, ?_, ?_⟩
      · unfold loadRoot
        rw [hf]
      · have hmem : b1 ∈ blocks := List.mem_of_find?_eq_some hf
        have hp := List.find?_some hf
        simp only at hp
        have : b1.2 = none := by
          cases hb1 : b1.2 with
          | none => rfl
          | some v => rw [hb1] at hp; exact Bool.noConfusion hp
        have : b1 = (b1.1, none) := by
          cases b1 with
          | mk x y =>
            simp only at this
            rw [this]
        rw [this] at hmem
        exact hmem

/-- Witness for C7 at concrete block files: a file with no parentless
block fails with the internal error, and a file with a parentless block
loads its id. -/
theorem claim_C7_witness :
    ((∀ b ∈ ([(1, some 2)] : List (Nat × Option Nat)), b.2 ≠ none) ∧
        loadRoot [(1, some 2)] = .error "BTree corrupted (missing root block)") ∧
      (((7, none) ∈ ([(4, some 9), (7, none)] : List (Nat × Option Nat)) ∧
          ((7 : Nat), (none : Option Nat)).2 = none) ∧
        ∃ id, loadRoot [(4, some 9), (7, none)] = .ok id ∧
          (id, none) ∈ ([(4, some 9), (7, none)] : List (Nat × Option Nat))) :=
  ⟨⟨by decide, (claim_C7_load [(1, some 2)]).1 (by decide)⟩,
    ⟨⟨by decide, rfl⟩, (claim_C7_load [(4, some 9), (7, none)]).2 (7, none) (by decide) rfl⟩⟩

/-- C9: every order returned by `validate_schema` satisfies `m ≥ 2`;
moreover when `DEFAULT_BLOCK_SIZE > 2·key_size + 3·BLOCK_ID_SIZE` (with
`key_size` the derived pessimistic key size) the returned order is
`⌊(DEFAULT_BLOCK_SIZE − BLOCK_ID_SIZE) / (key_size + BLOCK_ID_SIZE)⌋`,
which is the maximum `m` with
`DEFAULT_BLOCK_SIZE ≥ m·key_size + (m+1)·BLOCK_ID_SIZE`. -/
theorem claim_C9_validate_schema (schema : List Column) (m : Nat)
    (h : validateSchema schema = .ok m) :
    2 ≤ m ∧
      (∀ s, keySizeAcc schema = .ok s →
        DEFAULT_BLOCK_SIZE > 2 * (s + schema.length * 2 + 4) + 3 * BLOCK_ID_SIZE →
          (m = (DEFAULT_BLOCK_SIZE - BLOCK_ID_SIZE) /
              ((s + schema.length * 2 + 4) + BLOCK_ID_SIZE) ∧
            m * (s + schema.length * 2 + 4) + (m + 1) * BLOCK_ID_SIZE ≤ DEFAULT_BLOCK_SIZE ∧
            ∀ mm, mm * (s + schema.length * 2 + 4) + (mm + 1) * BLOCK_ID_SIZE ≤
                DEFAULT_BLOCK_SIZE →
              mm ≤ m)) := by
  have hB : DEFAULT_BLOCK_SIZE = 4000 := rfl
  have hI : BLOCK_ID_SIZE = 128 := rfl
  unfold validateSchema at h
  cases hks : keySizeAcc schema with
  | error e => rw [hks] at h; exact Except.noConfusion h
  | ok s0 =>
    rw [hks] at h
    simp only at h
    injection h with hm
    constructor
    · by_cases hgt : DEFAULT_BLOCK_SIZE > (s0 + schema.length * 2 + 4) * 2 + BLOCK_ID_SIZE * 3
      · rw [if_pos hgt] at hm
        subst hm
        have hpos : 0 < (s0 + schema.length * 2 + 4) + BLOCK_ID_SIZE := by omega
        rw [Nat.le_div_iff_mul_le hpos]
        omega
      · rw [if_neg hgt] at hm
        omega
    · intro s hs hgt2
      injection hs with hs
      subst hs
      have hgt : DEFAULT_BLOCK_SIZE > (s0 + schema.length * 2 + 4) * 2 + BLOCK_ID_SIZE * 3 := by
        omega
      rw [if_pos hgt] at hm
      subst hm
      have hpos : 0 < (s0 + schema.length * 2 + 4) + BLOCK_ID_SIZE := by omega
      set k := s0 + schema.length * 2 + 4 with hk
      set q := (DEFAULT_BLOCK_SIZE - BLOCK_ID_SIZE) / (k + BLOCK_ID_SIZE) with hq
      refine ⟨rfl, ?_, ?_⟩
      · have hdm : q * (k + BLOCK_ID_SIZE) ≤ DEFAULT_BLOCK_SIZE - BLOCK_ID_SIZE := by
          rw [hq]
          exact Nat.div_mul_le_self _ _
        have hexp : q * (k + BLOCK_ID_SIZE) = q * k + q * BLOCK_ID_SIZE := Nat.mul_add q k _
        have hexp2 : (q + 1) * BLOCK_ID_SIZE = q * BLOCK_ID_SIZE + BLOCK_ID_SIZE := by ring
        omega
      · intro mm hmm
        have hexp : mm * (k + BLOCK_ID_SIZE) = mm * k + mm * BLOCK_ID_SIZE := Nat.mul_add mm k _
        have hexp2 : (mm + 1) * BLOCK_ID_SIZE = mm * BLOCK_ID_SIZE + BLOCK_ID_SIZE := by ring
        rw [hq, Nat.le_div_iff_mul_le hpos]
        omega

/-- Witness for C9: a schema with one fixed-width 8-byte column derives
key size 14 and order `(4000 − 128) / (14 + 128) = 27`. -/
theorem claim_C9_witness :
    validateSchema [⟨some 8, none⟩] = .ok 27 ∧
      (2 ≤ 27 ∧
        (∀ s, keySizeAcc [⟨some 8, none⟩] = .ok s →
          DEFAULT_BLOCK_SIZE > 2 * (s + ([⟨some 8, none⟩] : List Column).length * 2 + 4) +
              3 * BLOCK_ID_SIZE →
            (27 = (DEFAULT_BLOCK_SIZE - BLOCK_ID_SIZE) /
                ((s + ([⟨some 8, none⟩] : List Column).length * 2 + 4) + BLOCK_ID_SIZE) ∧
              27 * (s + ([⟨some 8, none⟩] : List Column).length * 2 + 4) +
                  (27 + 1) * BLOCK_ID_SIZE ≤ DEFAULT_BLOCK_SIZE ∧
              ∀ mm, mm * (s + ([⟨some 8, none⟩] : List Column).length * 2 + 4) +
                  (mm + 1) * BLOCK_ID_SIZE ≤ DEFAULT_BLOCK_SIZE →
                mm ≤ 27))) :=
  ⟨rfl, claim_C9_validate_schema [⟨some 8, none⟩] 27 rfl⟩

theorem getD_set_self {α : Type} (l : List α) (i : Nat) (x d : α) (h : i < l.length) :
    (l.set i x).getD i d = x := by
  rw [List.getD_eq_getElem _ d (by simpa using h)]
  exact List.getElem_set_self _

theorem getD_set_ne {α : Type} (l : List α) (i j : Nat) (x d : α) (hne : i ≠ j)
    (hj : j < l.length) : (l.set i x).getD j d = l.getD j d := by
  rw [List.getD_eq_getElem _ d (by simpa using hj), List.getD_eq_getElem _ d hj]
  exact List.getElem_set_ne hne _

theorem getD_insertIdx_self {α : Type} (l : List α) (x d : α) (n : Nat) (hn : n ≤ l.length) :
    (l.insertIdx n x).getD n d = x := by
  rw [List.getD_eq_getElem _ d (by rw [List.length_insertIdx n l hn]; omega)]
  exact List.getElem_insertIdx_self l x n hn

theorem getD_insertIdx_lt {α : Type} (l : List α) (x d : α) (n k : Nat) (hk : k < n)
    (hkl : k < l.length) : (l.insertIdx n x).getD k d = l.getD k d := by
  rw [List.getD_eq_getElem _ d (by have := List.length_le_length_insertIdx l x n; omega),
    List.getD_eq_getElem _ d hkl]
  exact List.getElem_insertIdx_of_lt l x n k hk hkl

theorem getD_insertIdx_shift {α : Type} (l : List α) (x d : α) (n k : Nat)
    (hk : n + k < l.length) : (l.insertIdx n x).getD (n + k + 1) d = l.getD (n + k) d := by
  rw [List.getD_eq_getElem _ d (by rw [List.length_insertIdx n l (by omega)]; omega),
    List.getD_eq_getElem _ d hk]
  exact List.getElem_insertIdx_add_succ l x n k hk

/-- C4: `split_child` on a parent whose child `i` is full (`2m-1` keys)
gives the parent one additional key, inserted at position `i` and equal
to the child's median (formerly at index `m-1`), and one additional
child at position `i+1` (all other keys and children keep their
relative order); afterwards the split child (still at `i`) and the
freshly created node (at `i+1`) each hold exactly `m-1` keys, and when
the child is internal each holds exactly `m` children. -/
theorem claim_C4_split_child (m : Nat) (parent : Node V) (i : Nat) (hm : 2 ≤ m)
    (hik : i ≤ parent.keys.length) (hic : i < parent.children.length)
    (hfull : (parent.children.getD i default).keys.length = 2 * m - 1)
    (hwfc : (parent.children.getD i default).leaf = false →
      (parent.children.getD i default).children.length = 2 * m) :
    (splitChild m parent i).keys.length = parent.keys.length + 1 ∧
      (splitChild m parent i).keys.getD i default =
        (parent.children.getD i default).keys.getD (m - 1) default ∧
      (∀ j, j < i → (splitChild m parent i).keys.getD j default =
        parent.keys.getD j default) ∧
      (∀ j, i ≤ j → j < parent.keys.length →
        (splitChild m parent i).keys.getD (j + 1) default = parent.keys.getD j default) ∧
      (splitChild m parent i).children.length = parent.children.length + 1 ∧
      ((splitChild m parent i).children.getD i default).keys.length = m - 1 ∧
      ((splitChild m parent i).children.getD (i + 1) default).keys.length = m - 1 ∧
      (∀ j, j < i → (splitChild m parent i).children.getD j default =
        parent.children.getD j default) ∧
      (∀ j, i < j → j < parent.children.length →
        (splitChild m parent i).children.getD (j + 1) default =
          parent.children.getD j default) ∧
      ((parent.children.getD i default).leaf = false →
        ((splitChild m parent i).children.getD i default).children.length = m ∧
          ((splitChild m parent i).children.getD (i + 1) default).children.length = m) := by
  cases parent with
  | mk pleaf pkeys pchildren preb =>
    simp only [Node.keys_mk, Node.children_mk] at hik hic hfull hwfc ⊢
    have hm1 : m - 1 < (pchildren.getD i default).keys.length := by omega
    have herase : ((pchildren.getD i default).keys.eraseIdx (m - 1)).length = 2 * m - 2 := by
      rw [List.length_eraseIdx_of_lt hm1]
      omega
    unfold splitChild
    simp only [Node.keys_mk, Node.children_mk]
    have hsetlen : (pchildren.set i
        (Node.mk (pchildren.getD i default).leaf
          (((pchildren.getD i default).keys.eraseIdx (m - 1)).take (m - 1))
          (if (pchildren.getD i default).leaf then (pchildren.getD i default).children
            else (pchildren.getD i default).children.take m)
          (pchildren.getD i default).rebalance)).length = pchildren.length :=
      List.length_set pchildren i _
    refine ⟨?_, ?_, ?_, ?_, ?_, ?_, ?_, ?_, ?_, ?_⟩
    · exact List.length_insertIdx i pkeys hik
    · exact getD_insertIdx_self pkeys _ default i hik
    · intro j hj
      exact getD_insertIdx_lt pkeys _ default i j hj (by omega)
    · intro j hij hjlen
      have hj : j = i + (j - i) := by omega
      rw [hj]
      exact getD_insertIdx_shift pkeys _ default i (j - i) (by omega)
    · rw [List.length_insertIdx (i + 1) _ (by rw [hsetlen]; omega), hsetlen]
    · rw [getD_insertIdx_lt _ _ default (i + 1) i (by omega) (by rw [hsetlen]; omega),
        getD_set_self _ _ _ default hic]
      simp only [Node.keys_mk]
      rw [List.length_take, herase]
      omega
    · rw [getD_insertIdx_self _ _ default (i + 1) (by rw [hsetlen]; omega)]
      simp only [Node.keys_mk]
      rw [List.length_drop, herase]
      omega
    · intro j hj
      rw [getD_insertIdx_lt _ _ default (i + 1) j (by omega) (by rw [hsetlen]; omega),
        getD_set_ne _ i j _ default (by omega) (by omega)]
    · intro j hij hjlen
      have hj : j = (i + 1) + (j - i - 1) := by omega
      rw [hj, getD_insertIdx_shift _ _ default (i + 1) (j - i - 1) (by rw [hsetlen]; omega)]
      rw [show (i + 1) + (j - i - 1) = j from by omega]
      exact getD_set_ne _ i j _ default (by omega) (by omega)
    · intro hleaf
      constructor
      · rw [getD_insertIdx_lt _ _ default (i + 1) i (by omega) (by rw [hsetlen]; omega),
          getD_set_self _ _ _ default hic]
        simp only [Node.children_mk, hleaf, Bool.false_eq_true, if_false]
        rw [List.length_take, hwfc hleaf]
        omega
      · rw [getD_insertIdx_self _ _ default (i + 1) (by rw [hsetlen]; omega)]
        simp only [Node.children_mk, hleaf, Bool.false_eq_true, if_false]
        rw [List.length_drop, hwfc hleaf]
        omega

/-- Witness for C4: splitting the full middle child of a concrete
internal parent with `m = 2`. -/
theorem claim_C4_witness :
    (2 ≤ 2 ∧
        1 ≤ (Node.mk false [⟨false, [(10 : Int)]⟩]
            [Node.mk true [⟨false, [5]⟩] [] false,
              Node.mk true [⟨false, [20]⟩, ⟨false, [30]⟩, ⟨false, [40]⟩] [] false]
            false : Node Int).keys.length ∧
        1 < (Node.mk false [⟨false, [(10 : Int)]⟩]
            [Node.mk true [⟨false, [5]⟩] [] false,
              Node.mk true [⟨false, [20]⟩, ⟨false, [30]⟩, ⟨false, [40]⟩] [] false]
            false : Node Int).children.length) ∧
      ((splitChild 2 (Node.mk false [⟨false, [(10 : Int)]⟩]
          [Node.mk true [⟨false, [5]⟩] [] false,
            Node.mk true [⟨false, [20]⟩, ⟨false, [30]⟩, ⟨false, [40]⟩] [] false]
          false) 1).keys.length = 2 ∧
        ((splitChild 2 (Node.mk false [⟨false, [(10 : Int)]⟩]
          [Node.mk true [⟨false, [5]⟩] [] false,
            Node.mk true [⟨false, [20]⟩, ⟨false, [30]⟩, ⟨false, [40]⟩] [] false]
          false) 1).children.getD 1 default).keys.length = 1) := by
  have h := claim_C4_split_child (V := Int) 2
    (Node.mk false [⟨false, [(10 : Int)]⟩]
      [Node.mk true [⟨false, [5]⟩] [] false,
        Node.mk true [⟨false, [20]⟩, ⟨false, [30]⟩, ⟨false, [40]⟩] [] false]
      false) 1
    (by decide) (by decide) (by decide) (by decide) (by decide)
  exact ⟨⟨by decide, by decide, by decide⟩, by rw [h.1]; rfl, h.2.2.2.2.2.2.1⟩

@[simp] theorem glue_nil_left {α : Type} (ks : List α) : glue ([] : List (List α)) ks = [] := by
  cases ks <;> rfl

@[simp] theorem glue_cons_nil {α : Type} (c : List α) (cs : List (List α)) :
    glue (c :: cs) [] = c := rfl

@[simp] theorem glue_cons_cons {α : Type} (c : List α) (cs : List (List α)) (k : α)
    (ks : List α) : glue (c :: cs) (k :: ks) = c ++ k :: glue cs ks := rfl

theorem flattenP_mk_leaf (keys : List (NodeKey V)) (cs : List (Node V)) (r : Bool) :
    (Node.mk true keys cs r).flattenP = keys := by
  unfold Node.flattenP
  simp

theorem flattenP_mk_internal (keys : List (NodeKey V)) (cs : List (Node V)) (r : Bool) :
    (Node.mk false keys cs r).flattenP = glue (cs.map Node.flattenP) keys := by
  unfold Node.flattenP
  simp only [Bool.false_eq_true, if_false]
  rw [List.attach_map_val cs Node.flattenP]

theorem WF_inv {leaf : Bool} {keys : List (NodeKey V)} {children : List (Node V)} {reb : Bool}
    (h : Node.WF (.mk leaf keys children reb)) :
    (leaf = true → children = []) ∧ (leaf = false → children.length = keys.length + 1) ∧
      ∀ c ∈ children, Node.WF c := by
  cases h with
  | mk _ _ _ _ h1 h2 h3 => exact ⟨h1, h2, h3⟩

theorem sortedNK_append {l1 l2 : List (NodeKey V)} :
    sortedNK (l1 ++ l2) ↔
      sortedNK l1 ∧ sortedNK l2 ∧ ∀ a ∈ l1, ∀ b ∈ l2, cmpK a.value b.value = .lt :=
  List.pairwise_append

theorem sortedNK_cons {a : NodeKey V} {l : List (NodeKey V)} :
    sortedNK (a :: l) ↔ (∀ b ∈ l, cmpK a.value b.value = .lt) ∧ sortedNK l :=
  List.pairwise_cons

/-- Indices strictly below `bisect_left` carry keys collating strictly
below the probe key. -/
theorem bisectLeft_lt_of_lt (keys : List (NodeKey V)) (k : List V) :
    ∀ j, j < bisectLeft keys k → cmpK (keys.getD j default).value k = .lt := by
  induction keys with
  | nil => intro j hj; simp [bisectLeft] at hj
  | cons nk rest ih =>
    intro j hj
    unfold bisectLeft at hj
    rw [List.takeWhile_cons] at hj
    by_cases hp : (cmpK nk.value k == .lt) = true
    · rw [if_pos hp] at hj
      simp only [List.length_cons] at hj
      cases j with
      | zero =>
        simp only [List.getD_cons_zero]
        cases ho : cmpK nk.value k
        · rfl
        · rw [ho] at hp; exact absurd hp (by decide)
        · rw [ho] at hp; exact absurd hp (by decide)
      | succ j0 =>
        simp only [List.getD_cons_succ]
        exact ih j0 (by unfold bisectLeft; omega)
    · rw [if_neg hp] at hj
      simp at hj

/-- The key at index `bisect_left`, when it exists, does not collate
strictly below the probe key. -/
theorem bisectLeft_not_lt (keys : List (NodeKey V)) (k : List V)
    (h : bisectLeft keys k < keys.length) :
    cmpK (keys.getD (bisectLeft keys k) default).value k ≠ .lt := by
  induction keys with
  | nil => simp [bisectLeft] at h
  | cons nk rest ih =>
    unfold bisectLeft at h ⊢
    rw [List.takeWhile_cons] at h ⊢
    by_cases hp : (cmpK nk.value k == .lt) = true
    · rw [if_pos hp] at h ⊢
      simp only [List.length_cons] at h ⊢
      simp only [List.getD_cons_succ]
      exact ih (by unfold bisectLeft; omega)
    · rw [if_neg hp] at h ⊢
      simp only [List.length_nil, List.getD_cons_zero]
      intro hc
      exact hp (by rw [hc]; decide)

theorem rootOk_isEmpty {s : Node V} (hwf : s.WF) (hro : rootOk s) :
    (isEmptyB s = true ↔ s.flattenP = []) := by
  cases s with
  | mk leaf keys children reb =>
    cases leaf with
    | true =>
      rw [flattenP_mk_leaf]
      simp [isEmptyB]
    | false =>
      obtain ⟨h1, h2, h3⟩ := WF_inv hwf
      rcases hro with hro | hro
      · exact absurd hro (by simp)
      · simp only [Node.keys_mk] at hro
        rw [flattenP_mk_internal]
        constructor
        · intro he
          simp [isEmptyB] at he
          exact absurd he hro
        · intro he
          cases keys with
          | nil => exact absurd rfl hro
          | cons k0 ks =>
            cases children with
            | nil => simp at h2
            | cons c0 cs =>
              simp only [List.map_cons, glue_cons_cons] at he
              rcases List.append_eq_nil.mp he with ⟨_, hcons⟩
              exact absurd hcons (by simp)

theorem insertL_append_of_lt {k : List V} {xs ys : List (NodeKey V)}
    (h : ∀ a ∈ xs, cmpK a.value k = .lt) :
    insertL k (xs ++ ys) = xs ++ insertL k ys := by
  induction xs with
  | nil => rfl
  | cons x xs ih =>
    have hx : cmpK x.value k = .lt := h x (List.mem_cons_self x xs)
    simp only [List.cons_append, insertL, hx, List.append_eq]
    rw [ih (fun a ha => h a (List.mem_cons_of_mem x ha))]

theorem insertL_append_of_gt {k : List V} {xs ys : List (NodeKey V)}
    (h : ∀ b, ys.head? = some b → cmpK b.value k = .gt) :
    insertL k (xs ++ ys) = insertL k xs ++ ys := by
  induction xs with
  | nil =>
    cases ys with
    | nil => rfl
    | cons b ys2 =>
      have hb : cmpK b.value k = .gt := h b rfl
      simp only [List.nil_append, insertL, hb]
      rfl
  | cons x xs ih =>
    simp only [List.cons_append, insertL, List.append_eq]
    cases hx : cmpK x.value k
    · simp only [hx, List.cons_append]
      rw [ih]
    · simp only [hx, List.cons_append]
    · simp only [hx, List.cons_append]

theorem insertL_mem_value {k : List V} {ls : List (NodeKey V)} :
    ∀ b ∈ insertL k ls, b.value = k ∨ ∃ a ∈ ls, b.value = a.value := by
  induction ls with
  | nil =>
    intro b hb
    simp only [insertL, List.mem_singleton] at hb
    subst hb
    exact Or.inl rfl
  | cons nk rest ih =>
    intro b hb
    simp only [insertL] at hb
    cases hx : cmpK nk.value k <;> rw [hx] at hb
    · rcases List.mem_cons.mp hb with rfl | hb2
      · exact Or.inr ⟨b, List.mem_cons_self _ _, rfl⟩
      · rcases ih b hb2 with h1 | ⟨a, ha, hv⟩
        · exact Or.inl h1
        · exact Or.inr ⟨a, List.mem_cons_of_mem _ ha, hv⟩
    · rcases List.mem_cons.mp hb with rfl | hb2
      · exact Or.inr ⟨nk, List.mem_cons_self _ _, rfl⟩
      · exact Or.inr ⟨b, List.mem_cons_of_mem _ hb2, rfl⟩
    · rcases List.mem_cons.mp hb with rfl | hb2
      · exact Or.inl rfl
      · exact Or.inr ⟨b, hb2, rfl⟩

theorem insertL_value_self {k : List V} (ls : List (NodeKey V)) :
    ∃ b ∈ insertL k ls, b.value = k := by
  induction ls with
  | nil => exact ⟨⟨false, k⟩, List.mem_singleton.mpr rfl, rfl⟩
  | cons nk rest ih =>
    simp only [insertL]
    cases hx : cmpK nk.value k
    · obtain ⟨b, hb, hv⟩ := ih
      exact ⟨b, List.mem_cons_of_mem _ hb, hv⟩
    · exact ⟨⟨false, nk.value⟩, List.mem_cons_self _ _, (cmpK_eq_iff _ _).mp hx⟩
    · exact ⟨⟨false, k⟩, List.mem_cons_self _ _, rfl⟩

theorem insertL_value_keep {k : List V} {ls : List (NodeKey V)} :
    ∀ a ∈ ls, ∃ b ∈ insertL k ls, b.value = a.value := by
  induction ls with
  | nil => intro a ha; cases ha
  | cons nk rest ih =>
    intro a ha
    simp only [insertL]
    cases hx : cmpK nk.value k
    · rcases List.mem_cons.mp ha with rfl | ha2
      · exact ⟨a, List.mem_cons_self _ _, rfl⟩
      · obtain ⟨b, hb, hv⟩ := ih a ha2
        exact ⟨b, List.mem_cons_of_mem _ hb, hv⟩
    · rcases List.mem_cons.mp ha with rfl | ha2
      · exact ⟨⟨false, a.value⟩, List.mem_cons_self _ _, rfl⟩
      · exact ⟨a, List.mem_cons_of_mem _ ha2, rfl⟩
    · rcases List.mem_cons.mp ha with rfl | ha2
      · exact ⟨a, List.mem_cons_of_mem _ (List.mem_cons_self _ _), rfl⟩
      · exact ⟨a, List.mem_cons_of_mem _ (List.mem_cons_of_mem _ ha2), rfl⟩

theorem insertL_sorted {k : List V} {ls : List (NodeKey V)} (h : sortedNK ls) :
    sortedNK (insertL k ls) := by
  induction ls with
  | nil =>
    simp only [insertL, sortedNK]
    exact List.pairwise_singleton _ _
  | cons nk rest ih =>
    obtain ⟨hrel, hrest⟩ := sortedNK_cons.mp h
    simp only [insertL]
    cases hx : cmpK nk.value k
    · refine sortedNK_cons.mpr ⟨?_, ih hrest⟩
      intro b hb
      rcases insertL_mem_value b hb with hv | ⟨a, ha, hv⟩
      · rw [hv]; exact hx
      · rw [hv]; exact hrel a ha
    · refine sortedNK_cons.mpr ⟨?_, hrest⟩
      intro b hb
      exact hrel b hb
    · refine sortedNK_cons.mpr ⟨?_, h⟩
      intro b hb
      rcases List.mem_cons.mp hb with rfl | hb2
      · exact (cmpK_gt_iff_lt _ _).mp hx
      · exact cmpK_lt_trans ((cmpK_gt_iff_lt _ _).mp hx) (hrel b hb2)

theorem insertL_live {k : List V} {ls : List (NodeKey V)}
    (h : ∀ a ∈ ls, a.deleted = false) :
    ∀ a ∈ insertL k ls, a.deleted = false := by
  induction ls with
  | nil =>
    intro a ha
    simp only [insertL, List.mem_singleton] at ha
    subst ha
    rfl
  | cons nk rest ih =>
    intro a ha
    simp only [insertL] at ha
    cases hx : cmpK nk.value k <;> rw [hx] at ha
    · rcases List.mem_cons.mp ha with rfl | ha2
      · exact h a (List.mem_cons_self _ _)
      · exact ih (fun b hb => h b (List.mem_cons_of_mem _ hb)) a ha2
    · rcases List.mem_cons.mp ha with rfl | ha2
      · rfl
      · exact h a (List.mem_cons_of_mem _ ha2)
    · rcases List.mem_cons.mp ha with rfl | ha2
      · rfl
      · exact h a ha2

theorem ordering_beq_eq : ∀ (o p : Ordering), (o == p) = true → o = p := by
  intro o p h
  cases o <;> cases p <;> first | rfl | exact absurd h (by decide)

theorem bisectLeft_cons_lt {k : List V} {nk : NodeKey V} (rest : List (NodeKey V))
    (h : cmpK nk.value k = .lt) :
    bisectLeft (nk :: rest) k = bisectLeft rest k + 1 := by
  unfold bisectLeft
  rw [List.takeWhile_cons, if_pos (show (cmpK nk.value k == .lt) = true by rw [h]; rfl)]
  simp

theorem bisectLeft_cons_not_lt {k : List V} {nk : NodeKey V} (rest : List (NodeKey V))
    (h : cmpK nk.value k ≠ .lt) :
    bisectLeft (nk :: rest) k = 0 := by
  unfold bisectLeft
  rw [List.takeWhile_cons, if_neg (fun hc => h (ordering_beq_eq _ _ hc))]
  rfl

theorem revive_eq_insertL {k : List V} (ks : List (NodeKey V)) (i : Nat)
    (hsort : sortedNK ks) (hi : i < ks.length)
    (hlt : ∀ j, j < i → cmpK (ks.getD j default).value k = .lt)
    (heq : cmpK (ks.getD i default).value k = .eq) :
    reviveKeys ks i = insertL k ks := by
  induction ks generalizing i with
  | nil => simp at hi
  | cons nk rest ih =>
    cases i with
    | zero =>
      simp only [List.getD_cons_zero] at heq
      unfold reviveKeys
      simp only [List.getD_cons_zero, List.set_cons_zero]
      simp only [insertL, heq]
    | succ i0 =>
      have h0 : cmpK nk.value k = .lt := by
        have := hlt 0 (by omega)
        simpa using this
      unfold reviveKeys
      simp only [List.set_cons_succ, List.getD_cons_succ]
      simp only [insertL, h0]
      congr 1
      have hrec := ih i0 (sortedNK_cons.mp hsort).2 (by simpa using hi)
        (fun j hj => by
          have := hlt (j + 1) (by omega)
          simpa using this)
        (by simpa using heq)
      unfold reviveKeys at hrec
      exact hrec

theorem insertIdx_bisectLeft {k : List V} (ks : List (NodeKey V))
    (hsort : sortedNK ks)
    (hnf : ¬(bisectLeft ks k < ks.length ∧
      cmpK (ks.getD (bisectLeft ks k) default).value k = .eq)) :
    ks.insertIdx (bisectLeft ks k) ⟨false, k⟩ = insertL k ks := by
  induction ks with
  | nil => rfl
  | cons nk rest ih =>
    by_cases hlt : cmpK nk.value k = .lt
    · rw [bisectLeft_cons_lt rest hlt] at hnf ⊢
      simp only [List.insertIdx_succ_cons]
      simp only [insertL, hlt]
      congr 1
      refine ih (sortedNK_cons.mp hsort).2 ?_
      intro ⟨h1, h2⟩
      exact hnf ⟨by simpa using h1, by simpa using h2⟩
    · rw [bisectLeft_cons_not_lt rest hlt] at hnf ⊢
      simp only [List.insertIdx_zero]
      have hne : cmpK nk.value k ≠ .eq := by
        intro hc
        exact hnf ⟨by simp, by simpa using hc⟩
      have hgt : cmpK nk.value k = .gt := by
        cases ho : cmpK nk.value k
        · exact absurd ho hlt
        · exact absurd ho hne
        · rfl
      simp only [insertL, hgt]

theorem glue_replace (k : List V) :
    ∀ (i : Nat) (fs : List (List (NodeKey V))) (ks : List (NodeKey V))
      (F2 : List (NodeKey V)),
      fs.length = ks.length + 1 → i ≤ ks.length →
      sortedNK (glue fs ks) →
      (∀ j, j < i → cmpK (ks.getD j default).value k = .lt) →
      (i < ks.length → cmpK k (ks.getD i default).value = .lt) →
      F2 = insertL k (fs.getD i []) →
      glue (fs.set i F2) ks = insertL k (glue fs ks) := by
  intro i
  induction i with
  | zero =>
    intro fs ks F2 hlen hi hsort hbelow habove hF
    cases fs with
    | nil => simp at hlen
    | cons f0 fs2 =>
      cases ks with
      | nil =>
        have hfs2 : fs2 = [] := by
          simp only [List.length_cons, List.length_nil] at hlen
          exact List.length_eq_zero.mp (by omega)
        subst hfs2
        simp only [List.set_cons_zero, glue_cons_nil]
        rw [hF]
        rfl
      | cons k0 ks2 =>
        simp only [List.set_cons_zero, glue_cons_cons]
        rw [hF]
        simp only [List.getD_cons_zero]
        refine (insertL_append_of_gt ?_).symm
        intro b hb
        simp only [List.head?_cons, Option.some.injEq] at hb
        subst hb
        have hk := habove (by simp)
        simp only [List.getD_cons_zero] at hk
        exact (cmpK_gt_iff_lt _ _).mpr hk
  | succ i0 ih =>
    intro fs ks F2 hlen hi hsort hbelow habove hF
    cases fs with
    | nil => simp at hlen
    | cons f0 fs2 =>
      cases ks with
      | nil => simp at hi
      | cons k0 ks2 =>
        simp only [glue_cons_cons] at hsort ⊢
        obtain ⟨hs1, hs2, hs3⟩ := sortedNK_append.mp hsort
        have hk0 : cmpK k0.value k = .lt := by
          have := hbelow 0 (by omega)
          simpa using this
        rw [List.set_cons_succ]
        simp only [glue_cons_cons]
        rw [insertL_append_of_lt (fun a ha =>
          cmpK_lt_trans (hs3 a ha k0 (List.mem_cons_self _ _)) hk0)]
        simp only [insertL, hk0]
        congr 2
        refine ih fs2 ks2 F2 (by simpa using hlen) (by simpa using hi)
          (sortedNK_cons.mp hs2).2 ?_ ?_ (by simpa using hF)
        · intro j hj
          have := hbelow (j + 1) (by omega)
          simpa using this
        · intro hlt2
          have := habove (by simpa using Nat.succ_lt_succ hlt2)
          simpa using this

theorem glue_revive (k : List V) :
    ∀ (i : Nat) (fs : List (List (NodeKey V))) (ks : List (NodeKey V)),
      fs.length = ks.length + 1 → i < ks.length →
      sortedNK (glue fs ks) →
      (∀ j, j < i → cmpK (ks.getD j default).value k = .lt) →
      cmpK (ks.getD i default).value k = .eq →
      glue fs (reviveKeys ks i) = insertL k (glue fs ks) := by
  intro i
  induction i with
  | zero =>
    intro fs ks hlen hi hsort hbelow heq
    cases fs with
    | nil => simp at hlen
    | cons f0 fs2 =>
      cases ks with
      | nil => simp at hi
      | cons k0 ks2 =>
        simp only [List.getD_cons_zero] at heq
        unfold reviveKeys
        simp only [List.getD_cons_zero, List.set_cons_zero, glue_cons_cons]
        obtain ⟨hs1, hs2, hs3⟩ := sortedNK_append.mp (by simpa using hsort)
        rw [insertL_append_of_lt (fun a ha =>
          cmpK_lt_of_lt_of_eq (hs3 a ha k0 (List.mem_cons_self _ _)) heq)]
        simp only [insertL, heq]
  | succ i0 ih =>
    intro fs ks hlen hi hsort hbelow heq
    cases fs with
    | nil => simp at hlen
    | cons f0 fs2 =>
      cases ks with
      | nil => simp at hi
      | cons k0 ks2 =>
        have hk0 : cmpK k0.value k = .lt := by
          have := hbelow 0 (by omega)
          simpa using this
        unfold reviveKeys
        simp only [List.set_cons_succ, List.getD_cons_succ, glue_cons_cons]
        obtain ⟨hs1, hs2, hs3⟩ := sortedNK_append.mp (by simpa using hsort)
        rw [insertL_append_of_lt (fun a ha =>
          cmpK_lt_trans (hs3 a ha k0 (List.mem_cons_self _ _)) hk0)]
        simp only [insertL, hk0]
        congr 2
        have hrec := ih fs2 ks2 (by simpa using hlen) (by simpa using hi)
          (sortedNK_cons.mp hs2).2
          (fun j hj => by
            have := hbelow (j + 1) (by omega)
            simpa using this)
          (by simpa using heq)
        unfold reviveKeys at hrec
        exact hrec

theorem map_insertIdx {α β : Type} (f : α → β) :
    ∀ (n : Nat) (l : List α) (x : α),
      (l.insertIdx n x).map f = (l.map f).insertIdx n (f x)
  | 0, l, x => rfl
  | n + 1, [], x => rfl
  | n + 1, a :: l, x => by
    simp only [List.insertIdx_succ_cons, List.map_cons]
    rw [map_insertIdx f n l x]

theorem getD_mem {α : Type} (l : List α) (n : Nat) (d : α) (h : n < l.length) :
    l.getD n d ∈ l := by
  rw [List.getD_eq_getElem l d h]
  exact List.getElem_mem h

theorem getD_map {α β : Type} (f : α → β) (l : List α) (n : Nat) (d : α) (d2 : β)
    (h : n < l.length) : (l.map f).getD n d2 = f (l.getD n d) := by
  rw [List.getD_eq_getElem _ d2 (by simpa using h), List.getD_eq_getElem l d h]
  exact List.getElem_map f

theorem glue_split {α : Type} (d : α) :
    ∀ (n : Nat) (fs : List (List α)) (ks : List α),
      fs.length = ks.length + 1 → n < ks.length →
      glue fs ks = glue (fs.take (n + 1)) (ks.take n) ++
        ks.getD n d :: glue (fs.drop (n + 1)) (ks.drop (n + 1)) := by
  intro n
  induction n with
  | zero =>
    intro fs ks hlen hn
    cases fs with
    | nil => simp at hlen
    | cons f0 fs2 =>
      cases ks with
      | nil => simp at hn
      | cons k0 ks2 =>
        simp only [List.take_zero, List.take_succ_cons, List.drop_succ_cons, List.drop_zero,
          List.getD_cons_zero, glue_cons_cons]
        rfl
  | succ n0 ih =>
    intro fs ks hlen hn
    cases fs with
    | nil => simp at hlen
    | cons f0 fs2 =>
      cases ks with
      | nil => simp at hn
      | cons k0 ks2 =>
        simp only [List.take_succ_cons, List.drop_succ_cons, List.getD_cons_succ,
          glue_cons_cons]
        rw [ih fs2 ks2 (by simpa using hlen) (by simpa using hn)]
        simp [glue_cons_cons, List.append_assoc]

theorem glue_set_insertIdx {α : Type} :
    ∀ (i : Nat) (fs : List (List α)) (ks : List α) (F G : List α) (x : α),
      i < fs.length → fs.length = ks.length + 1 →
      fs.getD i [] = F ++ x :: G →
      glue (List.insertIdx (i + 1) G (fs.set i F)) (List.insertIdx i x ks) = glue fs ks := by
  intro i
  induction i with
  | zero =>
    intro fs ks F G x hi hlen hsplit
    cases fs with
    | nil => simp at hi
    | cons f0 fs2 =>
      simp only [List.getD_cons_zero] at hsplit
      simp only [List.set_cons_zero, List.insertIdx_succ_cons, List.insertIdx_zero]
      cases ks with
      | nil =>
        have hfs2 : fs2 = [] := by
          simp only [List.length_cons, List.length_nil] at hlen
          exact List.length_eq_zero.mp (by omega)
        subst hfs2
        simp only [List.insertIdx_zero, glue_cons_cons, glue_cons_nil]
        rw [hsplit]
      | cons k0 ks2 =>
        simp only [glue_cons_cons]
        rw [hsplit]
        simp [List.append_assoc]
  | succ i0 ih =>
    intro fs ks F G x hi hlen hsplit
    cases fs with
    | nil => simp at hi
    | cons f0 fs2 =>
      cases ks with
      | nil =>
        simp only [List.length_cons, List.length_nil] at hlen
        simp only [List.length_cons] at hi
        omega
      | cons k0 ks2 =>
        simp only [List.getD_cons_succ] at hsplit
        simp only [List.set_cons_succ, List.insertIdx_succ_cons, glue_cons_cons]
        rw [ih fs2 ks2 F G x (by simpa using hi) (by simpa using hlen) hsplit]

theorem splitChild_leaf_eq (m : Nat) (node : Node V) (i : Nat) :
    (splitChild m node i).leaf = node.leaf := rfl

theorem splitChild_keys_eq (m : Nat) (node : Node V) (i : Nat) :
    (splitChild m node i).keys =
      node.keys.insertIdx i ((node.children.getD i default).keys.getD (m - 1) default) := rfl

theorem splitChild_children_eq (m : Nat) (node : Node V) (i : Nat) :
    (splitChild m node i).children =
      List.insertIdx (i + 1)
        (Node.mk (node.children.getD i default).leaf
          (((node.children.getD i default).keys.eraseIdx (m - 1)).drop (m - 1))
          (if (node.children.getD i default).leaf then []
            else (node.children.getD i default).children.drop m) false)
        (node.children.set i
          (Node.mk (node.children.getD i default).leaf
            (((node.children.getD i default).keys.eraseIdx (m - 1)).take (m - 1))
            (if (node.children.getD i default).leaf then (node.children.getD i default).children
              else (node.children.getD i default).children.take m)
            (node.children.getD i default).rebalance)) := rfl

theorem child_split_flatten (m : Nat) (child : Node V) (hm : 1 ≤ m)
    (hfull : child.keys.length = 2 * m - 1) (hwf : child.WF) :
    (Node.mk child.leaf ((child.keys.eraseIdx (m - 1)).take (m - 1))
        (if child.leaf then child.children else child.children.take m)
        child.rebalance).flattenP ++
      child.keys.getD (m - 1) default ::
        (Node.mk child.leaf ((child.keys.eraseIdx (m - 1)).drop (m - 1))
          (if child.leaf then [] else child.children.drop m) false).flattenP =
      child.flattenP := by
  cases child with
  | mk cleaf ckeys cchildren creb =>
    simp only [Node.keys_mk, Node.children_mk, Node.leaf_mk, Node.rebalance_mk] at *
    have hm1 : m - 1 < ckeys.length := by omega
    have hlt : m - 1 ≤ ckeys.length := by omega
    have htk : (ckeys.take (m - 1)).length = m - 1 := by
      rw [List.length_take]
      omega
    have herase : ckeys.eraseIdx (m - 1) = ckeys.take (m - 1) ++ ckeys.drop m := by
      rw [List.eraseIdx_eq_take_drop_succ]
      congr 2
      omega
    have htake : (ckeys.eraseIdx (m - 1)).take (m - 1) = ckeys.take (m - 1) := by
      rw [herase]
      exact List.take_left' htk
    have hdrop : (ckeys.eraseIdx (m - 1)).drop (m - 1) = ckeys.drop m := by
      rw [herase]
      exact List.drop_left' htk
    have hsplitk : ckeys.take (m - 1) ++ ckeys.getD (m - 1) default :: ckeys.drop m = ckeys := by
      have hd : ckeys.drop (m - 1) = ckeys.getD (m - 1) default :: ckeys.drop m := by
        rw [List.getD_eq_getElem _ _ hm1]
        have := List.drop_eq_getElem_cons hm1
        rw [this]
        congr 2
        omega
      rw [← hd]
      exact List.take_append_drop _ _
    cases cleaf with
    | true =>
      simp only [if_pos rfl]
      rw [flattenP_mk_leaf, flattenP_mk_leaf, flattenP_mk_leaf, htake, hdrop]
      exact hsplitk
    | false =>
      obtain ⟨h1, h2, h3⟩ := WF_inv hwf
      have hcc : cchildren.length = 2 * m := by
        rw [h2 rfl, hfull]
        omega
      simp only [Bool.false_eq_true, if_false]
      rw [flattenP_mk_internal, flattenP_mk_internal, flattenP_mk_internal, htake, hdrop]
      have hglue := glue_split default (m - 1) (cchildren.map Node.flattenP) ckeys
        (by rw [List.length_map]; omega) hm1
      have hmm2 : m - 1 + 1 = m := by omega
      rw [hmm2] at hglue
      rw [hglue, List.map_take, List.map_drop]

theorem splitChild_flattenP (m : Nat) (node : Node V) (i : Nat) (hm : 1 ≤ m)
    (hleaf : node.leaf = false) (hi : i < node.children.length)
    (hik : i ≤ node.keys.length) (hwf : node.WF)
    (hfull : (node.children.getD i default).keys.length = 2 * m - 1) :
    (splitChild m node i).flattenP = node.flattenP := by
  have hcwf : (node.children.getD i default).WF := by
    cases node with
    | mk nleaf nkeys nchildren nreb =>
      obtain ⟨h1, h2, h3⟩ := WF_inv hwf
      exact h3 _ (getD_mem _ _ _ (by simpa using hi))
  cases node with
  | mk nleaf nkeys nchildren nreb =>
    simp only [Node.leaf_mk] at hleaf
    subst hleaf
    simp only [Node.keys_mk, Node.children_mk] at hi hik hfull hcwf
    have hsc : splitChild m (Node.mk false nkeys nchildren nreb) i =
        Node.mk false
          (nkeys.insertIdx i ((nchildren.getD i default).keys.getD (m - 1) default))
          (List.insertIdx (i + 1)
            (Node.mk (nchildren.getD i default).leaf
              (((nchildren.getD i default).keys.eraseIdx (m - 1)).drop (m - 1))
              (if (nchildren.getD i default).leaf then []
                else (nchildren.getD i default).children.drop m) false)
            (nchildren.set i
              (Node.mk (nchildren.getD i default).leaf
                (((nchildren.getD i default).keys.eraseIdx (m - 1)).take (m - 1))
                (if (nchildren.getD i default).leaf then (nchildren.getD i default).children
                  else (nchildren.getD i default).children.take m)
                (nchildren.getD i default).rebalance))) nreb := rfl
    rw [hsc, flattenP_mk_internal, flattenP_mk_internal]
    obtain ⟨h1, h2, h3⟩ := WF_inv hwf
    simp only [Node.children_mk, Node.keys_mk] at h2
    rw [map_insertIdx, List.map_set]
    refine glue_set_insertIdx i (nchildren.map Node.flattenP) nkeys _ _ _
      (by rw [List.length_map]; exact hi)
      (by rw [List.length_map]; first | exact h2 rfl | exact h2 trivial) ?_
    rw [getD_map Node.flattenP nchildren i default [] hi]
    exact (child_split_flatten m (nchildren.getD i default) hm hfull hcwf).symm

theorem WF_getD_child {node : Node V} (hwf : node.WF) {i : Nat}
    (hi : i < node.children.length) : (node.children.getD i default).WF := by
  cases node with
  | mk nleaf nkeys nchildren nreb =>
    obtain ⟨h1, h2, h3⟩ := WF_inv hwf
    exact h3 _ (getD_mem _ _ _ (by simpa using hi))

theorem WF_leaf_children {node : Node V} (hwf : node.WF) (h : node.leaf = true) :
    node.children = [] := by
  cases node with
  | mk a b c d =>
    obtain ⟨h1, _, _⟩ := WF_inv hwf
    simp only [Node.leaf_mk] at h
    simpa using h1 h

theorem WF_internal_len {node : Node V} (hwf : node.WF) (h : node.leaf = false) :
    node.children.length = node.keys.length + 1 := by
  cases node with
  | mk a b c d =>
    obtain ⟨_, h2, _⟩ := WF_inv hwf
    simp only [Node.leaf_mk] at h
    simpa using h2 h

theorem WF_children {node : Node V} (hwf : node.WF) : ∀ c ∈ node.children, c.WF := by
  cases node with
  | mk a b c d =>
    obtain ⟨_, _, h3⟩ := WF_inv hwf
    simpa using h3

theorem splitHalf_low_WF (m : Nat) (child : Node V) (hm : 1 ≤ m) (hwf : child.WF)
    (hfull : child.keys.length = 2 * m - 1) :
    (Node.mk child.leaf ((child.keys.eraseIdx (m - 1)).take (m - 1))
      (if child.leaf then child.children else child.children.take m)
      child.rebalance).WF := by
  cases hcl : child.leaf with
  | true =>
    refine Node.WF.mk _ _ _ _ (fun _ => ?_) ?_ ?_
    · rw [if_pos rfl]
      exact WF_leaf_children hwf hcl
    · intro hcontra
      exact Bool.noConfusion hcontra
    · intro c hc
      rw [if_pos rfl, WF_leaf_children hwf hcl] at hc
      cases hc
  | false =>
    refine Node.WF.mk _ _ _ _ (fun hcontra => Bool.noConfusion hcontra) (fun _ => ?_) ?_
    · rw [if_neg (fun h => Bool.noConfusion h)]
      rw [List.length_take, List.length_take, List.length_eraseIdx_of_lt (by omega),
        WF_internal_len hwf hcl, hfull]
      omega
    · intro c hc
      rw [if_neg (fun h => Bool.noConfusion h)] at hc
      exact WF_children hwf c (List.mem_of_mem_take hc)

theorem splitHalf_high_WF (m : Nat) (child : Node V) (hm : 1 ≤ m) (hwf : child.WF)
    (hfull : child.keys.length = 2 * m - 1) :
    (Node.mk child.leaf ((child.keys.eraseIdx (m - 1)).drop (m - 1))
      (if child.leaf then [] else child.children.drop m) false).WF := by
  cases hcl : child.leaf with
  | true =>
    refine Node.WF.mk _ _ _ _ (fun _ => ?_) ?_ ?_
    · rw [if_pos rfl]
    · intro hcontra
      exact Bool.noConfusion hcontra
    · intro c hc
      rw [if_pos rfl] at hc
      cases hc
  | false =>
    refine Node.WF.mk _ _ _ _ (fun hcontra => Bool.noConfusion hcontra) (fun _ => ?_) ?_
    · rw [if_neg (fun h => Bool.noConfusion h)]
      rw [List.length_drop, List.length_drop, List.length_eraseIdx_of_lt (by omega),
        WF_internal_len hwf hcl, hfull]
      omega
    · intro c hc
      rw [if_neg (fun h => Bool.noConfusion h)] at hc
      exact WF_children hwf c (List.mem_of_mem_drop hc)

theorem splitChild_WF (m : Nat) (node : Node V) (i : Nat) (hm : 1 ≤ m)
    (hleaf : node.leaf = false) (hi : i < node.children.length)
    (hik : i ≤ node.keys.length) (hwf : node.WF)
    (hfull : (node.children.getD i default).keys.length = 2 * m - 1) :
    (splitChild m node i).WF := by
  have hcwf : (node.children.getD i default).WF := WF_getD_child hwf hi
  have hlow := splitHalf_low_WF m (node.children.getD i default) hm hcwf hfull
  have hhigh := splitHalf_high_WF m (node.children.getD i default) hm hcwf hfull
  cases node with
  | mk nleaf nkeys nchildren nreb =>
    simp only [Node.leaf_mk] at hleaf
    subst hleaf
    simp only [Node.keys_mk, Node.children_mk] at hi hik hfull hcwf hlow hhigh ⊢
    obtain ⟨h1, h2, h3⟩ := WF_inv hwf
    show Node.WF (Node.mk false
      (nkeys.insertIdx i ((nchildren.getD i default).keys.getD (m - 1) default))
      (List.insertIdx (i + 1)
        (Node.mk (nchildren.getD i default).leaf
          (((nchildren.getD i default).keys.eraseIdx (m - 1)).drop (m - 1))
          (if (nchildren.getD i default).leaf then []
            else (nchildren.getD i default).children.drop m) false)
        (nchildren.set i
          (Node.mk (nchildren.getD i default).leaf
            (((nchildren.getD i default).keys.eraseIdx (m - 1)).take (m - 1))
            (if (nchildren.getD i default).leaf then (nchildren.getD i default).children
              else (nchildren.getD i default).children.take m)
            (nchildren.getD i default).rebalance))) nreb)
    refine Node.WF.mk _ _ _ _ (fun h => Bool.noConfusion h) (fun _ => ?_) ?_
    · rw [List.length_insertIdx (i + 1) _ (by rw [List.length_set]; omega),
        List.length_set, List.length_insertIdx i _ hik]
      rw [h2 rfl]
    · intro c hc
      rcases (List.mem_insertIdx (by rw [List.length_set]; omega)).mp hc with rfl | hc2
      · exact hhigh
      · rcases List.mem_or_eq_of_mem_set hc2 with hc3m | rfl
        · exact h3 c hc3m
        · exact hlow

theorem set_getD_self {α : Type} (l : List α) (i : Nat) (d : α) (h : i < l.length) :
    l.set i (l.getD i d) = l := by
  rw [List.getD_eq_getElem l d h]
  apply List.ext_getElem
  · simp
  · intro n h1 h2
    by_cases hn : i = n
    · subst hn
      simp
    · exact List.getElem_set_ne hn _

theorem reviveKeys_length (ks : List (NodeKey V)) (i : Nat) :
    (reviveKeys ks i).length = ks.length := by
  unfold reviveKeys
  exact List.length_set ks i _

theorem reviveKeys_live (ks : List (NodeKey V)) (i : Nat) (hi : i < ks.length)
    (h : (ks.getD i default).deleted = false) : reviveKeys ks i = ks := by
  unfold reviveKeys
  have : (⟨false, (ks.getD i default).value⟩ : NodeKey V) = ks.getD i default := by
    cases hk : ks.getD i default with
    | mk del v =>
      rw [hk] at h
      simp only at h
      rw [h]
  rw [this]
  exact set_getD_self ks i default hi

theorem bisectLeft_eq_of (ks : List (NodeKey V)) (k : List V) (i : Nat) (hle : i ≤ ks.length)
    (hlt : ∀ j, j < i → cmpK (ks.getD j default).value k = .lt)
    (hnl : i < ks.length → cmpK (ks.getD i default).value k ≠ .lt) :
    bisectLeft ks k = i := by
  induction ks generalizing i with
  | nil =>
    simp only [List.length_nil, Nat.le_zero] at hle
    rw [hle]
    rfl
  | cons nk rest ih =>
    cases i with
    | zero =>
      refine bisectLeft_cons_not_lt rest ?_
      have := hnl (by simp)
      simpa using this
    | succ i0 =>
      have h0 : cmpK nk.value k = .lt := by
        have := hlt 0 (by omega)
        simpa using this
      rw [bisectLeft_cons_lt rest h0]
      congr 1
      refine ih i0 (by simpa using hle) ?_ ?_
      · intro j hj
        have := hlt (j + 1) (by omega)
        simpa using this
      · intro hlt2
        have := hnl (by simpa using Nat.succ_lt_succ hlt2)
        simpa using this

theorem sorted_glue_child :
    ∀ (i : Nat) (fs : List (List (NodeKey V))) (ks : List (NodeKey V)),
      fs.length = ks.length + 1 → i < fs.length → sortedNK (glue fs ks) →
      sortedNK (fs.getD i []) := by
  intro i
  induction i with
  | zero =>
    intro fs ks hlen hi hsort
    cases fs with
    | nil => simp at hi
    | cons f0 fs2 =>
      cases ks with
      | nil =>
        simpa using hsort
      | cons k0 ks2 =>
        simp only [glue_cons_cons] at hsort
        exact (sortedNK_append.mp hsort).1
  | succ i0 ih =>
    intro fs ks hlen hi hsort
    cases fs with
    | nil => simp at hi
    | cons f0 fs2 =>
      cases ks with
      | nil =>
        simp only [List.length_cons, List.length_nil] at hlen
        simp only [List.length_cons] at hi
        omega
      | cons k0 ks2 =>
        simp only [glue_cons_cons] at hsort
        have hs2 := (sortedNK_append.mp hsort).2.1
        simp only [List.getD_cons_succ]
        exact ih fs2 ks2 (by simpa using hlen) (by simpa using hi)
          (sortedNK_cons.mp hs2).2

theorem height_mk_fold (l : Bool) (ks : List (NodeKey V)) (cs : List (Node V)) (r : Bool) :
    Node.height (.mk l ks cs r) = 1 + (cs.map Node.height).foldr max 0 := by
  rw [Node.height_mk]
  congr 1
  rw [← List.attach_map_val cs Node.height, List.foldr_map]

theorem le_foldr_max (l : List Nat) : ∀ x ∈ l, x ≤ l.foldr max 0 := by
  induction l with
  | nil => intro x hx; cases hx
  | cons a rest ih =>
    intro x hx
    rcases List.mem_cons.mp hx with rfl | hx2
    · simp only [List.foldr_cons]
      omega
    · have := ih x hx2
      simp only [List.foldr_cons]
      omega

theorem foldr_max_le_of_sub {l1 l2 : List Nat} (h : ∀ x ∈ l1, x ∈ l2) :
    l1.foldr max 0 ≤ l2.foldr max 0 := by
  induction l1 with
  | nil => simp
  | cons a rest ih =>
    simp only [List.foldr_cons]
    have ha := le_foldr_max l2 a (h a (List.mem_cons_self _ _))
    have hr := ih (fun x hx => h x (List.mem_cons_of_mem _ hx))
    omega

theorem height_le_of_children_sub (a a2 : Bool) (b b2 : List (NodeKey V))
    (cs1 cs2 : List (Node V)) (d d2 : Bool) (h : ∀ c ∈ cs1, c ∈ cs2) :
    Node.height (.mk a b cs1 d) ≤ Node.height (.mk a2 b2 cs2 d2) := by
  rw [height_mk_fold, height_mk_fold]
  have : (cs1.map Node.height).foldr max 0 ≤ (cs2.map Node.height).foldr max 0 := by
    refine foldr_max_le_of_sub ?_
    intro x hx
    obtain ⟨c, hc, rfl⟩ := List.mem_map.mp hx
    exact List.mem_map.mpr ⟨c, h c hc, rfl⟩
  omega

theorem flattenP_leaf {node : Node V} (h : node.leaf = true) :
    node.flattenP = node.keys := by
  cases node with
  | mk l ks cs r =>
    simp only [Node.leaf_mk] at h
    subst h
    exact flattenP_mk_leaf ks cs r

theorem flattenP_internal {node : Node V} (h : node.leaf = false) :
    node.flattenP = glue (node.children.map Node.flattenP) node.keys := by
  cases node with
  | mk l ks cs r =>
    simp only [Node.leaf_mk] at h
    subst h
    exact flattenP_mk_internal ks cs r

theorem foldr_max_le_of_bound {b : Nat} :
    ∀ {l : List Nat}, (∀ x ∈ l, x ≤ b) → l.foldr max 0 ≤ b := by
  intro l
  induction l with
  | nil => intro _; simp
  | cons a rest ih =>
    intro h
    simp only [List.foldr_cons]
    have ha := h a (List.mem_cons_self _ _)
    have hr := ih (fun x hx => h x (List.mem_cons_of_mem _ hx))
    omega

theorem height_le_node_of_children_sub (a : Bool) (b : List (NodeKey V))
    (cs1 : List (Node V)) (d : Bool) (t : Node V) (h : ∀ c ∈ cs1, c ∈ t.children) :
    Node.height (.mk a b cs1 d) ≤ t.height := by
  cases t with
  | mk a2 b2 cs2 d2 =>
    exact height_le_of_children_sub a a2 b b2 cs1 cs2 d d2 (by simpa using h)

theorem splitHalf_low_height_le (m : Nat) (child : Node V) :
    (Node.mk child.leaf ((child.keys.eraseIdx (m - 1)).take (m - 1))
      (if child.leaf then child.children else child.children.take m)
      child.rebalance).height ≤ child.height := by
  refine height_le_node_of_children_sub _ _ _ _ child ?_
  intro c hc
  cases hcl : child.leaf with
  | true =>
    rw [if_pos hcl] at hc
    exact hc
  | false =>
    rw [if_neg (by rw [hcl]; simp)] at hc
    exact List.mem_of_mem_take hc

theorem splitHalf_high_height_le (m : Nat) (child : Node V) :
    (Node.mk child.leaf ((child.keys.eraseIdx (m - 1)).drop (m - 1))
      (if child.leaf then [] else child.children.drop m) false).height ≤
      child.height := by
  refine height_le_node_of_children_sub _ _ _ _ child ?_
  intro c hc
  cases hcl : child.leaf with
  | true =>
    rw [if_pos hcl] at hc
    cases hc
  | false =>
    rw [if_neg (by rw [hcl]; simp)] at hc
    exact List.mem_of_mem_drop hc

theorem child_height_lt {node : Node V} {i : Nat} (hi : i < node.children.length) :
    (node.children.getD i default).height < node.height :=
  Node.height_lt_of_mem (getD_mem _ _ _ hi)

theorem WF_set_child {node : Node V} (hwf : node.WF) {i : Nat} {c : Node V} (hc : c.WF) :
    (Node.mk node.leaf node.keys (node.children.set i c) node.rebalance).WF := by
  cases node with
  | mk l ks cs r =>
    obtain ⟨h1, h2, h3⟩ := WF_inv hwf
    simp only [Node.leaf_mk, Node.keys_mk, Node.children_mk, Node.rebalance_mk]
    refine Node.WF.mk _ _ _ _ ?_ ?_ ?_
    · intro hl
      rw [h1 hl]
      rfl
    · intro hl
      rw [List.length_set]
      exact h2 hl
    · intro x hx
      rcases List.mem_or_eq_of_mem_set hx with hx2 | rfl
      · exact h3 x hx2
      · exact hc

theorem revive_node_WF (node : Node V) (i : Nat) (hwf : node.WF) :
    (Node.mk node.leaf (reviveKeys node.keys i) node.children node.rebalance).WF := by
  cases node with
  | mk l ks cs r =>
    obtain ⟨h1, h2, h3⟩ := WF_inv hwf
    simp only [Node.leaf_mk, Node.keys_mk, Node.children_mk, Node.rebalance_mk]
    refine Node.WF.mk _ _ _ _ h1 ?_ h3
    intro hl
    rw [reviveKeys_length]
    exact h2 hl

theorem leaf_insert_WF (node : Node V) (hleaf : node.leaf = true) (hwf : node.WF)
    (i : Nat) (x : NodeKey V) :
    (Node.mk node.leaf (node.keys.insertIdx i x) node.children node.rebalance).WF := by
  cases node with
  | mk l ks cs r =>
    obtain ⟨h1, h2, h3⟩ := WF_inv hwf
    simp only [Node.leaf_mk] at hleaf
    subst hleaf
    simp only [Node.leaf_mk, Node.keys_mk, Node.children_mk, Node.rebalance_mk]
    refine Node.WF.mk _ _ _ _ (fun _ => h1 rfl) ?_ h3
    intro hl
    exact Bool.noConfusion hl

theorem revive_node_flatten (k : List V) (node : Node V) (i : Nat) (hwf : node.WF)
    (hsort : sortedNK node.flattenP) (hi : i < node.keys.length)
    (hbelow : ∀ j, j < i → cmpK (node.keys.getD j default).value k = .lt)
    (heq : cmpK (node.keys.getD i default).value k = .eq) :
    (Node.mk node.leaf (reviveKeys node.keys i) node.children node.rebalance).flattenP =
      insertL k node.flattenP := by
  cases hl : node.leaf with
  | true =>
    rw [flattenP_leaf hl] at hsort ⊢
    rw [flattenP_mk_leaf]
    exact revive_eq_insertL node.keys i hsort hi hbelow heq
  | false =>
    rw [flattenP_internal hl] at hsort ⊢
    rw [flattenP_mk_internal]
    refine glue_revive k i (node.children.map Node.flattenP) node.keys ?_ hi hsort
      hbelow heq
    rw [List.length_map]
    exact WF_internal_len hwf hl

theorem live_noop (k : List V) (node : Node V) (i : Nat) (hwf : node.WF)
    (hsort : sortedNK node.flattenP) (hi : i < node.keys.length)
    (hbelow : ∀ j, j < i → cmpK (node.keys.getD j default).value k = .lt)
    (heq : cmpK (node.keys.getD i default).value k = .eq)
    (hdel : (node.keys.getD i default).deleted = false) :
    insertL k node.flattenP = node.flattenP := by
  have h := revive_node_flatten k node i hwf hsort hi hbelow heq
  rw [reviveKeys_live node.keys i hi hdel] at h
  rw [← h]
  cases node
  rfl

theorem insertAux_unfold_found (m f : Nat) (node : Node V) (k : List V) (i : Nat)
    (hi : bisectLeft node.keys k = i)
    (hfound : i < node.keys.length ∧ cmpK (node.keys.getD i default).value k = .eq) :
    insertAux m (f + 1) node k =
      if (node.keys.getD i default).deleted then
        Node.mk node.leaf (reviveKeys node.keys i) node.children node.rebalance
      else node := by
  subst hi
  simp only [insertAux]
  rw [if_pos hfound]

theorem insertAux_unfold_leaf (m f : Nat) (node : Node V) (k : List V) (i : Nat)
    (hi : bisectLeft node.keys k = i)
    (hfound : ¬(i < node.keys.length ∧ cmpK (node.keys.getD i default).value k = .eq))
    (hleaf : node.leaf = true) :
    insertAux m (f + 1) node k =
      Node.mk node.leaf (node.keys.insertIdx i (NodeKey.new k)) node.children
        node.rebalance := by
  subst hi
  simp only [insertAux]
  rw [if_neg hfound, if_pos hleaf]

theorem insertAux_unfold_nosplit (m f : Nat) (node : Node V) (k : List V) (i : Nat)
    (hi : bisectLeft node.keys k = i)
    (hfound : ¬(i < node.keys.length ∧ cmpK (node.keys.getD i default).value k = .eq))
    (hleaf : ¬node.leaf = true)
    (hfull : ¬(node.children.getD i default).keys.length = 2 * m - 1) :
    insertAux m (f + 1) node k =
      Node.mk node.leaf node.keys
        (node.children.set i (insertAux m f (node.children.getD i default) k))
        node.rebalance := by
  subst hi
  simp only [insertAux]
  rw [if_neg hfound, if_neg hleaf, if_neg hfull]

theorem insertAux_unfold_split_lt (m f : Nat) (node : Node V) (k : List V) (i : Nat)
    (hi : bisectLeft node.keys k = i)
    (hfound : ¬(i < node.keys.length ∧ cmpK (node.keys.getD i default).value k = .eq))
    (hleaf : ¬node.leaf = true)
    (hfull : (node.children.getD i default).keys.length = 2 * m - 1)
    (hcmp : cmpK k ((splitChild m node i).keys.getD i default).value = .lt) :
    insertAux m (f + 1) node k = insertAux m f (splitChild m node i) k := by
  subst hi
  simp only [insertAux]
  rw [if_neg hfound, if_neg hleaf, if_pos hfull, hcmp]

theorem insertAux_unfold_split_eq (m f : Nat) (node : Node V) (k : List V) (i : Nat)
    (hi : bisectLeft node.keys k = i)
    (hfound : ¬(i < node.keys.length ∧ cmpK (node.keys.getD i default).value k = .eq))
    (hleaf : ¬node.leaf = true)
    (hfull : (node.children.getD i default).keys.length = 2 * m - 1)
    (hcmp : cmpK k ((splitChild m node i).keys.getD i default).value = .eq) :
    insertAux m (f + 1) node k =
      if ((splitChild m node i).keys.getD i default).deleted then
        Node.mk (splitChild m node i).leaf (reviveKeys (splitChild m node i).keys i)
          (splitChild m node i).children (splitChild m node i).rebalance
      else splitChild m node i := by
  subst hi
  simp only [insertAux]
  rw [if_neg hfound, if_neg hleaf, if_pos hfull, hcmp]

theorem insertAux_unfold_split_gt (m f : Nat) (node : Node V) (k : List V) (i : Nat)
    (hi : bisectLeft node.keys k = i)
    (hfound : ¬(i < node.keys.length ∧ cmpK (node.keys.getD i default).value k = .eq))
    (hleaf : ¬node.leaf = true)
    (hfull : (node.children.getD i default).keys.length = 2 * m - 1)
    (hcmp : cmpK k ((splitChild m node i).keys.getD i default).value = .gt) :
    insertAux m (f + 1) node k =
      Node.mk (splitChild m node i).leaf (splitChild m node i).keys
        ((splitChild m node i).children.set (i + 1)
          (insertAux m f ((splitChild m node i).children.getD (i + 1) default) k))
        (splitChild m node i).rebalance := by
  subst hi
  simp only [insertAux]
  rw [if_neg hfound, if_neg hleaf, if_pos hfull, hcmp]

theorem bool_eq_false {b : Bool} (h : ¬b = true) : b = false := by
  cases b
  · rfl
  · exact absurd rfl h

theorem sorted_child_of_node {node : Node V} (hwf : node.WF) (hlf : node.leaf = false)
    (hsort : sortedNK node.flattenP) {i : Nat} (hi : i < node.children.length) :
    sortedNK (node.children.getD i default).flattenP := by
  rw [flattenP_internal hlf] at hsort
  have h := sorted_glue_child i (node.children.map Node.flattenP) node.keys
    (by rw [List.length_map]; exact WF_internal_len hwf hlf)
    (by rw [List.length_map]; exact hi) hsort
  rwa [getD_map Node.flattenP node.children i default [] hi] at h

theorem set_child_flatten {node : Node V} (hwf : node.WF) (hlf : node.leaf = false)
    (hsort : sortedNK node.flattenP) (k : List V) (i : Nat) (c : Node V)
    (hik : i ≤ node.keys.length)
    (hbelow : ∀ j, j < i → cmpK (node.keys.getD j default).value k = .lt)
    (habove : i < node.keys.length → cmpK k (node.keys.getD i default).value = .lt)
    (hc : c.flattenP = insertL k (node.children.getD i default).flattenP)
    (hi : i < node.children.length) :
    (Node.mk node.leaf node.keys (node.children.set i c) node.rebalance).flattenP =
      insertL k node.flattenP := by
  rw [flattenP_internal (show (Node.mk node.leaf node.keys (node.children.set i c)
    node.rebalance).leaf = false by rw [Node.leaf_mk]; exact hlf)]
  simp only [Node.keys_mk, Node.children_mk]
  rw [List.map_set]
  rw [flattenP_internal hlf] at hsort ⊢
  refine glue_replace k i (node.children.map Node.flattenP) node.keys c.flattenP
    (by rw [List.length_map]; exact WF_internal_len hwf hlf) hik hsort hbelow habove ?_
  rw [getD_map Node.flattenP node.children i default [] hi]
  exact hc

theorem insertAux_effect (m : Nat) (hm : 2 ≤ m) :
    ∀ (fuel : Nat) (node : Node V) (k : List V),
      node.WF → sortedNK node.flattenP → 2 * node.height ≤ fuel →
      (insertAux m fuel node k).flattenP = insertL k node.flattenP ∧
        (insertAux m fuel node k).WF := by
  intro fuel
  induction fuel using Nat.strong_induction_on with
  | _ fuel ih =>
  intro node k hwf hsort hfuel
  have hpos := Node.height_pos node
  obtain ⟨f, rfl⟩ : ∃ f, fuel = f + 1 := ⟨fuel - 1, by omega⟩
  obtain ⟨i, hidef⟩ : ∃ i, bisectLeft node.keys k = i := ⟨_, rfl⟩
  have hile : i ≤ node.keys.length := hidef ▸ bisectLeft_le_length node.keys k
  have hbelow : ∀ j, j < i → cmpK (node.keys.getD j default).value k = .lt := by
    intro j hj
    exact bisectLeft_lt_of_lt node.keys k j (by rw [hidef]; exact hj)
  have hnotlt : i < node.keys.length → cmpK (node.keys.getD i default).value k ≠ .lt := by
    intro hlt
    have h := bisectLeft_not_lt node.keys k (by rw [hidef]; exact hlt)
    rwa [hidef] at h
  by_cases hfound : i < node.keys.length ∧ cmpK (node.keys.getD i default).value k = .eq
  · rw [insertAux_unfold_found m f node k i hidef hfound]
    by_cases hdel : (node.keys.getD i default).deleted = true
    · rw [if_pos hdel]
      exact ⟨revive_node_flatten k node i hwf hsort hfound.1 hbelow hfound.2,
        revive_node_WF node i hwf⟩
    · rw [if_neg hdel]
      exact ⟨(live_noop k node i hwf hsort hfound.1 hbelow hfound.2
        (bool_eq_false hdel)).symm, hwf⟩
  · by_cases hleaf : node.leaf = true
    · rw [insertAux_unfold_leaf m f node k i hidef hfound hleaf]
      constructor
      · rw [flattenP_leaf (show (Node.mk node.leaf (node.keys.insertIdx i (NodeKey.new k))
          node.children node.rebalance).leaf = true by rw [Node.leaf_mk]; exact hleaf),
          Node.keys_mk, flattenP_leaf hleaf]
        have hnew : NodeKey.new k = (⟨false, k⟩ : NodeKey V) := rfl
        rw [hnew, ← hidef]
        refine insertIdx_bisectLeft node.keys ?_ ?_
        · rw [← flattenP_leaf hleaf]
          exact hsort
        · rw [hidef]
          exact hfound
      · exact leaf_insert_WF node hleaf hwf i (NodeKey.new k)
    · have hlf : node.leaf = false := bool_eq_false hleaf
      have hclen := WF_internal_len hwf hlf
      have hic : i < node.children.length := by omega
      have habove : i < node.keys.length →
          cmpK k (node.keys.getD i default).value = .lt := by
        intro hlt
        rcases ordering_cases (cmpK (node.keys.getD i default).value k) with h | h | h
        · exact absurd h (hnotlt hlt)
        · exact absurd ⟨hlt, h⟩ hfound
        · exact (cmpK_gt_iff_lt _ _).mp h
      by_cases hfull : (node.children.getD i default).keys.length = 2 * m - 1
      · have hm1 : (1 : Nat) ≤ m := by omega
        have hnwf : (splitChild m node i).WF :=
          splitChild_WF m node i hm1 hlf hic hile hwf hfull
        have hnfl : (splitChild m node i).flattenP = node.flattenP :=
          splitChild_flattenP m node i hm1 hlf hic hile hwf hfull
        have hnsort : sortedNK (splitChild m node i).flattenP := by
          rw [hnfl]
          exact hsort
        have hnleaf : (splitChild m node i).leaf = false := by
          rw [splitChild_leaf_eq]
          exact hlf
        have hnkeys : (splitChild m node i).keys =
            node.keys.insertIdx i
              ((node.children.getD i default).keys.getD (m - 1) default) :=
          splitChild_keys_eq m node i
        have hnklen : (splitChild m node i).keys.length = node.keys.length + 1 := by
          rw [hnkeys, List.length_insertIdx i _ hile]
        have hnclen := WF_internal_len hnwf hnleaf
        have hic2 : i < (splitChild m node i).children.length := by omega
        have hic1 : i + 1 < (splitChild m node i).children.length := by omega
        have hkeys_lt : ∀ j, j < i → (splitChild m node i).keys.getD j default =
            node.keys.getD j default := by
          intro j hj
          rw [hnkeys]
          exact getD_insertIdx_lt node.keys _ default i j hj (by omega)
        have hkeys_shift : i < node.keys.length →
            (splitChild m node i).keys.getD (i + 1) default =
              node.keys.getD i default := by
          intro hlt
          rw [hnkeys]
          have h := getD_insertIdx_shift node.keys
            ((node.children.getD i default).keys.getD (m - 1) default) default i 0
            (by omega)
          simpa using h
        have hbelow2 : ∀ j, j < i →
            cmpK ((splitChild m node i).keys.getD j default).value k = .lt := by
          intro j hj
          rw [hkeys_lt j hj]
          exact hbelow j hj
        rcases ordering_cases (cmpK k ((splitChild m node i).keys.getD i default).value)
          with hcmp | hcmp | hcmp
        · rw [insertAux_unfold_split_lt m f node k i hidef hfound hleaf hfull hcmp]
          obtain ⟨g, rfl⟩ : ∃ g, f = g + 1 := ⟨f - 1, by omega⟩
          have hbis : bisectLeft (splitChild m node i).keys k = i := by
            refine bisectLeft_eq_of _ k i (by omega) hbelow2 ?_
            intro _
            rw [(cmpK_gt_iff_lt _ _).mpr hcmp]
            decide
          have hfound2 : ¬(i < (splitChild m node i).keys.length ∧
              cmpK ((splitChild m node i).keys.getD i default).value k = .eq) := by
            intro hc
            have h2 := hc.2
            rw [(cmpK_gt_iff_lt _ _).mpr hcmp] at h2
            exact Ordering.noConfusion h2
          have hnleaf2 : ¬(splitChild m node i).leaf = true := by
            rw [hnleaf]
            simp
          have hlow_eq : (splitChild m node i).children.getD i default =
              Node.mk (node.children.getD i default).leaf
                (((node.children.getD i default).keys.eraseIdx (m - 1)).take (m - 1))
                (if (node.children.getD i default).leaf then
                  (node.children.getD i default).children
                 else (node.children.getD i default).children.take m)
                (node.children.getD i default).rebalance := by
            rw [splitChild_children_eq]
            rw [getD_insertIdx_lt _ _ default (i + 1) i (by omega)
              (by rw [List.length_set]; exact hic)]
            exact getD_set_self node.children i _ default hic
          have hlowlen : ((splitChild m node i).children.getD i default).keys.length =
              m - 1 := by
            rw [hlow_eq, Node.keys_mk, List.length_take,
              List.length_eraseIdx_of_lt (by rw [hfull]; omega), hfull]
            omega
          have hfull2 : ¬((splitChild m node i).children.getD i default).keys.length =
              2 * m - 1 := by
            rw [hlowlen]
            omega
          rw [insertAux_unfold_nosplit m g (splitChild m node i) k i hbis hfound2
            hnleaf2 hfull2]
          have hlowwf : ((splitChild m node i).children.getD i default).WF :=
            WF_getD_child hnwf hic2
          have hlowsort := sorted_child_of_node hnwf hnleaf hnsort hic2
          have hlowfuel :
              2 * ((splitChild m node i).children.getD i default).height ≤ g := by
            have h1 : ((splitChild m node i).children.getD i default).height ≤
                (node.children.getD i default).height := by
              rw [hlow_eq]
              exact splitHalf_low_height_le m (node.children.getD i default)
            have h2 := child_height_lt hic
            omega
          have hrec := ih g (by omega) _ k hlowwf hlowsort hlowfuel
          have habove2 : i < (splitChild m node i).keys.length →
              cmpK k ((splitChild m node i).keys.getD i default).value = .lt :=
            fun _ => hcmp
          constructor
          · rw [set_child_flatten hnwf hnleaf hnsort k i _ (by omega) hbelow2 habove2
              hrec.1 hic2, hnfl]
          · exact WF_set_child hnwf hrec.2
        · rw [insertAux_unfold_split_eq m f node k i hidef hfound hleaf hfull hcmp]
          have heq2 : cmpK ((splitChild m node i).keys.getD i default).value k = .eq := by
            have hk := (cmpK_eq_iff _ _).mp hcmp
            rw [← hk]
            exact cmpK_self k
          have hilen2 : i < (splitChild m node i).keys.length := by omega
          by_cases hdel : ((splitChild m node i).keys.getD i default).deleted = true
          · rw [if_pos hdel]
            constructor
            · rw [revive_node_flatten k (splitChild m node i) i hnwf hnsort hilen2
                hbelow2 heq2, hnfl]
            · exact revive_node_WF (splitChild m node i) i hnwf
          · rw [if_neg hdel]
            constructor
            · rw [← hnfl]
              exact (live_noop k (splitChild m node i) i hnwf hnsort hilen2 hbelow2 heq2
                (bool_eq_false hdel)).symm
            · exact hnwf
        · rw [insertAux_unfold_split_gt m f node k i hidef hfound hleaf hfull hcmp]
          have hhigh_eq : (splitChild m node i).children.getD (i + 1) default =
              Node.mk (node.children.getD i default).leaf
                (((node.children.getD i default).keys.eraseIdx (m - 1)).drop (m - 1))
                (if (node.children.getD i default).leaf then []
                 else (node.children.getD i default).children.drop m) false := by
            rw [splitChild_children_eq]
            exact getD_insertIdx_self _ _ default (i + 1) (by rw [List.length_set]; omega)
          have hhighwf : ((splitChild m node i).children.getD (i + 1) default).WF :=
            WF_getD_child hnwf hic1
          have hhighsort := sorted_child_of_node hnwf hnleaf hnsort hic1
          have hhighfuel :
              2 * ((splitChild m node i).children.getD (i + 1) default).height ≤ f := by
            have h1 : ((splitChild m node i).children.getD (i + 1) default).height ≤
                (node.children.getD i default).height := by
              rw [hhigh_eq]
              exact splitHalf_high_height_le m (node.children.getD i default)
            have h2 := child_height_lt hic
            omega
          have hrec := ih f (Nat.lt_succ_self f) _ k hhighwf hhighsort hhighfuel
          have hbelow1 : ∀ j, j < i + 1 →
              cmpK ((splitChild m node i).keys.getD j default).value k = .lt := by
            intro j hj
            by_cases hji : j < i
            · exact hbelow2 j hji
            · have hj_eq : j = i := by omega
              subst hj_eq
              exact (cmpK_gt_iff_lt _ _).mp hcmp
          have habove1 : i + 1 < (splitChild m node i).keys.length →
              cmpK k ((splitChild m node i).keys.getD (i + 1) default).value = .lt := by
            intro hlt
            have hlt0 : i < node.keys.length := by omega
            rw [hkeys_shift hlt0]
            exact habove hlt0
          constructor
          · rw [set_child_flatten hnwf hnleaf hnsort k (i + 1) _ (by omega) hbelow1
              habove1 hrec.1 hic1, hnfl]
          · exact WF_set_child hnwf hrec.2
      · rw [insertAux_unfold_nosplit m f node k i hidef hfound hleaf hfull]
        have hcwf := WF_getD_child hwf hic
        have hcsort := sorted_child_of_node hwf hlf hsort hic
        have hcfuel : 2 * (node.children.getD i default).height ≤ f := by
          have h1 := child_height_lt hic
          omega
        have hrec := ih f (Nat.lt_succ_self f) (node.children.getD i default) k hcwf
          hcsort hcfuel
        exact ⟨set_child_flatten hwf hlf hsort k i _ hile hbelow habove hrec.1 hic,
          WF_set_child hwf hrec.2⟩

theorem cmpK_take_mono {a b : List V} (hab : cmpK a b = .lt) :
    ∀ n : Nat, cmpK (a.take n) (b.take n) = .lt ∨ a.take n = b.take n := by
  induction a generalizing b with
  | nil =>
    intro n
    cases b with
    | nil => exact Ordering.noConfusion hab
    | cons y ys =>
      cases n with
      | zero => exact Or.inr rfl
      | succ n0 => exact Or.inl rfl
  | cons x xs ih =>
    intro n
    cases b with
    | nil => exact Ordering.noConfusion hab
    | cons y ys =>
      cases n with
      | zero => exact Or.inr rfl
      | succ n0 =>
        simp only [cmpK] at hab
        simp only [List.take_succ_cons, cmpK]
        cases hxy : compare x y <;> rw [hxy] at hab
        · exact Or.inl rfl
        · rcases ih hab n0 with h2 | h2
          · exact Or.inl h2
          · right
            rw [compare_eq_iff_eq.mp hxy, h2]
        · exact Ordering.noConfusion hab

theorem cmpK_drop_of_take_eq : ∀ (n : Nat) (a b : List V), a.take n = b.take n →
    cmpK a b = cmpK (a.drop n) (b.drop n)
  | 0, _, _, _ => rfl
  | _ + 1, [], [], _ => rfl
  | _ + 1, [], _ :: _, h => by simp at h
  | _ + 1, _ :: _, [], h => by simp at h
  | n + 1, x :: xs, y :: ys, h => by
    simp only [List.take_succ_cons, List.cons.injEq] at h
    simp only [List.drop_succ_cons, cmpK]
    rw [h.1, compare_eq_iff_eq.mpr rfl]
    exact cmpK_drop_of_take_eq n xs ys h.2

theorem rangeCmp_mono_lt {a b : List V} (hlen : a.length = b.length)
    (hab : cmpK a b = .lt) (R : KeyRange V) (hb : rangeCmp R b = .lt) :
    rangeCmp R a = .lt := by
  unfold rangeCmp at hb ⊢
  rcases cmpK_take_mono hab R.pre.length with htk | htk
  · cases hbt : cmpK (b.take R.pre.length) R.pre
    case lt => rw [cmpK_lt_trans htk hbt]
    case eq => rw [cmpK_lt_of_lt_of_eq htk hbt]
    case gt =>
      rw [hbt] at hb
      exact Ordering.noConfusion hb
  · rw [htk]
    cases hbt : cmpK (b.take R.pre.length) R.pre
    case lt => rfl
    case gt =>
      rw [hbt] at hb
      exact Ordering.noConfusion hb
    case eq =>
      rw [hbt] at hb
      have hdab : cmpK (a.drop R.pre.length) (b.drop R.pre.length) = .lt := by
        rw [← cmpK_drop_of_take_eq R.pre.length a b htk]
        exact hab
      cases had : a.drop R.pre.length
      case nil =>
        cases hbd : b.drop R.pre.length
        case nil =>
          rw [hbd] at hb
          exact Ordering.noConfusion hb
        case cons y ys =>
          have h1 := congrArg List.length had
          have h2 := congrArg List.length hbd
          simp only [List.length_drop, List.length_nil, List.length_cons] at h1 h2
          omega
      case cons x xs =>
        cases hbd : b.drop R.pre.length
        case nil =>
          have h1 := congrArg List.length had
          have h2 := congrArg List.length hbd
          simp only [List.length_drop, List.length_nil, List.length_cons] at h1 h2
          omega
        case cons y ys =>
          rw [hbd] at hb
          have hxy : x ≤ y := by
            rw [had, hbd] at hdab
            exact cmpK_head_le hdab
          cases hst : R.start
          case none =>
            rw [hst] at hb
            cases hsp : R.stop
            case none =>
              rw [hsp] at hb
              exact Ordering.noConfusion hb
            case some e =>
              rw [hsp] at hb
              have hb2 : (if e ≤ y then Ordering.gt else Ordering.eq) =
                  Ordering.lt := hb
              by_cases he : e ≤ y
              · rw [if_pos he] at hb2
                exact Ordering.noConfusion hb2
              · rw [if_neg he] at hb2
                exact Ordering.noConfusion hb2
          case some s =>
            rw [hst] at hb
            have hb2 : (if y < s then Ordering.lt else
                match R.stop with
                | some e => if e ≤ y then Ordering.gt else Ordering.eq
                | none => Ordering.eq) = Ordering.lt := hb
            by_cases hys : y < s
            · show (if x < s then Ordering.lt else
                match R.stop with
                | some e => if e ≤ x then Ordering.gt else Ordering.eq
                | none => Ordering.eq) = Ordering.lt
              rw [if_pos (lt_of_le_of_lt hxy hys)]
            · rw [if_neg hys] at hb2
              cases hsp : R.stop with
              | none =>
                rw [hsp] at hb2
                exact Ordering.noConfusion hb2
              | some e =>
                rw [hsp] at hb2
                have hb3 : (if e ≤ y then Ordering.gt else Ordering.eq) =
                    Ordering.lt := hb2
                by_cases he : e ≤ y
                · rw [if_pos he] at hb3
                  exact Ordering.noConfusion hb3
                · rw [if_neg he] at hb3
                  exact Ordering.noConfusion hb3

theorem rangeCmp_mono_gt {a b : List V} (hlen : a.length = b.length)
    (hab : cmpK a b = .lt) (R : KeyRange V) (ha : rangeCmp R a = .gt) :
    rangeCmp R b = .gt := by
  unfold rangeCmp at ha ⊢
  rcases cmpK_take_mono hab R.pre.length with htk | htk
  · cases hat : cmpK (a.take R.pre.length) R.pre
    case lt =>
      rw [hat] at ha
      exact Ordering.noConfusion ha
    case eq =>
      have hpre : cmpK (b.take R.pre.length) R.pre = .gt := by
        refine (cmpK_gt_iff_lt _ _).mpr ?_
        exact cmpK_lt_of_eq_of_lt ((cmpK_eq_iff _ _).mpr ((cmpK_eq_iff _ _).mp hat).symm)
          htk
      rw [hpre]
    case gt =>
      have hpre : cmpK (b.take R.pre.length) R.pre = .gt := by
        refine (cmpK_gt_iff_lt _ _).mpr ?_
        exact cmpK_lt_trans ((cmpK_gt_iff_lt _ _).mp hat) htk
      rw [hpre]
  · rw [← htk]
    cases hat : cmpK (a.take R.pre.length) R.pre
    case lt =>
      rw [hat] at ha
      exact Ordering.noConfusion ha
    case gt => rfl
    case eq =>
      rw [hat] at ha
      have hdab : cmpK (a.drop R.pre.length) (b.drop R.pre.length) = .lt := by
        rw [← cmpK_drop_of_take_eq R.pre.length a b htk]
        exact hab
      cases had : a.drop R.pre.length
      case nil =>
        rw [had] at ha
        exact Ordering.noConfusion ha
      case cons x xs =>
        rw [had] at ha
        cases hbd : b.drop R.pre.length
        case nil =>
          have h1 := congrArg List.length had
          have h2 := congrArg List.length hbd
          simp only [List.length_drop, List.length_nil, List.length_cons] at h1 h2
          omega
        case cons y ys =>
          have hxy : x ≤ y := by
            rw [had, hbd] at hdab
            exact cmpK_head_le hdab
          cases hst : R.start
          case none =>
            rw [hst] at ha
            cases hsp : R.stop
            case none =>
              rw [hsp] at ha
              exact Ordering.noConfusion ha
            case some e =>
              rw [hsp] at ha
              have ha2 : (if e ≤ x then Ordering.gt else Ordering.eq) =
                  Ordering.gt := ha
              by_cases he : e ≤ x
              · show (if e ≤ y then Ordering.gt else Ordering.eq) = Ordering.gt
                rw [if_pos (le_trans he hxy)]
              · rw [if_neg he] at ha2
                exact Ordering.noConfusion ha2
          case some s =>
            rw [hst] at ha
            have ha2 : (if x < s then Ordering.lt else
                match R.stop with
                | some e => if e ≤ x then Ordering.gt else Ordering.eq
                | none => Ordering.eq) = Ordering.gt := ha
            by_cases hxs : x < s
            · rw [if_pos hxs] at ha2
              exact Ordering.noConfusion ha2
            · rw [if_neg hxs] at ha2
              have hys : ¬y < s := fun hc => hxs (lt_of_le_of_lt hxy hc)
              show (if y < s then Ordering.lt else
                match R.stop with
                | some e => if e ≤ y then Ordering.gt else Ordering.eq
                | none => Ordering.eq) = Ordering.gt
              rw [if_neg hys]
              cases hsp : R.stop with
              | none =>
                rw [hsp] at ha2
                exact Ordering.noConfusion ha2
              | some e =>
                rw [hsp] at ha2
                have ha3 : (if e ≤ x then Ordering.gt else Ordering.eq) =
                    Ordering.gt := ha2
                by_cases he : e ≤ x
                · show (if e ≤ y then Ordering.gt else Ordering.eq) = Ordering.gt
                  rw [if_pos (le_trans he hxy)]
                · rw [if_neg he] at ha3
                  exact Ordering.noConfusion ha3

theorem takeWhile_within {α : Type} (p : α → Bool) :
    ∀ (l : List α) (d : α) (j : Nat), j < (l.takeWhile p).length → p (l.getD j d) = true := by
  intro l
  induction l with
  | nil =>
    intro d j hj
    simp [List.takeWhile] at hj
  | cons a rest ih =>
    intro d j hj
    rw [List.takeWhile_cons] at hj
    by_cases hp : p a = true
    · rw [if_pos hp] at hj
      simp only [List.length_cons] at hj
      cases j with
      | zero => simpa using hp
      | succ j0 => exact ih d j0 (by omega)
    · rw [if_neg hp] at hj
      simp at hj

theorem takeWhile_stop {α : Type} (p : α → Bool) :
    ∀ (l : List α) (d : α), (l.takeWhile p).length < l.length →
      p (l.getD (l.takeWhile p).length d) = false := by
  intro l
  induction l with
  | nil =>
    intro d h
    simp at h
  | cons a rest ih =>
    intro d h
    rw [List.takeWhile_cons] at h ⊢
    by_cases hp : p a = true
    · rw [if_pos hp] at h ⊢
      simp only [List.length_cons] at h ⊢
      exact ih d (by omega)
    · rw [if_neg hp] at h ⊢
      simp only [List.length_nil, List.getD_cons_zero]
      exact bool_eq_false hp

theorem sorted_getD_lt {ls : List (NodeKey V)} (hsort : sortedNK ls) {i j : Nat}
    (hij : i < j) (hj : j < ls.length) :
    cmpK (ls.getD i default).value (ls.getD j default).value = .lt := by
  rw [List.getD_eq_getElem _ default (by omega), List.getD_eq_getElem _ default hj]
  exact (List.pairwise_iff_getElem.mp hsort) i j (by omega) hj hij

theorem getD_drop {α : Type} (l : List α) (n m : Nat) (d : α) (h : n + m < l.length) :
    (l.drop n).getD m d = l.getD (n + m) d := by
  rw [List.getD_eq_getElem _ d (by rw [List.length_drop]; omega),
    List.getD_eq_getElem _ d h]
  exact List.getElem_drop ..

theorem bisectRange_classify (R : KeyRange V) (keys : List (NodeKey V)) (L : Nat)
    (hsort : sortedNK keys) (hlens : keyLens L keys) :
    (∀ j, j < (bisectRange R keys).1 → rangeCmp R (keys.getD j default).value = .lt) ∧
      (∀ j, (bisectRange R keys).1 ≤ j → j < (bisectRange R keys).2 →
        rangeCmp R (keys.getD j default).value = .eq) ∧
      (∀ j, (bisectRange R keys).2 ≤ j → j < keys.length →
        rangeCmp R (keys.getD j default).value = .gt) := by
  obtain ⟨hlr, hrlen⟩ := bisectRange_le R keys
  have hlfst : (bisectRange R keys).1 =
      (keys.takeWhile (fun nk => rangeCmp R nk.value == .lt)).length := rfl
  have hrsnd : (bisectRange R keys).2 = (bisectRange R keys).1 +
      ((keys.drop (bisectRange R keys).1).takeWhile
        (fun nk => rangeCmp R nk.value != .gt)).length := rfl
  have hbelow : ∀ j, j < (bisectRange R keys).1 →
      rangeCmp R (keys.getD j default).value = .lt := by
    intro j hj
    have h := takeWhile_within (fun nk => rangeCmp R nk.value == .lt) keys default j
      (by rw [← hlfst]; exact hj)
    exact ordering_beq_eq _ _ h
  have hmidne : ∀ j, (bisectRange R keys).1 ≤ j → j < (bisectRange R keys).2 →
      rangeCmp R (keys.getD j default).value ≠ .gt := by
    intro j hj1 hj2
    have hj2b : j - (bisectRange R keys).1 <
        ((keys.drop (bisectRange R keys).1).takeWhile
          (fun nk => rangeCmp R nk.value != .gt)).length := by omega
    have h := takeWhile_within (fun nk => rangeCmp R nk.value != .gt)
      (keys.drop (bisectRange R keys).1) default (j - (bisectRange R keys).1) hj2b
    have hgd : (keys.drop (bisectRange R keys).1).getD (j - (bisectRange R keys).1)
        default = keys.getD j default := by
      have h2 := getD_drop keys (bisectRange R keys).1 (j - (bisectRange R keys).1)
        default (by omega)
      rw [h2]
      congr 1
      omega
    rw [hgd] at h
    have h3 : (rangeCmp R (keys.getD j default).value != Ordering.gt) = true := h
    intro hc
    rw [hc] at h3
    exact absurd h3 (by decide)
  have hatl : (bisectRange R keys).1 < keys.length →
      rangeCmp R (keys.getD (bisectRange R keys).1 default).value ≠ .lt := by
    intro hlt
    have h := takeWhile_stop (fun nk => rangeCmp R nk.value == .lt) keys default
      (by rw [← hlfst]; exact hlt)
    rw [← hlfst] at h
    have h3 : (rangeCmp R (keys.getD (bisectRange R keys).1 default).value ==
        Ordering.lt) = false := h
    intro hc
    rw [hc] at h3
    exact absurd h3 (by decide)
  have hatr : (bisectRange R keys).2 < keys.length →
      rangeCmp R (keys.getD (bisectRange R keys).2 default).value = .gt := by
    intro hlt
    have hlen2 : ((keys.drop (bisectRange R keys).1).takeWhile
        (fun nk => rangeCmp R nk.value != .gt)).length <
        (keys.drop (bisectRange R keys).1).length := by
      rw [List.length_drop]
      omega
    have h := takeWhile_stop (fun nk => rangeCmp R nk.value != .gt)
      (keys.drop (bisectRange R keys).1) default hlen2
    have hgd : (keys.drop (bisectRange R keys).1).getD
        (((keys.drop (bisectRange R keys).1).takeWhile
          (fun nk => rangeCmp R nk.value != .gt)).length) default =
        keys.getD (bisectRange R keys).2 default := by
      have h2 := getD_drop keys (bisectRange R keys).1
        (((keys.drop (bisectRange R keys).1).takeWhile
          (fun nk => rangeCmp R nk.value != .gt)).length) default (by omega)
      rw [h2]
      congr 1
    rw [hgd] at h
    have h3 : (rangeCmp R (keys.getD (bisectRange R keys).2 default).value !=
        Ordering.gt) = false := h
    have h2 : (rangeCmp R (keys.getD (bisectRange R keys).2 default).value ==
        Ordering.gt) = true := by
      cases hbe : (rangeCmp R (keys.getD (bisectRange R keys).2 default).value ==
        Ordering.gt) with
      | true => rfl
      | false =>
        rw [bne, hbe] at h3
        exact absurd h3 (by decide)
    exact ordering_beq_eq _ _ h2
  refine ⟨hbelow, ?_, ?_⟩
  · intro j hj1 hj2
    have hjlen : j < keys.length := by omega
    have hne_gt := hmidne j hj1 hj2
    have hne_lt : rangeCmp R (keys.getD j default).value ≠ .lt := by
      have hl_lt : (bisectRange R keys).1 < keys.length := by omega
      by_cases hjl : j = (bisectRange R keys).1
      · rw [hjl]
        exact hatl hl_lt
      · intro hc
        have hlt := sorted_getD_lt hsort (i := (bisectRange R keys).1) (j := j)
          (by omega) hjlen
        have hmono := rangeCmp_mono_lt
          (a := (keys.getD (bisectRange R keys).1 default).value)
          (b := (keys.getD j default).value)
          (by rw [hlens _ (getD_mem _ _ _ hl_lt), hlens _ (getD_mem _ _ _ hjlen)])
          hlt R hc
        exact hatl hl_lt hmono
    rcases ordering_cases (rangeCmp R (keys.getD j default).value) with h | h | h
    · exact absurd h hne_lt
    · exact h
    · exact absurd h hne_gt
  · intro j hj1 hj2
    have hr_lt : (bisectRange R keys).2 < keys.length := by omega
    by_cases hjr : j = (bisectRange R keys).2
    · rw [hjr]
      exact hatr hr_lt
    · have hlt := sorted_getD_lt hsort (i := (bisectRange R keys).2) (j := j)
        (by omega) hj2
      exact rangeCmp_mono_gt
        (a := (keys.getD (bisectRange R keys).2 default).value)
        (b := (keys.getD j default).value)
        (by rw [hlens _ (getD_mem _ _ _ hr_lt), hlens _ (getD_mem _ _ _ hj2)])
        hlt R (hatr hr_lt)

theorem glue_mem_child {α : Type} :
    ∀ {fs : List (List α)} {ks : List α}, fs.length = ks.length + 1 →
      ∀ f ∈ fs, ∀ x ∈ f, x ∈ glue fs ks := by
  intro fs
  induction fs with
  | nil =>
    intro ks hlen f hf
    cases hf
  | cons f0 fs2 ih =>
    intro ks hlen f hf x hx
    cases ks with
    | nil =>
      have hfs2 : fs2 = [] := by
        simp only [List.length_cons, List.length_nil] at hlen
        exact List.length_eq_zero.mp (by omega)
      subst hfs2
      rcases List.mem_cons.mp hf with rfl | hf2
      · simpa using hx
      · cases hf2
    | cons k0 ks2 =>
      rw [glue_cons_cons]
      rcases List.mem_cons.mp hf with rfl | hf2
      · exact List.mem_append_left _ hx
      · refine List.mem_append_right _ (List.mem_cons_of_mem _ ?_)
        exact ih (by simpa using hlen) f hf2 x hx

theorem glue_mem_key {α : Type} :
    ∀ {fs : List (List α)} {ks : List α}, fs.length = ks.length + 1 →
      ∀ k ∈ ks, k ∈ glue fs ks := by
  intro fs
  induction fs with
  | nil =>
    intro ks hlen k hk
    simp at hlen
  | cons f0 fs2 ih =>
    intro ks hlen k hk
    cases ks with
    | nil => cases hk
    | cons k0 ks2 =>
      rw [glue_cons_cons]
      rcases List.mem_cons.mp hk with rfl | hk2
      · exact List.mem_append_right _ (List.mem_cons_self _ _)
      · refine List.mem_append_right _ (List.mem_cons_of_mem _ ?_)
        exact ih (by simpa using hlen) k hk2

theorem glue_lt_key :
    ∀ {fs : List (List (NodeKey V))} {ks : List (NodeKey V)},
      fs.length = ks.length + 1 → sortedNK (glue fs ks) →
      ∀ j, j < ks.length → ∀ x ∈ fs.getD j [],
        cmpK x.value (ks.getD j default).value = .lt := by
  intro fs
  induction fs with
  | nil =>
    intro ks hlen
    simp at hlen
  | cons f0 fs2 ih =>
    intro ks hlen hsort j hj x hx
    cases ks with
    | nil => simp at hj
    | cons k0 ks2 =>
      rw [glue_cons_cons] at hsort
      obtain ⟨hs1, hs2, hs3⟩ := sortedNK_append.mp hsort
      cases j with
      | zero =>
        simp only [List.getD_cons_zero] at hx ⊢
        exact hs3 x hx k0 (List.mem_cons_self _ _)
      | succ j0 =>
        simp only [List.getD_cons_succ] at hx ⊢
        exact ih (by simpa using hlen) (sortedNK_cons.mp hs2).2 j0 (by simpa using hj) x hx

theorem key_lt_glue :
    ∀ {fs : List (List (NodeKey V))} {ks : List (NodeKey V)},
      fs.length = ks.length + 1 → sortedNK (glue fs ks) →
      ∀ j, j < ks.length → ∀ x ∈ fs.getD (j + 1) [],
        cmpK (ks.getD j default).value x.value = .lt := by
  intro fs
  induction fs with
  | nil =>
    intro ks hlen
    simp at hlen
  | cons f0 fs2 ih =>
    intro ks hlen hsort j hj x hx
    cases ks with
    | nil => simp at hj
    | cons k0 ks2 =>
      rw [glue_cons_cons] at hsort
      obtain ⟨hs1, hs2, hs3⟩ := sortedNK_append.mp hsort
      cases j with
      | zero =>
        simp only [List.getD_cons_zero]
        simp only [List.getD_cons_succ] at hx
        have hlen2 : fs2.length = ks2.length + 1 := by simpa using hlen
        have hx2 : x ∈ glue fs2 ks2 := by
          refine glue_mem_child hlen2 (fs2.getD 0 []) ?_ x hx
          refine getD_mem fs2 0 [] ?_
          omega
        exact (sortedNK_cons.mp hs2).1 x hx2
      | succ j0 =>
        simp only [List.getD_cons_succ] at hx ⊢
        exact ih (by simpa using hlen) (sortedNK_cons.mp hs2).2 j0 (by simpa using hj) x hx

theorem sliceSpec_append (R : KeyRange V) (xs ys : List (NodeKey V)) :
    sliceSpec R (xs ++ ys) = sliceSpec R xs ++ sliceSpec R ys := by
  unfold sliceSpec
  rw [List.filter_append, List.map_append]

theorem sliceSpec_nil_of_all {R : KeyRange V} {ls : List (NodeKey V)}
    (h : ∀ nk ∈ ls, rangeCmp R nk.value ≠ .eq) : sliceSpec R ls = [] := by
  unfold sliceSpec
  rw [List.filter_eq_nil_iff.mpr ?_]
  · rfl
  · intro nk hnk
    intro hc
    rcases Bool.and_eq_true_iff.mp hc with ⟨_, h2⟩
    exact h nk hnk (ordering_beq_eq _ _ h2)

theorem sliceSpec_all_eq {R : KeyRange V} {ls : List (NodeKey V)}
    (h : ∀ nk ∈ ls, rangeCmp R nk.value = .eq) :
    sliceSpec R ls = (ls.filter (fun nk => !nk.deleted)).map (fun nk => nk.value) := by
  unfold sliceSpec
  congr 1
  refine List.filter_congr ?_
  intro x hx
  rw [h x hx]
  cases x.deleted <;> rfl

theorem sliceSpec_singleton_eq {R : KeyRange V} {k : NodeKey V}
    (h : rangeCmp R k.value = .eq) :
    sliceSpec R [k] = if k.deleted then [] else [k.value] := by
  rw [sliceSpec_all_eq (by intro nk hnk; rw [List.mem_singleton.mp hnk]; exact h)]
  cases hd : k.deleted <;> simp [List.filter, hd]

theorem sliceSpec_flatten (R : KeyRange V) (M : List (List (NodeKey V))) :
    sliceSpec R M.flatten = (M.map (sliceSpec R)).flatten := by
  induction M with
  | nil => rfl
  | cons x rest ih =>
    simp only [List.flatten_cons, List.map_cons]
    rw [sliceSpec_append, ih]

theorem map_flatten_nil {α β : Type} (g : α → List β) :
    ∀ {L : List α}, (∀ x ∈ L, g x = []) → (L.map g).flatten = [] := by
  intro L
  induction L with
  | nil => intro _; rfl
  | cons a rest ih =>
    intro h
    simp only [List.map_cons, List.flatten_cons]
    rw [h a (List.mem_cons_self _ _), ih (fun x hx => h x (List.mem_cons_of_mem _ hx))]
    rfl

theorem zip_take {α β : Type} : ∀ (n : Nat) (xs : List α) (ys : List β),
    (xs.zip ys).take n = (xs.take n).zip (ys.take n)
  | 0, _, _ => rfl
  | _ + 1, [], _ => rfl
  | _ + 1, _ :: _, [] => rfl
  | n + 1, x :: xs, y :: ys => by
    simp only [List.zip_cons_cons, List.take_succ_cons]
    rw [zip_take n xs ys]

theorem zip_drop {α β : Type} : ∀ (n : Nat) (xs : List α) (ys : List β),
    (xs.zip ys).drop n = (xs.drop n).zip (ys.drop n)
  | 0, _, _ => rfl
  | _ + 1, [], _ => by simp
  | _ + 1, _ :: _, [] => by simp
  | n + 1, _ :: xs, _ :: ys => by
    simp only [List.zip_cons_cons, List.drop_succ_cons]
    exact zip_drop n xs ys

theorem glue_eq_zip_flatten {α : Type} :
    ∀ {fs : List (List α)} {ks : List α}, fs.length = ks.length + 1 →
      glue fs ks =
        ((fs.zip ks).map (fun p => p.1 ++ [p.2])).flatten ++ fs.getD ks.length [] := by
  intro fs
  induction fs with
  | nil =>
    intro ks hlen
    simp at hlen
  | cons f0 fs2 ih =>
    intro ks hlen
    cases ks with
    | nil =>
      have hfs2 : fs2 = [] := by
        simp only [List.length_cons, List.length_nil] at hlen
        exact List.length_eq_zero.mp (by omega)
      subst hfs2
      rfl
    | cons k0 ks2 =>
      rw [glue_cons_cons]
      simp only [List.zip_cons_cons, List.map_cons, List.flatten_cons, List.length_cons,
        List.getD_cons_succ]
      rw [ih (by simpa using hlen)]
      simp [List.append_assoc]

theorem slice_tail (R : KeyRange V) :
    ∀ (ks : List (NodeKey V)) (fs : List (List (NodeKey V))),
      fs.length = ks.length + 1 →
      (∀ nk ∈ ks, rangeCmp R nk.value = .gt) →
      (∀ f ∈ fs.tail, ∀ nk ∈ f, rangeCmp R nk.value = .gt) →
      ((fs.zip ks).map (fun p => sliceSpec R p.1 ++ sliceSpec R [p.2])).flatten ++
        sliceSpec R (fs.getD ks.length []) = sliceSpec R (fs.getD 0 []) := by
  intro ks
  induction ks with
  | nil =>
    intro fs hlen hks hfs
    simp only [List.zip_nil_right, List.map_nil, List.flatten_nil, List.length_nil,
      List.nil_append]
  | cons k0 ks2 ih =>
    intro fs hlen hks hfs
    cases fs with
    | nil => simp at hlen
    | cons f0 fs2 =>
      simp only [List.zip_cons_cons, List.map_cons, List.flatten_cons, List.length_cons,
        List.getD_cons_succ, List.getD_cons_zero]
      have htail : ((fs2.zip ks2).map
          (fun p => sliceSpec R p.1 ++ sliceSpec R [p.2])).flatten ++
          sliceSpec R (fs2.getD ks2.length []) = sliceSpec R (fs2.getD 0 []) := by
        refine ih fs2 (by simpa using hlen) ?_ ?_
        · intro nk hnk
          exact hks nk (List.mem_cons_of_mem _ hnk)
        · intro f hf nk hnk
          refine hfs f ?_ nk hnk
          simp only [List.tail_cons]
          exact List.mem_of_mem_tail hf
      have hzero : sliceSpec R (fs2.getD 0 []) = [] := by
        refine sliceSpec_nil_of_all ?_
        intro nk hnk
        have hlen2 : fs2.length = ks2.length + 1 := by simpa using hlen
        have hmem : fs2.getD 0 [] ∈ fs2 := getD_mem fs2 0 [] (by omega)
        rw [hfs _ (by simpa using hmem) nk hnk]
        decide
      have hk0 : sliceSpec R [k0] = [] := by
        refine sliceSpec_nil_of_all ?_
        intro nk hnk
        rw [List.mem_singleton.mp hnk, hks k0 (List.mem_cons_self _ _)]
        decide
      rw [List.append_assoc, htail, hzero, hk0]
      simp

theorem mem_take_getD {α : Type} {n : Nat} {ks : List α} {x : α} (d : α)
    (hx : x ∈ ks.take n) : ∃ j, j < n ∧ j < ks.length ∧ x = ks.getD j d := by
  obtain ⟨j, hj, hget⟩ := List.mem_iff_getElem.mp hx
  have hjlen : j < ks.length := by
    rw [List.length_take] at hj
    omega
  refine ⟨j, by rw [List.length_take] at hj; omega, hjlen, ?_⟩
  rw [List.getD_eq_getElem _ d hjlen, ← hget]
  exact List.getElem_take ..

theorem mem_drop_getD {α : Type} {n : Nat} {ks : List α} {x : α} (d : α)
    (hx : x ∈ ks.drop n) : ∃ j, n ≤ j ∧ j < ks.length ∧ x = ks.getD j d := by
  obtain ⟨j, hj, hget⟩ := List.mem_iff_getElem.mp hx
  have hjlen : n + j < ks.length := by
    rw [List.length_drop] at hj
    omega
  refine ⟨n + j, by omega, hjlen, ?_⟩
  rw [List.getD_eq_getElem _ d hjlen, ← hget]
  exact List.getElem_drop ..

theorem keys_sublist_glue {α : Type} :
    ∀ {fs : List (List α)} {ks : List α}, fs.length = ks.length + 1 →
      List.Sublist ks (glue fs ks) := by
  intro fs
  induction fs with
  | nil =>
    intro ks hlen
    simp at hlen
  | cons f0 fs2 ih =>
    intro ks hlen
    cases ks with
    | nil => exact List.nil_sublist _
    | cons k0 ks2 =>
      rw [glue_cons_cons]
      exact List.sublist_append_of_sublist_right
        (List.Sublist.cons₂ k0 (ih (by simpa using hlen)))

theorem sorted_child_mem {node : Node V} (hwf : node.WF) (hlf : node.leaf = false)
    (hsort : sortedNK node.flattenP) {c : Node V} (hc : c ∈ node.children) :
    sortedNK c.flattenP := by
  obtain ⟨j, hj, hget⟩ := List.mem_iff_getElem.mp hc
  have h := sorted_child_of_node hwf hlf hsort (i := j) hj
  rwa [List.getD_eq_getElem _ default hj, hget] at h

theorem keyLens_child_mem {L : Nat} {node : Node V} (hwf : node.WF)
    (hlf : node.leaf = false) (hlens : keyLens L node.flattenP) {c : Node V}
    (hc : c ∈ node.children) : keyLens L c.flattenP := by
  intro nk hnk
  refine hlens nk ?_
  rw [flattenP_internal hlf]
  refine glue_mem_child ?_ c.flattenP ?_ nk hnk
  · rw [List.length_map]
    exact WF_internal_len hwf hlf
  · exact List.mem_map_of_mem _ hc

theorem sliceAux_unfold_leaf (R : KeyRange V) (f : Nat) (node : Node V)
    (hleaf : node.leaf = true) :
    sliceAux R (f + 1) node =
      (((node.keys.drop (bisectRange R node.keys).1).take
          ((bisectRange R node.keys).2 - (bisectRange R node.keys).1)).filter
        (fun nk => !nk.deleted)).map (fun nk => nk.value) := by
  simp only [sliceAux]
  rw [if_pos hleaf]

theorem sliceAux_unfold_internal (R : KeyRange V) (f : Nat) (node : Node V)
    (hleaf : ¬node.leaf = true) :
    sliceAux R (f + 1) node =
      ((((node.children.drop (bisectRange R node.keys).1).take
            ((bisectRange R node.keys).2 - (bisectRange R node.keys).1)).zip
          ((node.keys.drop (bisectRange R node.keys).1).take
            ((bisectRange R node.keys).2 - (bisectRange R node.keys).1))).map
        (fun p => sliceAux R f p.1 ++ if p.2.deleted then [] else [p.2.value])).flatten ++
      sliceAux R f (node.children.getD (bisectRange R node.keys).2 default) := by
  simp only [sliceAux]
  rw [if_neg hleaf]

theorem sliceAux_effect (R : KeyRange V) (L : Nat) :
    ∀ (fuel : Nat) (node : Node V),
      node.WF → sortedNK node.flattenP → keyLens L node.flattenP →
      node.height ≤ fuel →
      sliceAux R fuel node = sliceSpec R node.flattenP := by
  intro fuel
  induction fuel with
  | zero =>
    intro node _ _ _ hf
    have := Node.height_pos node
    omega
  | succ f ih =>
    intro node hwf hsort hlens hfuel
    by_cases hleaf : node.leaf = true
    · rw [sliceAux_unfold_leaf R f node hleaf, flattenP_leaf hleaf]
      rw [flattenP_leaf hleaf] at hsort hlens
      obtain ⟨hbelow, hmid, habove⟩ := bisectRange_classify R node.keys L hsort hlens
      obtain ⟨hlr, hrlen⟩ := bisectRange_le R node.keys
      have hdd : ((node.keys.drop (bisectRange R node.keys).1).drop
          ((bisectRange R node.keys).2 - (bisectRange R node.keys).1)) =
          node.keys.drop (bisectRange R node.keys).2 := by
        rw [List.drop_drop]
        congr 1
        omega
      have hdecomp : node.keys.take (bisectRange R node.keys).1 ++
          ((node.keys.drop (bisectRange R node.keys).1).take
            ((bisectRange R node.keys).2 - (bisectRange R node.keys).1) ++
           (node.keys.drop (bisectRange R node.keys).1).drop
            ((bisectRange R node.keys).2 - (bisectRange R node.keys).1)) = node.keys := by
        rw [List.take_append_drop, List.take_append_drop]
      conv_rhs => rw [← hdecomp]
      rw [sliceSpec_append, sliceSpec_append]
      have h1 : sliceSpec R (node.keys.take (bisectRange R node.keys).1) = [] := by
        refine sliceSpec_nil_of_all ?_
        intro nk hnk
        obtain ⟨j, hj1, hj2, rfl⟩ := mem_take_getD default hnk
        rw [hbelow j hj1]
        decide
      have h2 : sliceSpec R ((node.keys.drop (bisectRange R node.keys).1).drop
          ((bisectRange R node.keys).2 - (bisectRange R node.keys).1)) = [] := by
        rw [hdd]
        refine sliceSpec_nil_of_all ?_
        intro nk hnk
        obtain ⟨j, hj1, hj2, rfl⟩ := mem_drop_getD default hnk
        rw [habove j hj1 hj2]
        decide
      have h3 : sliceSpec R ((node.keys.drop (bisectRange R node.keys).1).take
          ((bisectRange R node.keys).2 - (bisectRange R node.keys).1)) =
          (((node.keys.drop (bisectRange R node.keys).1).take
            ((bisectRange R node.keys).2 - (bisectRange R node.keys).1)).filter
            (fun nk => !nk.deleted)).map (fun nk => nk.value) := by
        refine sliceSpec_all_eq ?_
        intro nk hnk
        obtain ⟨j0, hj1, hj2, rfl⟩ := mem_take_getD default hnk
        rw [List.length_drop] at hj2
        rw [getD_drop node.keys _ j0 default (by omega)]
        exact hmid _ (by omega) (by omega)
      rw [h1, h2, h3]
      simp
    · have hlf : node.leaf = false := bool_eq_false hleaf
      rw [sliceAux_unfold_internal R f node hleaf]
      rw [flattenP_internal hlf]
      have hsortg := hsort
      have hlensg := hlens
      rw [flattenP_internal hlf] at hsortg hlensg
      have hclen := WF_internal_len hwf hlf
      have hfslen : (node.children.map Node.flattenP).length = node.keys.length + 1 := by
        rw [List.length_map]
        exact hclen
      have hksort : sortedNK node.keys :=
        List.Pairwise.sublist (keys_sublist_glue hfslen) hsortg
      have hklens : keyLens L node.keys :=
        fun nk hnk => hlensg nk (glue_mem_key hfslen nk hnk)
      obtain ⟨hbelow, hmid, habove⟩ := bisectRange_classify R node.keys L hksort hklens
      obtain ⟨hlr, hrlen⟩ := bisectRange_le R node.keys
      have hchild_all_lt : ∀ j, j < (bisectRange R node.keys).1 →
          ∀ x ∈ (node.children.map Node.flattenP).getD j [],
            rangeCmp R x.value = .lt := by
        intro j hj x hx
        have hjk : j < node.keys.length := by omega
        have hxk := glue_lt_key hfslen hsortg j hjk x hx
        refine rangeCmp_mono_lt ?_ hxk R (hbelow j hj)
        rw [hlensg x (glue_mem_child hfslen _ (getD_mem _ _ _ (by omega)) x hx),
          hklens _ (getD_mem _ _ _ hjk)]
      have hchild_all_gt : ∀ j, (bisectRange R node.keys).2 < j →
          j < (node.children.map Node.flattenP).length →
          ∀ x ∈ (node.children.map Node.flattenP).getD j [],
            rangeCmp R x.value = .gt := by
        intro j hjr hjlen x hx
        obtain ⟨j0, rfl⟩ : ∃ j0, j = j0 + 1 := ⟨j - 1, by omega⟩
        have hj0k : j0 < node.keys.length := by omega
        have hkx := key_lt_glue hfslen hsortg j0 hj0k x hx
        refine rangeCmp_mono_gt ?_ hkx R (habove j0 (by omega) hj0k)
        rw [hklens _ (getD_mem _ _ _ hj0k),
          hlensg x (glue_mem_child hfslen _ (getD_mem _ _ _ (by omega)) x hx)]
      have hfun : (sliceSpec R ∘ fun p : List (NodeKey V) × NodeKey V => p.1 ++ [p.2]) =
          fun p => sliceSpec R p.1 ++ sliceSpec R [p.2] := by
        funext p
        simp only [Function.comp]
        exact sliceSpec_append R p.1 [p.2]
      have hpre_nil : ((((node.children.map Node.flattenP).zip node.keys).take
          (bisectRange R node.keys).1).map
          (fun p => sliceSpec R p.1 ++ sliceSpec R [p.2])).flatten = [] := by
        refine map_flatten_nil _ ?_
        intro p hp
        obtain ⟨pc, pk⟩ := p
        rw [zip_take] at hp
        obtain ⟨hp1, hp2⟩ := List.of_mem_zip hp
        obtain ⟨j, hj1, hj2, hpeq⟩ := mem_take_getD [] hp1
        obtain ⟨j2, hj12, hj22, hpeq2⟩ := mem_take_getD default hp2
        have e1 : sliceSpec R pc = [] := by
          refine sliceSpec_nil_of_all ?_
          intro nk hnk
          rw [hpeq] at hnk
          rw [hchild_all_lt j hj1 nk hnk]
          decide
        have e2 : sliceSpec R [pk] = [] := by
          refine sliceSpec_nil_of_all ?_
          intro nk hnk
          rw [List.mem_singleton.mp hnk, hpeq2, hbelow j2 hj12]
          decide
        show sliceSpec R pc ++ sliceSpec R [pk] = []
        rw [e1, e2]
        rfl
      have hmid_eq : (((((node.children.map Node.flattenP).zip node.keys).drop
            (bisectRange R node.keys).1).take
            ((bisectRange R node.keys).2 - (bisectRange R node.keys).1)).map
          (fun p => sliceSpec R p.1 ++ sliceSpec R [p.2])).flatten =
          ((((node.children.drop (bisectRange R node.keys).1).take
              ((bisectRange R node.keys).2 - (bisectRange R node.keys).1)).zip
            ((node.keys.drop (bisectRange R node.keys).1).take
              ((bisectRange R node.keys).2 - (bisectRange R node.keys).1))).map
            (fun p => sliceAux R f p.1 ++
              if p.2.deleted then [] else [p.2.value])).flatten := by
        rw [zip_drop, zip_take, ← List.map_drop, ← List.map_take, List.zip_map_left,
          List.map_map]
        congr 1
        refine List.map_congr_left ?_
        intro p hp
        obtain ⟨pc, pk⟩ := p
        obtain ⟨hp1, hp2⟩ := List.of_mem_zip hp
        show sliceSpec R pc.flattenP ++ sliceSpec R [pk] =
          sliceAux R f pc ++ if pk.deleted then [] else [pk.value]
        have hc_mem : pc ∈ node.children :=
          List.mem_of_mem_drop (List.mem_of_mem_take hp1)
        have hcwf : pc.WF := WF_children hwf pc hc_mem
        have hcsort : sortedNK pc.flattenP := sorted_child_mem hwf hlf hsort hc_mem
        have hclens : keyLens L pc.flattenP := keyLens_child_mem hwf hlf hlens hc_mem
        have hcfuel : pc.height ≤ f := by
          have := Node.height_lt_of_mem hc_mem
          omega
        rw [ih pc hcwf hcsort hclens hcfuel]
        congr 1
        obtain ⟨j0, hj1, hj2, hpkeq⟩ := mem_take_getD default hp2
        rw [List.length_drop] at hj2
        rw [hpkeq, getD_drop node.keys _ j0 default (by omega)]
        exact sliceSpec_singleton_eq (hmid _ (by omega) (by omega))
      have htail_eq : (((((node.children.map Node.flattenP).zip node.keys).drop
            (bisectRange R node.keys).1).drop
            ((bisectRange R node.keys).2 - (bisectRange R node.keys).1)).map
          (fun p => sliceSpec R p.1 ++ sliceSpec R [p.2])).flatten ++
          sliceSpec R ((node.children.map Node.flattenP).getD node.keys.length []) =
          sliceAux R f (node.children.getD (bisectRange R node.keys).2 default) := by
        have hdd : ((((node.children.map Node.flattenP).zip node.keys).drop
            (bisectRange R node.keys).1).drop
            ((bisectRange R node.keys).2 - (bisectRange R node.keys).1)) =
            ((node.children.map Node.flattenP).drop (bisectRange R node.keys).2).zip
              (node.keys.drop (bisectRange R node.keys).2) := by
          rw [List.drop_drop]
          have he : (bisectRange R node.keys).1 +
              ((bisectRange R node.keys).2 - (bisectRange R node.keys).1) =
              (bisectRange R node.keys).2 := by omega
          rw [he, zip_drop]
        rw [hdd]
        have htl := slice_tail R (node.keys.drop (bisectRange R node.keys).2)
          ((node.children.map Node.flattenP).drop (bisectRange R node.keys).2)
          (by rw [List.length_drop, List.length_drop, hfslen]; omega)
          (by
            intro nk hnk
            obtain ⟨j, hj1, hj2, rfl⟩ := mem_drop_getD default hnk
            exact habove j hj1 hj2)
          (by
            intro fl hfl nk hnk
            rw [List.tail_drop] at hfl
            obtain ⟨j, hj1, hj2, hfeq⟩ := mem_drop_getD [] hfl
            rw [hfeq] at hnk
            exact hchild_all_gt j (by omega) hj2 nk hnk)
        rw [List.length_drop] at htl
        rw [getD_drop (node.children.map Node.flattenP) (bisectRange R node.keys).2
          (node.keys.length - (bisectRange R node.keys).2) [] (by rw [hfslen]; omega)]
          at htl
        have hidx : (bisectRange R node.keys).2 +
            (node.keys.length - (bisectRange R node.keys).2) = node.keys.length := by
          omega
        rw [hidx] at htl
        rw [getD_drop (node.children.map Node.flattenP) (bisectRange R node.keys).2
          0 [] (by rw [hfslen]; omega)] at htl
        simp only [Nat.add_zero] at htl
        rw [htl]
        rw [getD_map Node.flattenP node.children (bisectRange R node.keys).2 default []
          (by omega)]
        refine (ih (node.children.getD (bisectRange R node.keys).2 default)
          (WF_getD_child hwf (by omega))
          (sorted_child_of_node hwf hlf hsort (by omega))
          (keyLens_child_mem hwf hlf hlens (getD_mem _ _ _ (by omega))) ?_).symm
        have hch : (node.children.getD (bisectRange R node.keys).2 default).height <
            node.height := child_height_lt (by omega)
        omega
      have hZ : (node.children.map Node.flattenP).zip node.keys =
          ((node.children.map Node.flattenP).zip node.keys).take
            (bisectRange R node.keys).1 ++
          ((((node.children.map Node.flattenP).zip node.keys).drop
              (bisectRange R node.keys).1).take
            ((bisectRange R node.keys).2 - (bisectRange R node.keys).1) ++
           (((node.children.map Node.flattenP).zip node.keys).drop
              (bisectRange R node.keys).1).drop
            ((bisectRange R node.keys).2 - (bisectRange R node.keys).1)) := by
        rw [List.take_append_drop, List.take_append_drop]
      rw [glue_eq_zip_flatten hfslen, sliceSpec_append, sliceSpec_flatten, List.map_map,
        hfun, hZ, List.map_append, List.map_append, List.flatten_append,
        List.flatten_append, hpre_nil, List.nil_append, List.append_assoc, htail_eq,
        hmid_eq]

theorem insertBTree_effect (m : Nat) (hm : 2 ≤ m) (root : Node V) (k : List V)
    (hwf : root.WF) (hsort : sortedNK root.flattenP) :
    (insertBTree m root k).flattenP = insertL k root.flattenP ∧
      (insertBTree m root k).WF := by
  unfold insertBTree
  by_cases hfull : root.keys.length = 2 * m - 1
  · rw [if_pos hfull]
    have hnrwf : (Node.mk false ([] : List (NodeKey V)) [root] false).WF := by
      refine Node.WF.mk _ _ _ _ (fun h => Bool.noConfusion h) (fun _ => rfl) ?_
      intro c hc
      rw [List.mem_singleton.mp hc]
      exact hwf
    have hnrfl : (Node.mk false ([] : List (NodeKey V)) [root] false).flattenP =
        root.flattenP := by
      rw [flattenP_mk_internal]
      rfl
    have hsfl : (splitChild m (Node.mk false [] [root] false) 0).flattenP =
        root.flattenP := by
      rw [splitChild_flattenP m (Node.mk false [] [root] false) 0 (by omega) rfl (by simp) (by simp) hnrwf hfull]
      exact hnrfl
    have hswf : (splitChild m (Node.mk false [] [root] false) 0).WF :=
      splitChild_WF m (Node.mk false [] [root] false) 0 (by omega) rfl (by simp) (by simp) hnrwf hfull
    have hssort : sortedNK (splitChild m (Node.mk false [] [root] false) 0).flattenP := by
      rw [hsfl]
      exact hsort
    have heff := insertAux_effect m hm
      (2 * (splitChild m (Node.mk false [] [root] false) 0).height + 2)
      (splitChild m (Node.mk false [] [root] false) 0) k hswf hssort (by omega)
    refine ⟨?_, heff.2⟩
    rw [heff.1, hsfl]
  · rw [if_neg hfull]
    exact insertAux_effect m hm (2 * root.height + 2) root k hwf hsort (by omega)

theorem applyTreeOps_insert_invariant (m L : Nat) (hm : 2 ≤ m) :
    ∀ (ksq : List (List V)) (s : Node V),
      (∀ k ∈ ksq, k.length = L) → s.WF → sortedNK s.flattenP →
      keyLens L s.flattenP → (∀ nk ∈ s.flattenP, nk.deleted = false) →
      (applyTreeOps m s (ksq.map TreeOp.insert)).WF ∧
        sortedNK (applyTreeOps m s (ksq.map TreeOp.insert)).flattenP ∧
        keyLens L (applyTreeOps m s (ksq.map TreeOp.insert)).flattenP ∧
        (∀ nk ∈ (applyTreeOps m s (ksq.map TreeOp.insert)).flattenP,
          nk.deleted = false) ∧
        (applyTreeOps m s (ksq.map TreeOp.insert)).flattenP =
          ksq.foldl (fun acc k => insertL k acc) s.flattenP := by
  intro ksq
  induction ksq with
  | nil =>
    intro s hval hwf hsort hlens hlive
    exact ⟨hwf, hsort, hlens, hlive, rfl⟩
  | cons k0 rest ih =>
    intro s hval hwf hsort hlens hlive
    have heff := insertBTree_effect m hm s k0 hwf hsort
    have hsort2 : sortedNK (insertBTree m s k0).flattenP := by
      rw [heff.1]
      exact insertL_sorted hsort
    have hlens2 : keyLens L (insertBTree m s k0).flattenP := by
      rw [heff.1]
      intro nk hnk
      rcases insertL_mem_value nk hnk with hv | ⟨a, ha, hv⟩
      · rw [hv]
        exact hval k0 (List.mem_cons_self _ _)
      · rw [hv]
        exact hlens a ha
    have hlive2 : ∀ nk ∈ (insertBTree m s k0).flattenP, nk.deleted = false := by
      rw [heff.1]
      exact insertL_live hlive
    have hrec := ih (insertBTree m s k0)
      (fun k hk => hval k (List.mem_cons_of_mem _ hk)) heff.2 hsort2 hlens2 hlive2
    have happ : applyTreeOps m s ((k0 :: rest).map TreeOp.insert) =
        applyTreeOps m (insertBTree m s k0) (rest.map TreeOp.insert) := rfl
    rw [happ]
    refine ⟨hrec.1, hrec.2.1, hrec.2.2.1, hrec.2.2.2.1, ?_⟩
    rw [hrec.2.2.2.2, heff.1]
    rfl

theorem sliceSpec_default (ls : List (NodeKey V)) :
    sliceSpec defaultRange ls = liveList ls := by
  unfold sliceSpec liveList
  congr 1
  refine List.filter_congr ?_
  intro x hx
  rw [rangeCmp_default]
  cases x.deleted <;> rfl

theorem rowsInRange_effect (L : Nat) (node : Node V) (R : KeyRange V) (rev : Bool)
    (hwf : node.WF) (hsort : sortedNK node.flattenP) (hlens : keyLens L node.flattenP) :
    rowsInRange node R rev =
      if rev then (sliceSpec R node.flattenP).reverse else sliceSpec R node.flattenP := by
  unfold rowsInRange
  cases rev with
  | false =>
    simp only [Bool.false_eq_true, if_false]
    exact sliceAux_effect R L node.height node hwf hsort hlens (le_refl _)
  | true =>
    simp only [if_pos rfl]
    rw [sliceRevAux_eq_reverse, sliceAux_effect R L node.height node hwf hsort hlens
      (le_refl _)]

theorem keysStream_effect (L : Nat) (node : Node V) (hwf : node.WF)
    (hsort : sortedNK node.flattenP) (hlens : keyLens L node.flattenP) :
    keysStream node = liveList node.flattenP := by
  unfold keysStream
  rw [rowsInRange_effect L node defaultRange false hwf hsort hlens]
  simp only [Bool.false_eq_true, if_false]
  exact sliceSpec_default node.flattenP

theorem foldl_insertL_mem (k : List V) :
    ∀ (ksq : List (List V)) (acc : List (NodeKey V)),
      (∃ nk ∈ ksq.foldl (fun a b => insertL b a) acc, nk.value = k) ↔
        (∃ nk ∈ acc, nk.value = k) ∨ k ∈ ksq := by
  intro ksq
  induction ksq with
  | nil =>
    intro acc
    simp
  | cons k0 rest ih =>
    intro acc
    simp only [List.foldl_cons]
    rw [ih (insertL k0 acc)]
    constructor
    · rintro (⟨nk, hnk, hv⟩ | hk)
      · rcases insertL_mem_value nk hnk with hv2 | ⟨a, ha, hv2⟩
        · right
          rw [← hv, hv2]
          exact List.mem_cons_self _ _
        · left
          exact ⟨a, ha, by rw [← hv, hv2]⟩
      · right
        exact List.mem_cons_of_mem _ hk
    · rintro (⟨nk, hnk, hv⟩ | hk)
      · left
        obtain ⟨b, hb, hbv⟩ := insertL_value_keep nk hnk
        exact ⟨b, hb, by rw [hbv, hv]⟩
      · rcases List.mem_cons.mp hk with rfl | hk2
        · left
          obtain ⟨b, hb, hbv⟩ := insertL_value_self acc
          exact ⟨b, hb, hbv⟩
        · right
          exact hk2

theorem emptyRoot_WF : (emptyRoot : Node V).WF := by
  refine Node.WF.mk _ _ _ _ (fun _ => rfl) (fun h => Bool.noConfusion h) ?_
  intro c hc
  cases hc

theorem emptyRoot_flattenP : (emptyRoot : Node V).flattenP = [] := by
  unfold emptyRoot
  rw [flattenP_mk_leaf]

theorem tombL_append (R : KeyRange V) (xs ys : List (NodeKey V)) :
    tombL R (xs ++ ys) = tombL R xs ++ tombL R ys := List.map_append _ _ _

theorem tombL_id_of (R : KeyRange V) :
    ∀ (ls : List (NodeKey V)), (∀ a ∈ ls, rangeCmp R a.value ≠ .eq) →
      tombL R ls = ls := by
  intro ls
  induction ls with
  | nil => intro _; rfl
  | cons a rest ih =>
    intro h
    unfold tombL
    simp only [List.map_cons]
    rw [if_neg (h a (List.mem_cons_self _ _))]
    congr 1
    exact ih (fun b hb => h b (List.mem_cons_of_mem _ hb))

theorem tombL_all_eq (R : KeyRange V) :
    ∀ (ls : List (NodeKey V)), (∀ a ∈ ls, rangeCmp R a.value = .eq) →
      tombL R ls = ls.map (fun nk => (⟨true, nk.value⟩ : NodeKey V)) := by
  intro ls
  induction ls with
  | nil => intro _; rfl
  | cons a rest ih =>
    intro h
    unfold tombL
    simp only [List.map_cons]
    rw [if_pos (h a (List.mem_cons_self _ _))]
    congr 1
    exact ih (fun b hb => h b (List.mem_cons_of_mem _ hb))

theorem tombL_length (R : KeyRange V) (ls : List (NodeKey V)) :
    (tombL R ls).length = ls.length := List.length_map _ _

theorem tombL_value (R : KeyRange V) (nk : NodeKey V) :
    ((fun nk => if rangeCmp R nk.value = .eq then (⟨true, nk.value⟩ : NodeKey V) else nk)
      nk).value = nk.value := by
  show (if rangeCmp R nk.value = .eq then (⟨true, nk.value⟩ : NodeKey V)
    else nk).value = nk.value
  by_cases h : rangeCmp R nk.value = .eq
  · rw [if_pos h]
  · rw [if_neg h]

theorem glue_map {α β : Type} (f : α → β) :
    ∀ (fs : List (List α)) (ks : List α),
      (glue fs ks).map f = glue (fs.map (fun l => l.map f)) (ks.map f)
  | [], _ => rfl
  | c :: cs, [] => rfl
  | c :: cs, k :: ks => by
    simp only [glue_cons_cons, List.map_append, List.map_cons]
    rw [glue_map f cs ks]

theorem tombstoneSpan_length (keys : List (NodeKey V)) (l r : Nat) (hl : l ≤ r)
    (hr : r ≤ keys.length) :
    (tombstoneSpan keys l r).length = keys.length := by
  unfold tombstoneSpan
  simp only [List.length_append, List.length_take, List.length_drop, List.length_map]
  omega

theorem tombstoneSpan_eq_tombL (R : KeyRange V) (keys : List (NodeKey V)) (l r : Nat)
    (hlr : l ≤ r) (hrlen : r ≤ keys.length)
    (hbelow : ∀ j, j < l → rangeCmp R (keys.getD j default).value = .lt)
    (hmid : ∀ j, l ≤ j → j < r → rangeCmp R (keys.getD j default).value = .eq)
    (habove : ∀ j, r ≤ j → j < keys.length →
      rangeCmp R (keys.getD j default).value = .gt) :
    tombstoneSpan keys l r = tombL R keys := by
  have hdd : (keys.drop l).drop (r - l) = keys.drop r := by
    rw [List.drop_drop]
    congr 1
    omega
  have hdecomp : keys.take l ++ ((keys.drop l).take (r - l) ++
      (keys.drop l).drop (r - l)) = keys := by
    rw [List.take_append_drop, List.take_append_drop]
  conv_rhs => rw [← hdecomp]
  rw [tombL_append, tombL_append]
  have h1 : tombL R (keys.take l) = keys.take l := by
    refine tombL_id_of R _ ?_
    intro a ha
    obtain ⟨j, hj1, hj2, rfl⟩ := mem_take_getD default ha
    rw [hbelow j hj1]
    decide
  have h2 : tombL R ((keys.drop l).take (r - l)) =
      ((keys.drop l).take (r - l)).map (fun nk => (⟨true, nk.value⟩ : NodeKey V)) := by
    refine tombL_all_eq R _ ?_
    intro a ha
    obtain ⟨j0, hj1, hj2, rfl⟩ := mem_take_getD default ha
    rw [List.length_drop] at hj2
    rw [getD_drop keys _ j0 default (by omega)]
    exact hmid _ (by omega) (by omega)
  have h3 : tombL R ((keys.drop l).drop (r - l)) = (keys.drop l).drop (r - l) := by
    rw [hdd]
    refine tombL_id_of R _ ?_
    intro a ha
    obtain ⟨j, hj1, hj2, rfl⟩ := mem_drop_getD default ha
    rw [habove j hj1 hj2]
    decide
  rw [h1, h2, h3, hdd]
  unfold tombstoneSpan
  rw [List.append_assoc]

theorem deleteAux_unfold_leaf_same (R : KeyRange V) (f : Nat) (node : Node V)
    (hleaf : node.leaf = true)
    (heq : (bisectRange R node.keys).1 = (bisectRange R node.keys).2) :
    deleteAux R (f + 1) node = node := by
  simp only [deleteAux]
  rw [if_pos hleaf, if_pos heq]

theorem deleteAux_unfold_leaf_tomb (R : KeyRange V) (f : Nat) (node : Node V)
    (hleaf : node.leaf = true)
    (hne : ¬(bisectRange R node.keys).1 = (bisectRange R node.keys).2) :
    deleteAux R (f + 1) node =
      Node.mk node.leaf
        (tombstoneSpan node.keys (bisectRange R node.keys).1 (bisectRange R node.keys).2)
        node.children true := by
  simp only [deleteAux]
  rw [if_pos hleaf, if_neg hne]

theorem deleteAux_unfold_internal_span (R : KeyRange V) (f : Nat) (node : Node V)
    (hleaf : ¬node.leaf = true)
    (hlt : (bisectRange R node.keys).1 < (bisectRange R node.keys).2) :
    deleteAux R (f + 1) node =
      Node.mk node.leaf
        (tombstoneSpan node.keys (bisectRange R node.keys).1 (bisectRange R node.keys).2)
        (node.children.take (bisectRange R node.keys).1 ++
          ((node.children.drop (bisectRange R node.keys).1).take
            ((bisectRange R node.keys).2 - (bisectRange R node.keys).1 + 1)).map
            (fun c => deleteAux R f c) ++
          node.children.drop ((bisectRange R node.keys).2 + 1))
        true := by
  simp only [deleteAux]
  rw [if_neg hleaf, if_pos hlt]

theorem deleteAux_unfold_internal_set (R : KeyRange V) (f : Nat) (node : Node V)
    (hleaf : ¬node.leaf = true)
    (hnlt : ¬(bisectRange R node.keys).1 < (bisectRange R node.keys).2) :
    deleteAux R (f + 1) node =
      Node.mk node.leaf node.keys
        (node.children.set (bisectRange R node.keys).2
          (deleteAux R f (node.children.getD (bisectRange R node.keys).2 default)))
        node.rebalance := by
  simp only [deleteAux]
  rw [if_neg hleaf, if_neg hnlt]

theorem mem_getD {α : Type} {ks : List α} {x : α} (d : α) (hx : x ∈ ks) :
    ∃ j, j < ks.length ∧ x = ks.getD j d := by
  obtain ⟨j, hj, hget⟩ := List.mem_iff_getElem.mp hx
  exact ⟨j, hj, by rw [List.getD_eq_getElem _ d hj, hget]⟩

theorem tombL_glue (R : KeyRange V) (fs : List (List (NodeKey V)))
    (ks : List (NodeKey V)) :
    tombL R (glue fs ks) = glue (fs.map (tombL R)) (tombL R ks) := by
  unfold tombL
  rw [glue_map]

theorem deleteAux_effect (R : KeyRange V) (L : Nat) :
    ∀ (fuel : Nat) (node : Node V),
      node.WF → sortedNK node.flattenP → keyLens L node.flattenP →
      node.height ≤ fuel →
      (deleteAux R fuel node).flattenP = tombL R node.flattenP ∧
        (deleteAux R fuel node).WF ∧
        (deleteAux R fuel node).leaf = node.leaf ∧
        (deleteAux R fuel node).keys.length = node.keys.length := by
  intro fuel
  induction fuel with
  | zero =>
    intro node _ _ _ hf
    have := Node.height_pos node
    omega
  | succ f ih =>
    intro node hwf hsort hlens hfuel
    by_cases hleaf : node.leaf = true
    · have hsortk := hsort
      have hlensk := hlens
      rw [flattenP_leaf hleaf] at hsortk hlensk
      obtain ⟨hbelow, hmid, habove⟩ := bisectRange_classify R node.keys L hsortk hlensk
      obtain ⟨hlr, hrlen⟩ := bisectRange_le R node.keys
      by_cases hlre : (bisectRange R node.keys).1 = (bisectRange R node.keys).2
      · rw [deleteAux_unfold_leaf_same R f node hleaf hlre]
        refine ⟨?_, hwf, rfl, rfl⟩
        rw [flattenP_leaf hleaf]
        refine (tombL_id_of R _ ?_).symm
        intro a ha
        obtain ⟨j, hj, rfl⟩ := mem_getD default ha
        rcases Nat.lt_or_ge j (bisectRange R node.keys).1 with hjl | hjl
        · rw [hbelow j hjl]
          decide
        · rw [habove j (by omega) hj]
          decide
      · rw [deleteAux_unfold_leaf_tomb R f node hleaf hlre]
        have hkeys : tombstoneSpan node.keys (bisectRange R node.keys).1
            (bisectRange R node.keys).2 = tombL R node.keys :=
          tombstoneSpan_eq_tombL R node.keys _ _ hlr hrlen hbelow hmid habove
        refine ⟨?_, ?_, rfl, ?_⟩
        · rw [flattenP_leaf (show (Node.mk node.leaf (tombstoneSpan node.keys
            (bisectRange R node.keys).1 (bisectRange R node.keys).2) node.children
            true).leaf = true by rw [Node.leaf_mk]; exact hleaf), Node.keys_mk, hkeys,
            flattenP_leaf hleaf]
        · have hch := WF_leaf_children hwf hleaf
          refine Node.WF.mk _ _ _ _ (fun _ => hch) ?_ ?_
          · intro h
            exact absurd (hleaf ▸ h) (by decide)
          · intro c hc
            rw [hch] at hc
            cases hc
        · rw [Node.keys_mk]
          exact tombstoneSpan_length node.keys _ _ hlr hrlen
    · have hlf : node.leaf = false := bool_eq_false hleaf
      have hsortg := hsort
      have hlensg := hlens
      rw [flattenP_internal hlf] at hsortg hlensg
      have hclen := WF_internal_len hwf hlf
      have hfslen : (node.children.map Node.flattenP).length = node.keys.length + 1 := by
        rw [List.length_map]
        exact hclen
      have hksort : sortedNK node.keys :=
        List.Pairwise.sublist (keys_sublist_glue hfslen) hsortg
      have hklens : keyLens L node.keys :=
        fun nk hnk => hlensg nk (glue_mem_key hfslen nk hnk)
      obtain ⟨hbelow, hmid, habove⟩ := bisectRange_classify R node.keys L hksort hklens
      obtain ⟨hlr, hrlen⟩ := bisectRange_le R node.keys
      have hchild_all_lt : ∀ j, j < (bisectRange R node.keys).1 →
          ∀ x ∈ (node.children.map Node.flattenP).getD j [],
            rangeCmp R x.value = .lt := by
        intro j hj x hx
        have hjk : j < node.keys.length := by omega
        have hxk := glue_lt_key hfslen hsortg j hjk x hx
        refine rangeCmp_mono_lt ?_ hxk R (hbelow j hj)
        rw [hlensg x (glue_mem_child hfslen _ (getD_mem _ _ _ (by omega)) x hx),
          hklens _ (getD_mem _ _ _ hjk)]
      have hchild_all_gt : ∀ j, (bisectRange R node.keys).2 < j →
          j < (node.children.map Node.flattenP).length →
          ∀ x ∈ (node.children.map Node.flattenP).getD j [],
            rangeCmp R x.value = .gt := by
        intro j hjr hjlen x hx
        obtain ⟨j0, rfl⟩ : ∃ j0, j = j0 + 1 := ⟨j - 1, by omega⟩
        have hj0k : j0 < node.keys.length := by omega
        have hkx := key_lt_glue hfslen hsortg j0 hj0k x hx
        refine rangeCmp_mono_gt ?_ hkx R (habove j0 (by omega) hj0k)
        rw [hklens _ (getD_mem _ _ _ hj0k),
          hlensg x (glue_mem_child hfslen _ (getD_mem _ _ _ (by omega)) x hx)]
      by_cases hlt : (bisectRange R node.keys).1 < (bisectRange R node.keys).2
      · rw [deleteAux_unfold_internal_span R f node hleaf hlt]
        have hkeys : tombstoneSpan node.keys (bisectRange R node.keys).1
            (bisectRange R node.keys).2 = tombL R node.keys :=
          tombstoneSpan_eq_tombL R node.keys _ _ hlr hrlen hbelow hmid habove
        have hdd2 : (node.children.drop (bisectRange R node.keys).1).drop
            ((bisectRange R node.keys).2 - (bisectRange R node.keys).1 + 1) =
            node.children.drop ((bisectRange R node.keys).2 + 1) := by
          rw [List.drop_drop]
          congr 1
          omega
        have hcsdecomp : node.children.take (bisectRange R node.keys).1 ++
            ((node.children.drop (bisectRange R node.keys).1).take
              ((bisectRange R node.keys).2 - (bisectRange R node.keys).1 + 1) ++
             node.children.drop ((bisectRange R node.keys).2 + 1)) = node.children := by
          rw [← hdd2, List.take_append_drop, List.take_append_drop]
        have hE1 : (node.children.take (bisectRange R node.keys).1).map Node.flattenP =
            ((node.children.take (bisectRange R node.keys).1).map
              (fun c => tombL R c.flattenP)) := by
          refine List.map_congr_left ?_
          intro c hc
          obtain ⟨j, hj1, hj2, rfl⟩ := mem_take_getD default hc
          have hgd := getD_map Node.flattenP node.children j default [] hj2
          refine (tombL_id_of R _ ?_).symm
          intro x hx
          rw [← hgd] at hx
          rw [hchild_all_lt j hj1 x hx]
          decide
        have hE2 : (((node.children.drop (bisectRange R node.keys).1).take
            ((bisectRange R node.keys).2 - (bisectRange R node.keys).1 + 1)).map
              (fun c => deleteAux R f c)).map Node.flattenP =
            ((node.children.drop (bisectRange R node.keys).1).take
              ((bisectRange R node.keys).2 - (bisectRange R node.keys).1 + 1)).map
              (fun c => tombL R c.flattenP) := by
          rw [List.map_map]
          refine List.map_congr_left ?_
          intro c hc
          have hc_mem : c ∈ node.children :=
            List.mem_of_mem_drop (List.mem_of_mem_take hc)
          have hrec := ih c (WF_children hwf c hc_mem)
            (sorted_child_mem hwf hlf hsort hc_mem)
            (keyLens_child_mem hwf hlf hlens hc_mem)
            (by have := Node.height_lt_of_mem hc_mem; omega)
          exact hrec.1
        have hE3 : (node.children.drop ((bisectRange R node.keys).2 + 1)).map
              Node.flattenP =
            (node.children.drop ((bisectRange R node.keys).2 + 1)).map
              (fun c => tombL R c.flattenP) := by
          refine List.map_congr_left ?_
          intro c hc
          obtain ⟨j, hj1, hj2, rfl⟩ := mem_drop_getD default hc
          have hgd := getD_map Node.flattenP node.children j default [] hj2
          refine (tombL_id_of R _ ?_).symm
          intro x hx
          rw [← hgd] at hx
          rw [hchild_all_gt j (by omega) (by rw [List.length_map]; omega) x hx]
          decide
        refine ⟨?_, ?_, rfl, ?_⟩
        · rw [flattenP_internal (show (Node.mk node.leaf (tombstoneSpan node.keys
            (bisectRange R node.keys).1 (bisectRange R node.keys).2)
            (node.children.take (bisectRange R node.keys).1 ++
              ((node.children.drop (bisectRange R node.keys).1).take
                ((bisectRange R node.keys).2 - (bisectRange R node.keys).1 + 1)).map
                (fun c => deleteAux R f c) ++
              node.children.drop ((bisectRange R node.keys).2 + 1))
            true).leaf = false by rw [Node.leaf_mk]; exact hlf)]
          simp only [Node.keys_mk, Node.children_mk]
          rw [flattenP_internal hlf, tombL_glue, hkeys]
          congr 1
          rw [List.map_append, List.map_append, hE1, hE2, hE3]
          conv_rhs => rw [← hcsdecomp]
          rw [List.map_map, List.map_append, List.map_append, List.append_assoc]
          rfl
        · refine Node.WF.mk _ _ _ _ ?_ ?_ ?_
          · intro h
            exact absurd (hlf ▸ h) (by decide)
          · intro _
            simp only [List.length_append, List.length_take, List.length_drop,
              List.length_map]
            rw [tombstoneSpan_length node.keys _ _ hlr hrlen]
            omega
          · intro c hc
            rcases List.mem_append.mp hc with hc2 | hc2
            · rcases List.mem_append.mp hc2 with hc3 | hc3
              · exact WF_children hwf c (List.mem_of_mem_take hc3)
              · obtain ⟨c0, hc0, rfl⟩ := List.mem_map.mp hc3
                have hc_mem : c0 ∈ node.children :=
                  List.mem_of_mem_drop (List.mem_of_mem_take hc0)
                have hrec := ih c0 (WF_children hwf c0 hc_mem)
                  (sorted_child_mem hwf hlf hsort hc_mem)
                  (keyLens_child_mem hwf hlf hlens hc_mem)
                  (by have := Node.height_lt_of_mem hc_mem; omega)
                exact hrec.2.1
            · exact WF_children hwf c (List.mem_of_mem_drop hc2)
        · rw [Node.keys_mk]
          exact tombstoneSpan_length node.keys _ _ hlr hrlen
      · have hicr : (bisectRange R node.keys).2 < node.children.length := by omega
        rw [deleteAux_unfold_internal_set R f node hleaf hlt]
        have hrec := ih (node.children.getD (bisectRange R node.keys).2 default)
          (WF_getD_child hwf hicr)
          (sorted_child_of_node hwf hlf hsort hicr)
          (keyLens_child_mem hwf hlf hlens (getD_mem _ _ _ hicr))
          (by have := child_height_lt hicr; omega)
        refine ⟨?_, WF_set_child hwf hrec.2.1, rfl, rfl⟩
        rw [flattenP_internal (show (Node.mk node.leaf node.keys
          (node.children.set (bisectRange R node.keys).2
            (deleteAux R f (node.children.getD (bisectRange R node.keys).2 default)))
          node.rebalance).leaf = false by rw [Node.leaf_mk]; exact hlf)]
        simp only [Node.keys_mk, Node.children_mk]
        rw [List.map_set, flattenP_internal hlf, tombL_glue]
        have hkeys_id : tombL R node.keys = node.keys := by
          refine tombL_id_of R _ ?_
          intro a ha
          obtain ⟨j, hj, rfl⟩ := mem_getD default ha
          rcases Nat.lt_or_ge j (bisectRange R node.keys).1 with hjl | hjl
          · rw [hbelow j hjl]
            decide
          · rw [habove j (by omega) hj]
            decide
        rw [hkeys_id]
        congr 1
        rw [hrec.1]
        have hgd := getD_map Node.flattenP node.children (bisectRange R node.keys).2
          default [] hicr
        rw [← hgd]
        apply List.ext_getElem
        · simp only [List.length_set, List.length_map]
        · intro j h1 h2
          rw [List.getElem_map]
          have h2b : j < (node.children.map Node.flattenP).length := by
            rw [List.length_set] at h1
            exact h1
          by_cases hjr : j = (bisectRange R node.keys).2
          · subst hjr
            rw [List.getElem_set_self (by rw [List.length_set]; exact h2b)]
            rw [List.getD_eq_getElem _ ([] : List (NodeKey V)) h2b]
          · rw [List.getElem_set_ne (Ne.symm hjr)]
            refine (tombL_id_of R _ ?_).symm
            intro x hx
            have hx2 : x ∈ (node.children.map Node.flattenP).getD j [] := by
              rw [List.getD_eq_getElem _ ([] : List (NodeKey V)) h2b]
              exact hx
            rcases Nat.lt_or_ge j (bisectRange R node.keys).2 with hjl | hjl
            · rw [hchild_all_lt j (by omega) x hx2]
              decide
            · rw [hchild_all_gt j (by omega) h2b x hx2]
              decide


theorem tombL_cons (R : KeyRange V) (a : NodeKey V) (ls : List (NodeKey V)) :
    tombL R (a :: ls) =
      (if rangeCmp R a.value = .eq then (⟨true, a.value⟩ : NodeKey V) else a) ::
        tombL R ls := rfl

theorem tombL_sorted {R : KeyRange V} {ls : List (NodeKey V)} (h : sortedNK ls) :
    sortedNK (tombL R ls) := by
  unfold tombL sortedNK
  refine List.Pairwise.map _ ?_ h
  intro a b hab
  rw [tombL_value, tombL_value]
  exact hab

theorem tombL_keyLens {R : KeyRange V} {L : Nat} {ls : List (NodeKey V)}
    (h : keyLens L ls) : keyLens L (tombL R ls) := by
  intro nk hnk
  unfold tombL at hnk
  obtain ⟨a, ha, rfl⟩ := List.mem_map.mp hnk
  rw [tombL_value]
  exact h a ha

theorem insertAux_leaf_keys (m : Nat) :
    ∀ (fuel : Nat) (node : Node V) (k : List V),
      (insertAux m fuel node k).leaf = node.leaf ∧
        node.keys.length ≤ (insertAux m fuel node k).keys.length := by
  intro fuel
  induction fuel using Nat.strong_induction_on with
  | _ fuel ih =>
  intro node k
  cases fuel with
  | zero => exact ⟨rfl, le_refl _⟩
  | succ f =>
    obtain ⟨i, hidef⟩ : ∃ i, bisectLeft node.keys k = i := ⟨_, rfl⟩
    have hile : i ≤ node.keys.length := hidef ▸ bisectLeft_le_length node.keys k
    by_cases hfound : i < node.keys.length ∧ cmpK (node.keys.getD i default).value k = .eq
    · rw [insertAux_unfold_found m f node k i hidef hfound]
      by_cases hdel : (node.keys.getD i default).deleted = true
      · rw [if_pos hdel]
        refine ⟨rfl, ?_⟩
        rw [Node.keys_mk, reviveKeys_length]
      · rw [if_neg hdel]
        exact ⟨rfl, le_refl _⟩
    · by_cases hleaf : node.leaf = true
      · rw [insertAux_unfold_leaf m f node k i hidef hfound hleaf]
        refine ⟨rfl, ?_⟩
        rw [Node.keys_mk, List.length_insertIdx i _ hile]
        omega
      · by_cases hfull : (node.children.getD i default).keys.length = 2 * m - 1
        · have hnklen : (splitChild m node i).keys.length = node.keys.length + 1 := by
            rw [splitChild_keys_eq, List.length_insertIdx i _ hile]
          rcases ordering_cases
            (cmpK k ((splitChild m node i).keys.getD i default).value)
            with hcmp | hcmp | hcmp
          · rw [insertAux_unfold_split_lt m f node k i hidef hfound hleaf hfull hcmp]
            have hrec := ih f (Nat.lt_succ_self f) (splitChild m node i) k
            refine ⟨by rw [hrec.1, splitChild_leaf_eq], ?_⟩
            have h2 := hrec.2
            omega
          · rw [insertAux_unfold_split_eq m f node k i hidef hfound hleaf hfull hcmp]
            by_cases hdel : ((splitChild m node i).keys.getD i default).deleted = true
            · rw [if_pos hdel]
              refine ⟨by rw [Node.leaf_mk, splitChild_leaf_eq], ?_⟩
              rw [Node.keys_mk, reviveKeys_length]
              omega
            · rw [if_neg hdel]
              refine ⟨by rw [splitChild_leaf_eq], ?_⟩
              omega
          · rw [insertAux_unfold_split_gt m f node k i hidef hfound hleaf hfull hcmp]
            refine ⟨by rw [Node.leaf_mk, splitChild_leaf_eq], ?_⟩
            rw [Node.keys_mk]
            omega
        · rw [insertAux_unfold_nosplit m f node k i hidef hfound hleaf hfull]
          exact ⟨rfl, le_refl _⟩

theorem insertBTree_rootOk (m : Nat) (root : Node V) (k : List V) (hro : rootOk root) :
    rootOk (insertBTree m root k) := by
  unfold insertBTree
  by_cases hfull : root.keys.length = 2 * m - 1
  · rw [if_pos hfull]
    right
    have hsk : (splitChild m (Node.mk false ([] : List (NodeKey V)) [root] false) 0).keys =
        [root.keys.getD (m - 1) default] := by
      rw [splitChild_keys_eq]
      rfl
    have h := insertAux_leaf_keys m
      (2 * (splitChild m (Node.mk false [] [root] false) 0).height + 2)
      (splitChild m (Node.mk false [] [root] false) 0) k
    have hlen := h.2
    rw [hsk] at hlen
    simp only [List.length_singleton] at hlen
    intro hc
    rw [hc] at hlen
    simp at hlen
  · rw [if_neg hfull]
    have h := insertAux_leaf_keys m (2 * root.height + 2) root k
    rcases hro with hro | hro
    · left
      rw [h.1]
      exact hro
    · right
      intro hc
      have hlen := h.2
      rw [hc] at hlen
      simp only [List.length_nil, Nat.le_zero] at hlen
      exact hro (List.length_eq_zero.mp hlen)

theorem deleteRangeB_effect (R : KeyRange V) (L : Nat) (node : Node V) (hwf : node.WF)
    (hsort : sortedNK node.flattenP) (hlens : keyLens L node.flattenP) :
    (deleteRangeB node R).flattenP = tombL R node.flattenP ∧
      (deleteRangeB node R).WF ∧
      (deleteRangeB node R).leaf = node.leaf ∧
      (deleteRangeB node R).keys.length = node.keys.length :=
  deleteAux_effect R L node.height node hwf hsort hlens (le_refl _)

theorem deleteRangeB_rootOk (R : KeyRange V) (L : Nat) (node : Node V) (hwf : node.WF)
    (hsort : sortedNK node.flattenP) (hlens : keyLens L node.flattenP)
    (hro : rootOk node) : rootOk (deleteRangeB node R) := by
  obtain ⟨_, _, hleaf, hklen⟩ := deleteRangeB_effect R L node hwf hsort hlens
  rcases hro with hro | hro
  · left
    rw [hleaf]
    exact hro
  · right
    intro hc
    rw [hc] at hklen
    simp only [List.length_nil] at hklen
    exact hro (List.length_eq_zero.mp hklen.symm)

theorem insertL_tombL_insertL (L : Nat) (k : List V) (hk : k.length = L) :
    ∀ (P : List (NodeKey V)), sortedNK P → keyLens L P →
      insertL k (tombL (exactRange k) (insertL k P)) = insertL k P := by
  intro P
  induction P with
  | nil =>
    intro _ _
    show insertL k (tombL (exactRange k) [⟨false, k⟩]) = [⟨false, k⟩]
    rw [tombL_cons]
    rw [if_pos (by
      rw [show ((⟨false, k⟩ : NodeKey V)).value = k from rfl, rangeCmp_exact k k rfl]
      exact cmpK_self k)]
    show insertL k [⟨true, k⟩] = [⟨false, k⟩]
    simp only [insertL, cmpK_self]
  | cons nk rest ih =>
    intro hsort hlens
    obtain ⟨hrel, hrest⟩ := sortedNK_cons.mp hsort
    have hnkL : nk.value.length = L := hlens nk (List.mem_cons_self _ _)
    have hrestlens : keyLens L rest := fun b hb => hlens b (List.mem_cons_of_mem _ hb)
    cases hx : cmpK nk.value k with
    | lt =>
      have hins : insertL k (nk :: rest) = nk :: insertL k rest := by
        simp only [insertL, hx]
      rw [hins, tombL_cons]
      rw [if_neg (by
        rw [rangeCmp_exact k nk.value (by rw [hnkL, hk]), hx]
        decide)]
      have hins2 : insertL k (nk :: tombL (exactRange k) (insertL k rest)) =
          nk :: insertL k (tombL (exactRange k) (insertL k rest)) := by
        simp only [insertL, hx]
      rw [hins2, ih hrest hrestlens]
    | eq =>
      have hins : insertL k (nk :: rest) = (⟨false, nk.value⟩ : NodeKey V) :: rest := by
        simp only [insertL, hx]
      rw [hins, tombL_cons]
      rw [if_pos (by
        rw [show ((⟨false, nk.value⟩ : NodeKey V)).value = nk.value from rfl,
          rangeCmp_exact k nk.value (by rw [hnkL, hk])]
        exact hx)]
      have hrest_id : tombL (exactRange k) rest = rest := by
        refine tombL_id_of _ _ ?_
        intro b hb
        rw [rangeCmp_exact k b.value (by rw [hrestlens b hb, hk])]
        have hkb : cmpK k b.value = .lt :=
          cmpK_lt_of_eq_of_lt ((cmpK_eq_iff _ _).mpr ((cmpK_eq_iff _ _).mp hx).symm)
            (hrel b hb)
        rw [(cmpK_gt_iff_lt _ _).mpr hkb]
        decide
      rw [hrest_id]
      show insertL k ((⟨true, nk.value⟩ : NodeKey V) :: rest) =
        (⟨false, nk.value⟩ : NodeKey V) :: rest
      simp only [insertL, hx]
    | gt =>
      have hins : insertL k (nk :: rest) = (⟨false, k⟩ : NodeKey V) :: nk :: rest := by
        simp only [insertL, hx]
      rw [hins, tombL_cons, tombL_cons]
      rw [if_pos (by
        rw [show ((⟨false, k⟩ : NodeKey V)).value = k from rfl, rangeCmp_exact k k rfl]
        exact cmpK_self k)]
      rw [if_neg (by
        rw [rangeCmp_exact k nk.value (by rw [hnkL, hk]), hx]
        decide)]
      have hrest_id : tombL (exactRange k) rest = rest := by
        refine tombL_id_of _ _ ?_
        intro b hb
        rw [rangeCmp_exact k b.value (by rw [hrestlens b hb, hk])]
        have hkb : cmpK k b.value = .lt :=
          cmpK_lt_trans ((cmpK_gt_iff_lt _ _).mp hx) (hrel b hb)
        rw [(cmpK_gt_iff_lt _ _).mpr hkb]
        decide
      rw [hrest_id]
      show insertL k ((⟨true, k⟩ : NodeKey V) :: nk :: rest) =
        (⟨false, k⟩ : NodeKey V) :: nk :: rest
      simp only [insertL, cmpK_self]


theorem isEmptyB_eq_of (s t : Node V) (hws : s.WF) (hwt : t.WF) (hros : rootOk s)
    (hrot : rootOk t) (hflat : s.flattenP = t.flattenP) :
    isEmptyB s = isEmptyB t := by
  have hs := rootOk_isEmpty hws hros
  have ht := rootOk_isEmpty hwt hrot
  cases hes : isEmptyB s with
  | true =>
    have h := hs.mp hes
    rw [hflat] at h
    exact (ht.mpr h).symm
  | false =>
    cases het : isEmptyB t with
    | true =>
      have h := ht.mp het
      rw [← hflat] at h
      exact absurd (hs.mpr h) (by rw [hes]; decide)
    | false => rfl

theorem obsEquiv_of_rel (m L : Nat) (hm : 2 ≤ m) :
    ∀ (ops : List (TreeOp V)) (s t : Node V),
      (∀ op ∈ ops, opValid L op) →
      s.WF → t.WF → sortedNK s.flattenP → keyLens L s.flattenP →
      rootOk s → rootOk t → s.flattenP = t.flattenP →
      (∀ R rev, rowsInRange (applyTreeOps m s ops) R rev =
        rowsInRange (applyTreeOps m t ops) R rev) ∧
        isEmptyB (applyTreeOps m s ops) = isEmptyB (applyTreeOps m t ops) := by
  intro ops
  induction ops with
  | nil =>
    intro s t hval hws hwt hsort hlens hros hrot hflat
    have hsortt : sortedNK t.flattenP := hflat ▸ hsort
    have hlenst : keyLens L t.flattenP := hflat ▸ hlens
    constructor
    · intro R rev
      show rowsInRange s R rev = rowsInRange t R rev
      rw [rowsInRange_effect L s R rev hws hsort hlens,
        rowsInRange_effect L t R rev hwt hsortt hlenst, hflat]
    · exact isEmptyB_eq_of s t hws hwt hros hrot hflat
  | cons op rest ih =>
    intro s t hval hws hwt hsort hlens hros hrot hflat
    have hvrest : ∀ op2 ∈ rest, opValid L op2 :=
      fun op2 h2 => hval op2 (List.mem_cons_of_mem _ h2)
    have hsortt : sortedNK t.flattenP := hflat ▸ hsort
    have hlenst : keyLens L t.flattenP := hflat ▸ hlens
    cases op with
    | insert k =>
      have hkL : k.length = L := hval _ (List.mem_cons_self _ _)
      have heffs := insertBTree_effect m hm s k hws hsort
      have hefft := insertBTree_effect m hm t k hwt hsortt
      have hflat2 : (insertBTree m s k).flattenP = (insertBTree m t k).flattenP := by
        rw [heffs.1, hefft.1, hflat]
      have hsort2 : sortedNK (insertBTree m s k).flattenP := by
        rw [heffs.1]
        exact insertL_sorted hsort
      have hlens2 : keyLens L (insertBTree m s k).flattenP := by
        rw [heffs.1]
        intro nk hnk
        rcases insertL_mem_value nk hnk with hv | ⟨a, ha, hv⟩
        · rw [hv]
          exact hkL
        · rw [hv]
          exact hlens a ha
      exact ih (insertBTree m s k) (insertBTree m t k) hvrest heffs.2 hefft.2 hsort2
        hlens2 (insertBTree_rootOk m s k hros) (insertBTree_rootOk m t k hrot) hflat2
    | deleteRange R0 =>
      have heffs := deleteRangeB_effect R0 L s hws hsort hlens
      have hefft := deleteRangeB_effect R0 L t hwt hsortt hlenst
      have hflat2 : (deleteRangeB s R0).flattenP = (deleteRangeB t R0).flattenP := by
        rw [heffs.1, hefft.1, hflat]
      have hsort2 : sortedNK (deleteRangeB s R0).flattenP := by
        rw [heffs.1]
        exact tombL_sorted hsort
      have hlens2 : keyLens L (deleteRangeB s R0).flattenP := by
        rw [heffs.1]
        exact tombL_keyLens hlens
      exact ih (deleteRangeB s R0) (deleteRangeB t R0) hvrest heffs.2.1 hefft.2.1 hsort2
        hlens2 (deleteRangeB_rootOk R0 L s hws hsort hlens hros)
        (deleteRangeB_rootOk R0 L t hwt hsortt hlenst hrot) hflat2

theorem obsEquiv_of_state (m L : Nat) (hm : 2 ≤ m) (s t : Node V)
    (hws : s.WF) (hwt : t.WF) (hsort : sortedNK s.flattenP)
    (hlens : keyLens L s.flattenP) (hros : rootOk s) (hrot : rootOk t)
    (hflat : s.flattenP = t.flattenP) : obsEquiv m L s t :=
  fun ops hval =>
    obsEquiv_of_rel m L hm ops s t hval hws hwt hsort hlens hros hrot hflat


/-- C1: inserting any finite sequence of schema-valid keys (all of the
schema's arity `L`) at a single transaction into a freshly created B-Tree
yields a `keys` stream that is strictly ascending under the collator — so
no two collator-equal elements appear and every key appears at most once —
and whose elements are exactly the inserted keys (duplicates coalesced):
a key is in the stream iff it occurs in the inserted sequence. -/
theorem claim_C1_insert (m L : Nat) (hm : 2 ≤ m) (ksq : List (List V))
    (hval : ∀ k ∈ ksq, k.length = L) :
    (keysStream (applyTreeOps m emptyRoot (ksq.map TreeOp.insert))).Pairwise
        (fun a b => cmpK a b = .lt) ∧
      ∀ k, k ∈ keysStream (applyTreeOps m emptyRoot (ksq.map TreeOp.insert)) ↔
        k ∈ ksq := by
  have hinv := applyTreeOps_insert_invariant m L hm ksq emptyRoot hval emptyRoot_WF
    (by rw [emptyRoot_flattenP]; exact List.Pairwise.nil)
    (by rw [emptyRoot_flattenP]; intro nk hnk; cases hnk)
    (by rw [emptyRoot_flattenP]; intro nk hnk; cases hnk)
  obtain ⟨hwf, hsort, hlens, hlive, hflat⟩ := hinv
  rw [emptyRoot_flattenP] at hflat
  have hks := keysStream_effect L _ hwf hsort hlens
  have hlive_filter : (applyTreeOps m emptyRoot (ksq.map TreeOp.insert)).flattenP.filter
      (fun nk => !nk.deleted) =
      (applyTreeOps m emptyRoot (ksq.map TreeOp.insert)).flattenP := by
    refine List.filter_eq_self.mpr ?_
    intro a ha
    rw [hlive a ha]
    rfl
  have hks2 : keysStream (applyTreeOps m emptyRoot (ksq.map TreeOp.insert)) =
      (applyTreeOps m emptyRoot (ksq.map TreeOp.insert)).flattenP.map
        (fun nk => nk.value) := by
    rw [hks]
    unfold liveList
    rw [hlive_filter]
  constructor
  · rw [hks2]
    exact List.Pairwise.map _ (fun a b h => h) hsort
  · intro k
    rw [hks2, List.mem_map, hflat, foldl_insertL_mem k ksq []]
    simp

/-- C1 witness: the spec's order-forcing example, scaled to one-column
integer keys, inserted into a fresh order-2 tree. -/
theorem claim_C1_witness :
    (∀ k ∈ ([[5], [1], [9], [3], [7], [2], [8], [4], [6], [0]] : List (List Int)),
        k.length = 1) ∧
      ((keysStream (applyTreeOps 2 emptyRoot
          (([[5], [1], [9], [3], [7], [2], [8], [4], [6], [0]] :
            List (List Int)).map TreeOp.insert))).Pairwise
          (fun a b => cmpK a b = .lt) ∧
        ∀ k, k ∈ keysStream (applyTreeOps 2 emptyRoot
            (([[5], [1], [9], [3], [7], [2], [8], [4], [6], [0]] :
              List (List Int)).map TreeOp.insert)) ↔
          k ∈ ([[5], [1], [9], [3], [7], [2], [8], [4], [6], [0]] :
            List (List Int))) :=
  ⟨by decide, claim_C1_insert 2 1 (by omega) _ (by decide)⟩

/-- C3: starting from any well-formed tree state whose physical key
sequence is sorted and schema-valid (arity `L`, matching the inserted
key), the composite `insert k; delete_range(exact k); insert k` is
observationally equivalent to a single `insert k`: every subsequent
sequence of valid operations yields the same `rows_in_range` stream for
every range and direction and the same `is_empty` answer.  The delete
tombstones the entry and the re-insert clears the tombstone. -/
theorem claim_C3_tombstone_revival (m L : Nat) (hm : 2 ≤ m) (s : Node V) (k : List V)
    (hk : k.length = L) (hwf : s.WF) (hsort : sortedNK s.flattenP)
    (hlens : keyLens L s.flattenP) (hro : rootOk s) :
    obsEquiv m L
      (applyTreeOps m s
        [TreeOp.insert k, TreeOp.deleteRange (exactRange k), TreeOp.insert k])
      (applyTreeOps m s [TreeOp.insert k]) := by
  have heff1 := insertBTree_effect m hm s k hwf hsort
  have hsort1 : sortedNK (insertBTree m s k).flattenP := by
    rw [heff1.1]
    exact insertL_sorted hsort
  have hlens1 : keyLens L (insertBTree m s k).flattenP := by
    rw [heff1.1]
    intro nk hnk
    rcases insertL_mem_value nk hnk with hv | ⟨a, ha, hv⟩
    · rw [hv]
      exact hk
    · rw [hv]
      exact hlens a ha
  have hro1 : rootOk (insertBTree m s k) := insertBTree_rootOk m s k hro
  have heff2 := deleteRangeB_effect (exactRange k) L (insertBTree m s k) heff1.2
    hsort1 hlens1
  have hsort2 : sortedNK (deleteRangeB (insertBTree m s k) (exactRange k)).flattenP := by
    rw [heff2.1]
    exact tombL_sorted hsort1
  have hlens2 : keyLens L (deleteRangeB (insertBTree m s k) (exactRange k)).flattenP := by
    rw [heff2.1]
    exact tombL_keyLens hlens1
  have hro2 : rootOk (deleteRangeB (insertBTree m s k) (exactRange k)) :=
    deleteRangeB_rootOk (exactRange k) L _ heff1.2 hsort1 hlens1 hro1
  have heff3 := insertBTree_effect m hm
    (deleteRangeB (insertBTree m s k) (exactRange k)) k heff2.2.1 hsort2
  have hsort3 : sortedNK (insertBTree m
      (deleteRangeB (insertBTree m s k) (exactRange k)) k).flattenP := by
    rw [heff3.1]
    exact insertL_sorted hsort2
  have hlens3 : keyLens L (insertBTree m
      (deleteRangeB (insertBTree m s k) (exactRange k)) k).flattenP := by
    rw [heff3.1]
    intro nk hnk
    rcases insertL_mem_value nk hnk with hv | ⟨a, ha, hv⟩
    · rw [hv]
      exact hk
    · rw [hv]
      exact hlens2 a ha
  have hro3 : rootOk (insertBTree m
      (deleteRangeB (insertBTree m s k) (exactRange k)) k) :=
    insertBTree_rootOk m _ k hro2
  have hflat3 : (insertBTree m
      (deleteRangeB (insertBTree m s k) (exactRange k)) k).flattenP =
      (insertBTree m s k).flattenP := by
    rw [heff3.1, heff2.1, heff1.1]
    exact insertL_tombL_insertL L k hk s.flattenP hsort hlens
  exact obsEquiv_of_state m L hm _ _ heff3.2 heff1.2 hsort3 hlens3 hro3 hro1 hflat3

/-- C3 witness: a one-column integer key inserted, exact-deleted and
re-inserted in a fresh order-2 tree. -/
theorem claim_C3_witness :
    (([5] : List Int).length = 1 ∧ rootOk (emptyRoot : Node Int)) ∧
      obsEquiv 2 1
        (applyTreeOps 2 (emptyRoot : Node Int)
          [TreeOp.insert [5], TreeOp.deleteRange (exactRange [5]), TreeOp.insert [5]])
        (applyTreeOps 2 (emptyRoot : Node Int) [TreeOp.insert [5]]) :=
  ⟨⟨rfl, Or.inl rfl⟩,
    claim_C3_tombstone_revival 2 1 (by omega) emptyRoot [5] rfl emptyRoot_WF
      (by rw [emptyRoot_flattenP]; exact List.Pairwise.nil)
      (by rw [emptyRoot_flattenP]; intro nk hnk; cases hnk)
      (Or.inl rfl)⟩

/-- C10: `is_empty` is physical — it reports whether the root node's key
list is empty, counting tombstoned entries — and the state reached from a
fresh tree by `insert [5]; delete_range(exact [5])` (a single-leaf tree
whose only key is tombstoned) has an empty `keys` stream while `is_empty`
still returns `false`. -/
theorem claim_C10_is_empty :
    (∀ (W : Type) (node : Node W), isEmptyB node = node.keys.isEmpty) ∧
      keysStream (applyTreeOps 2 emptyRoot
        [TreeOp.insert [5], TreeOp.deleteRange (exactRange ([5] : List Int))]) = [] ∧
      isEmptyB (applyTreeOps 2 emptyRoot
        [TreeOp.insert [5], TreeOp.deleteRange (exactRange ([5] : List Int))]) =
        false := by
  refine ⟨fun W node => rfl, ?_⟩
  have heff1 := insertBTree_effect 2 (by omega) (emptyRoot : Node Int) [5] emptyRoot_WF
    (by rw [emptyRoot_flattenP]; exact List.Pairwise.nil)
  have hx_flat : (insertBTree 2 (emptyRoot : Node Int) [5]).flattenP =
      [⟨false, [5]⟩] := by
    rw [heff1.1, emptyRoot_flattenP]
    rfl
  have hsort1 : sortedNK (insertBTree 2 (emptyRoot : Node Int) [5]).flattenP := by
    rw [hx_flat]
    exact List.pairwise_singleton _ _
  have hlens1 : keyLens 1 (insertBTree 2 (emptyRoot : Node Int) [5]).flattenP := by
    rw [hx_flat]
    intro nk hnk
    rw [List.mem_singleton.mp hnk]
    rfl
  have hro1 : rootOk (insertBTree 2 (emptyRoot : Node Int) [5]) :=
    insertBTree_rootOk 2 emptyRoot [5] (Or.inl rfl)
  have heff2 := deleteRangeB_effect (exactRange [5]) 1
    (insertBTree 2 (emptyRoot : Node Int) [5]) heff1.2 hsort1 hlens1
  have hst_flat : (deleteRangeB (insertBTree 2 (emptyRoot : Node Int) [5])
      (exactRange [5])).flattenP = [⟨true, [5]⟩] := by
    rw [heff2.1, hx_flat]
    decide
  have hsort2 : sortedNK (deleteRangeB (insertBTree 2 (emptyRoot : Node Int) [5])
      (exactRange [5])).flattenP := by
    rw [hst_flat]
    exact List.pairwise_singleton _ _
  have hlens2 : keyLens 1 (deleteRangeB (insertBTree 2 (emptyRoot : Node Int) [5])
      (exactRange [5])).flattenP := by
    rw [hst_flat]
    intro nk hnk
    rw [List.mem_singleton.mp hnk]
    rfl
  have hro2 : rootOk (deleteRangeB (insertBTree 2 (emptyRoot : Node Int) [5])
      (exactRange [5])) :=
    deleteRangeB_rootOk (exactRange [5]) 1 _ heff1.2 hsort1 hlens1 hro1
  have hst : applyTreeOps 2 (emptyRoot : Node Int)
      [TreeOp.insert [5], TreeOp.deleteRange (exactRange [5])] =
      deleteRangeB (insertBTree 2 (emptyRoot : Node Int) [5]) (exactRange [5]) := rfl
  rw [hst]
  constructor
  · rw [keysStream_effect 1 _ heff2.2.1 hsort2 hlens2, hst_flat]
    rfl
  · have hiff := rootOk_isEmpty heff2.2.1 hro2
    cases h : isEmptyB (deleteRangeB (insertBTree 2 (emptyRoot : Node Int) [5])
        (exactRange [5])) with
    | false => rfl
    | true =>
      exfalso
      have h2 := hiff.mp h
      rw [hst_flat] at h2
      exact List.cons_ne_nil _ _ h2

end TC
